import Mathlib

/-!
# A verification development for the flat `tfs` file system (`fs.c`)

The embedding follows `fs.c` function by function.  A disk block is the raw
array of bytes that `disk_read` fills (`union tfs_block`, member `data`); the
other members of the union are views of the same bytes, decoded as packed
little-endian 32-bit integers exactly as the C structs lay them out.
Undefined behaviour of the C program (an array index outside the declared
bounds, the use of an uninitialised local, a block number outside the device)
is made explicit as a `Fault`.
-/

namespace TFS

/-! ## Constants of `fs.c` -/

/-- Modelled from the spec: `DISK_BLOCK_SIZE` comes from `disk.h`, which is not
part of the sources.  Every member of `union tfs_block` (1024 four-byte
pointers, 128 thirty-two-byte inodes, 128 thirty-two-byte directory entries)
is "sized to exactly one block", which fixes the value 4096. -/
def DISK_BLOCK_SIZE : Nat := 4096

def NUM_BLOCKS : Nat := 2048
def NUM_INODES : Nat := 512
def NUM_DENTRIES_PER_BLOCK : Nat := 128
def INODES_PER_BLOCK : Nat := 128
def POINTERS_PER_INODE : Nat := 5
def POINTERS_PER_BLOCK : Nat := 1024
def BITS_PER_UINT : Nat := 32

/-- The value of `sizeof(((struct tfs_dir_entry *)0)->fname)`. -/
def FNAME_SIZE : Nat := 24

/-! ## Machine integers -/

/-- The value of a C `int` holding the 32-bit pattern `u`. -/
def toInt32 (u : Nat) : Int :=
  if u % 4294967296 < 2147483648 then (u % 4294967296 : Nat)
  else ((u % 4294967296 : Nat) : Int) - 4294967296

/-- Two's-complement wrap-around of an `int` result. -/
def wrap32 (x : Int) : Int := toInt32 (x % 4294967296).toNat

/-! ## Bytes and blocks -/

abbrev Byte := Fin 256

/-- The member `data` of `union tfs_block`: the byte at each index. -/
abbrev Block := Nat → Byte

/-- The caller's output buffer of `tfs_read`, indexed from `data`. -/
abbrev Buffer := Nat → Byte

/-- The unsigned 32-bit word stored little-endian at byte offset `o`. -/
def ld32 (b : Block) (o : Nat) : Nat :=
  (b o).val + 256 * (b (o + 1)).val + 65536 * (b (o + 2)).val + 16777216 * (b (o + 3)).val

/-- The `int` stored at byte offset `o`. -/
def ldInt (b : Block) (o : Nat) : Int := toInt32 (ld32 b o)

/-- Store the unsigned 32-bit word `w` at byte offset `o`. -/
def st32 (b : Block) (o : Nat) (w : Nat) : Block := fun i =>
  if i = o then Fin.ofNat (w % 256)
  else if i = o + 1 then Fin.ofNat (w / 256 % 256)
  else if i = o + 2 then Fin.ofNat (w / 65536 % 256)
  else if i = o + 3 then Fin.ofNat (w / 16777216 % 256)
  else b i

/-- The effect of `memset(p, 0, n)` where `p` is at byte offset `o` of the block. -/
def memset0 (b : Block) (o n : Nat) : Block := fun i =>
  if o ≤ i ∧ i < o + n then 0 else b i

/-! ## Faults -/

inductive Fault where
  /-- an array index or a block number outside its bounds -/
  | bounds
  /-- use of a local variable that was never assigned -/
  | uninit
  /-- the iteration budget of a loop was exhausted -/
  | fuel
  deriving DecidableEq, Repr

/-- Check of an index against the declared length `n` of a C array. -/
def checkIndex (n : Nat) (i : Int) : Except Fault Nat :=
  if 0 ≤ i ∧ i < n then .ok i.toNat else .error .bounds

/-! ## The block device -/

/-- Modelled from the spec: the block device of `disk.h`/`disk.c`, which is not
part of the sources ("Block Device Adapter (external): exposes
`read_block(index)` and `write_block(index, bytes)`").  The device holds
`NUM_BLOCKS` blocks; `nreads` and `nwrites` count the completed transfers. -/
structure Disk where
  blocks : Nat → Block
  nreads : Nat
  nwrites : Nat

/-- Computations of the file system: they may fault and they act on the device. -/
abbrev FS := StateT Disk (Except Fault)

/-- A computation that does not touch the device. -/
def liftE {α : Type} (x : Except Fault α) : FS α := fun d =>
  match x with
  | .ok a => .ok (a, d)
  | .error e => .error e

/-- Modelled from the spec: `disk_read(blocknum, data)` of the absent `disk.c`,
defined for a (non-negative) block number of the device. -/
def disk_read (blocknum : Int) : FS Block := fun d =>
  if 0 ≤ blocknum ∧ blocknum < NUM_BLOCKS then
    .ok (d.blocks blocknum.toNat, { d with nreads := d.nreads + 1 })
  else .error .bounds

/-- Modelled from the spec: `disk_write(blocknum, data)` of the absent `disk.c`,
defined for a (non-negative) block number of the device. -/
def disk_write (blocknum : Int) (data : Block) : FS Unit := fun d =>
  if 0 ≤ blocknum ∧ blocknum < NUM_BLOCKS then
    .ok ((), { d with
                blocks := fun k => if k = blocknum.toNat then data else d.blocks k,
                nwrites := d.nwrites + 1 })
  else .error .bounds

/-! ## Views of a block (`union tfs_block`) -/

/-- The field `block.super.root_inode`. -/
def super_root_inode (b : Block) : Int := ldInt b 12

/-- The word `block.super.block_in_use[w]` for `w < 64`. -/
def super_block_in_use (b : Block) (w : Nat) : Nat := ld32 b (16 + 4 * w)

/-- The word `block.super.inode_in_use[w]` for `w < 16`. -/
def super_inode_in_use (b : Block) (w : Nat) : Nat := ld32 b (272 + 4 * w)

structure tfs_inode where
  type : Int
  size : Int
  direct : Nat → Int
  indirect : Int

/-- The record `block.inode[slot]` for `slot < 128`. -/
def get_inode (b : Block) (slot : Nat) : tfs_inode :=
  { type := ldInt b (32 * slot)
    size := ldInt b (32 * slot + 4)
    direct := fun j => ldInt b (32 * slot + 8 + 4 * j)
    indirect := ldInt b (32 * slot + 28) }

/-- The field `block.dentry[slot].valid`. -/
def dentry_valid (b : Block) (slot : Nat) : Int := ldInt b (32 * slot)

/-- The byte `block.dentry[slot].fname[k]`. -/
def dentry_fname (b : Block) (slot k : Nat) : Byte := b (32 * slot + 4 + k)

/-- The field `block.dentry[slot].inum`. -/
def dentry_inum (b : Block) (slot : Nat) : Int := ldInt b (32 * slot + 28)

/-- The entry `block.pointers[i]` for `i < 1024`. -/
def get_pointer (b : Block) (i : Nat) : Int := ldInt b (4 * i)

/-! ## C strings -/

/-- The value of `strlen(s)`: the C string denoted by a list of bytes ends at its first NUL,
or at the terminator that follows the list. -/
def strlen : List Byte → Nat
  | [] => 0
  | c :: cs => if c = 0 then 0 else strlen cs + 1

/-- The test `strcmp(block.dentry[slot].fname + k, s) == 0`: the bytes are compared in
turn, up to the first difference or the common NUL. -/
def strcmp_eq (b : Block) (slot : Nat) : Nat → List Byte → Bool
  | k, [] => dentry_fname b slot k = 0
  | k, c :: cs =>
    if c = 0 then dentry_fname b slot k = 0
    else dentry_fname b slot k = c && strcmp_eq b slot (k + 1) cs

/-! ## `tfs_get_inumber` (lines 292-325) -/

/-- The loop of lines 309-314, started at index `i` with `n` indices left: the
first nonzero direct pointer; `none` when the loop ends without assigning
`root_direct`. -/
def find_root_direct (root_inode : tfs_inode) : Nat → Nat → Option Int
  | 0, _ => none
  | n + 1, i =>
    if root_inode.direct i ≠ 0 then some (root_inode.direct i)
    else find_root_direct root_inode n (i + 1)

/-- The loop of lines 318-322 followed by `return 0`, started at slot `i` with
`n` slots left. -/
def scan_dentries (block : Block) (filename : List Byte) : Nat → Nat → Int
  | 0, _ => 0
  | n + 1, i =>
    if dentry_valid block i ≠ 0 ∧ strcmp_eq block i 0 filename = true then dentry_inum block i
    else scan_dentries block filename n (i + 1)

def tfs_get_inumber (filename : List Byte) : FS Int :=
  if strlen filename ≥ FNAME_SIZE then pure 0
  else do
    let block ← disk_read 0
    let root_inode_number := super_root_inode block
    let root_inode_block := root_inode_number.tdiv INODES_PER_BLOCK + 1
    let block ← disk_read root_inode_block
    let slot ← liftE (checkIndex INODES_PER_BLOCK (root_inode_number.tmod INODES_PER_BLOCK))
    let root_inode := get_inode block slot
    match find_root_direct root_inode POINTERS_PER_INODE 0 with
    | none => throw Fault.uninit
    | some root_direct =>
      let block ← disk_read root_direct
      pure (scan_dentries block filename NUM_DENTRIES_PER_BLOCK 0)

/-! ## `tfs_getsize` (lines 327-339) -/

def tfs_getsize (filename : List Byte) : FS Int := do
  let inumber ← tfs_get_inumber filename
  if inumber ≤ 0 then pure (-1)
  else do
    let inode_block := inumber.tdiv INODES_PER_BLOCK + 1
    let block ← disk_read inode_block
    let slot ← liftE (checkIndex INODES_PER_BLOCK (inumber.tmod INODES_PER_BLOCK))
    pure (get_inode block slot).size

/-! ## `tfs_read` (lines 341-393) -/

/-- Lines 371-377: the physical block number of logical block `block_index`. -/
def resolve_block (inode : tfs_inode) (block_index : Int) : FS Int :=
  if block_index < POINTERS_PER_INODE then do
    let i ← liftE (checkIndex POINTERS_PER_INODE block_index)
    pure (inode.direct i)
  else do
    let indirect_block ← disk_read inode.indirect
    let i ← liftE (checkIndex POINTERS_PER_BLOCK (block_index - POINTERS_PER_INODE))
    pure (get_pointer indirect_block i)

/-- The call `memcpy(data + dst, block.data + src, n)`; the source range must lie inside
the block. -/
def memcpy (data : Buffer) (dst : Int) (block : Block) (src n : Int) : Except Fault Buffer :=
  if 0 ≤ dst ∧ 0 ≤ src ∧ 0 ≤ n ∧ src + n ≤ DISK_BLOCK_SIZE then
    .ok (fun i => if dst.toNat ≤ i ∧ i < dst.toNat + n.toNat then block (src.toNat + (i - dst.toNat))
                  else data i)
  else .error .bounds

/-- The `while (bytes_read < length)` loop of lines 366-390; the first argument
bounds the number of iterations. -/
def read_loop (inode : tfs_inode) (offset length : Int) : Nat → Int → Buffer → FS (Int × Buffer)
  | 0, _, _ => throw Fault.fuel
  | fuel + 1, bytes_read, data =>
    if bytes_read < length then do
      let block_index := (wrap32 (offset + bytes_read)).tdiv DISK_BLOCK_SIZE
      let block_offset := (wrap32 (offset + bytes_read)).tmod DISK_BLOCK_SIZE
      let block_number ← resolve_block inode block_index
      if block_number ≤ 0 then pure (bytes_read, data)
      else do
        let block ← disk_read block_number
        let to_read := DISK_BLOCK_SIZE - block_offset
        let to_read := if wrap32 (bytes_read + to_read) > length then wrap32 (length - bytes_read)
                       else to_read
        let data ← liftE (memcpy data bytes_read block block_offset to_read)
        read_loop inode offset length fuel (wrap32 (bytes_read + to_read)) data
    else pure (bytes_read, data)

def tfs_read (inumber : Int) (data : Buffer) (length offset : Int) : FS (Int × Buffer) :=
  if inumber ≤ 0 ∨ length < 0 ∨ offset < 0 then pure (0, data)
  else do
    let inode_block_number := inumber.tdiv INODES_PER_BLOCK + 1
    let inode_block ← disk_read inode_block_number
    let slot ← liftE (checkIndex INODES_PER_BLOCK (inumber.tmod INODES_PER_BLOCK))
    let inode := get_inode inode_block slot
    if offset ≥ inode.size then pure (0, data)
    else
      let length := if wrap32 (offset + length) > inode.size then inode.size - offset else length
      read_loop inode offset length (length.toNat + 1) 0 data

/-! ## `tfs_delete` (lines 216-289) -/

/-- The word `w & ~(1 << k)`, on 32 bits. -/
def clear_bit (w k : Nat) : Nat := w &&& (4294967295 ^^^ (1 <<< k))

/-- The statement `superblock.super.block_in_use[p / 32] &= ~(1 << (p % 32))`
(lines 234, 246, 251). -/
def free_block (superblock : Block) (p : Int) : Except Fault Block := do
  let w ← checkIndex (NUM_BLOCKS / BITS_PER_UINT) (p.tdiv BITS_PER_UINT)
  let k ← checkIndex BITS_PER_UINT (p.tmod BITS_PER_UINT)
  pure (st32 superblock (16 + 4 * w) (clear_bit (super_block_in_use superblock w) k))

/-- The statement `superblock.super.inode_in_use[n / 32] &= ~(1 << (n % 32))`
(line 261). -/
def free_inode (superblock : Block) (n : Int) : Except Fault Block := do
  let w ← checkIndex (NUM_INODES / BITS_PER_UINT) (n.tdiv BITS_PER_UINT)
  let k ← checkIndex BITS_PER_UINT (n.tmod BITS_PER_UINT)
  pure (st32 superblock (272 + 4 * w) (clear_bit (super_inode_in_use superblock w) k))

/-- The loops of lines 232-236 (over `inode->direct`) and 244-248 (over
`indirect_block.pointers`), started at index `i` with `n` indices left: the
bit of every nonzero pointer is cleared. -/
def free_pointers (ptr : Nat → Int) : Nat → Nat → Block → Except Fault Block
  | 0, _, superblock => pure superblock
  | n + 1, i, superblock =>
    if ptr i ≠ 0 then do
      let superblock ← free_block superblock (ptr i)
      free_pointers ptr n (i + 1) superblock
    else free_pointers ptr n (i + 1) superblock

/-- The loop of lines 275-280, started at slot `i` with `n` slots left: the
first valid entry whose `inum` is `inumber` is zeroed. -/
def clear_dentry (dir_block : Block) (inumber : Int) : Nat → Nat → Block
  | 0, _ => dir_block
  | n + 1, i =>
    if dentry_valid dir_block i ≠ 0 ∧ dentry_inum dir_block i = inumber then
      memset0 dir_block (32 * i) 32
    else clear_dentry dir_block inumber n (i + 1)

def tfs_delete (filename : List Byte) : FS Int := do
  let inumber ← tfs_get_inumber filename
  if inumber ≤ 0 then pure 0
  else do
    let superblock ← disk_read 0
    let inode_block_number := inumber.tdiv INODES_PER_BLOCK + 1
    let inode_block ← disk_read inode_block_number
    let slot ← liftE (checkIndex INODES_PER_BLOCK (inumber.tmod INODES_PER_BLOCK))
    let inode := get_inode inode_block slot
    let superblock ← liftE (free_pointers inode.direct POINTERS_PER_INODE 0 superblock)
    let superblock ←
      if inode.indirect ≠ 0 then do
        let indirect_block ← disk_read inode.indirect
        let superblock ← liftE (free_pointers (get_pointer indirect_block) POINTERS_PER_BLOCK 0 superblock)
        liftE (free_block superblock inode.indirect)
      else pure superblock
    let inode_block := memset0 inode_block (32 * slot) 32
    disk_write inode_block_number inode_block
    let superblock ← liftE (free_inode superblock inumber)
    let root_block_number := (super_root_inode superblock).tdiv INODES_PER_BLOCK + 1
    let root_block ← disk_read root_block_number
    let root_slot ← liftE (checkIndex INODES_PER_BLOCK ((super_root_inode superblock).tmod INODES_PER_BLOCK))
    let root_dir_block_number := (get_inode root_block root_slot).direct 0
    let dir_block ← disk_read root_dir_block_number
    let dir_block := clear_dentry dir_block inumber NUM_DENTRIES_PER_BLOCK 0
    disk_write root_dir_block_number dir_block
    disk_write 0 superblock
    pure inumber

/-! ## Notions used to state the properties -/

/-- The inode record numbered `n` of a device: slot `n % 128` of block `n / 128 + 1`. -/
def inode_of (blocks : Nat → Block) (n : Int) : tfs_inode :=
  get_inode (blocks (n / 128 + 1).toNat) (n % 128).toNat

/-- The physical block of logical block `k` of an inode: `direct[k]` for `k < 5`,
entry `k - 5` of the pointer table held in block `indirect` otherwise. -/
def phys (blocks : Nat → Block) (inode : tfs_inode) (k : Int) : Int :=
  if k < 5 then inode.direct k.toNat else get_pointer (blocks inode.indirect.toNat) (k - 5).toNat

/-- The byte at position `p` of a file: byte `p % 4096` of the physical block of
logical block `p / 4096`. -/
def file_byte (blocks : Nat → Block) (inode : tfs_inode) (p : Int) : Byte :=
  blocks (phys blocks inode (p / 4096)).toNat (p % 4096).toNat

/-- Logical block `k` can be looked up and fetched without leaving the pointer
table or the device: `k` is below `5 + 1024`, the indirect block (when `k ≥ 5`)
is a block of the device, and the physical block is below `NUM_BLOCKS`. -/
def block_defined (blocks : Nat → Block) (inode : tfs_inode) (k : Int) : Prop :=
  k < 1029 ∧ (5 ≤ k → 0 ≤ inode.indirect ∧ inode.indirect < 2048) ∧ phys blocks inode k < 2048

instance (blocks : Nat → Block) (inode : tfs_inode) (k : Int) :
    Decidable (block_defined blocks inode k) := by
  unfold block_defined; infer_instance

/-- The bytes copied by one `memcpy` of the read loop. -/
def copy_bytes (data : Buffer) (dst : Int) (block : Block) (src n : Int) : Buffer := fun i =>
  if dst.toNat ≤ i ∧ i < dst.toNat + n.toNat then block (src.toNat + (i - dst.toNat)) else data i

/-- Two device states with the same blocks and the same number of writes. -/
def same_blocks (d d1 : Disk) : Prop := d1.blocks = d.blocks ∧ d1.nwrites = d.nwrites

/-- What the read loop guarantees when, entered with `bytes_read = br` and
buffer `data`, it leaves with `bytes_read = r` and buffer `data'`. -/
def loop_post (blocks : Nat → Block) (inode : tfs_inode) (offset length br : Int)
    (data : Buffer) (r : Int) (data' : Buffer) : Prop :=
  br ≤ r ∧ r ≤ length ∧
  (∀ i : Nat, (i : Int) < br ∨ r ≤ (i : Int) → data' i = data i) ∧
  (∀ i : Nat, br ≤ (i : Int) → (i : Int) < r → data' i = file_byte blocks inode (offset + i)) ∧
  (∀ k : Int, (offset + br) / 4096 ≤ k → br < r → k ≤ (offset + r - 1) / 4096 →
    0 < phys blocks inode k) ∧
  (r = length ∨
    (r < length ∧ phys blocks inode ((offset + r) / 4096) ≤ 0 ∧
      (r = br ∨ (offset + r) % 4096 = 0)))

/-- The read loop, entered with `bytes_read = br`, meets a logical block that
cannot be looked up or fetched before it meets a hole. -/
def loop_fault (blocks : Nat → Block) (inode : tfs_inode) (offset length br : Int) : Prop :=
  br < length ∧ ∃ k : Int, (offset + br) / 4096 ≤ k ∧ k ≤ (offset + length - 1) / 4096 ∧
    (∀ j : Int, (offset + br) / 4096 ≤ j → j < k → 0 < phys blocks inode j) ∧
    ¬ block_defined blocks inode k

/-- The bytes of `block.dentry[slot].fname` from index `k`, at most `n` of them,
up to the first NUL. -/
def fname_from (b : Block) (slot : Nat) : Nat → Nat → List Byte
  | 0, _ => []
  | n + 1, k =>
    if dentry_fname b slot k = 0 then []
    else dentry_fname b slot k :: fname_from b slot n (k + 1)

/-- The name stored in `block.dentry[slot]`: the bytes of the 24-byte field
before its first NUL. -/
def dentry_name (b : Block) (slot : Nat) : List Byte := fname_from b slot 24 0

/-- The characters of the C string denoted by a list of bytes: those before the
first NUL. -/
def c_string : List Byte → List Byte
  | [] => []
  | c :: cs => if c = 0 then [] else c :: c_string cs

/-- Slot `slot` of a directory block is valid and carries the name `name`. -/
def entry_matches (b : Block) (name : List Byte) (slot : Nat) : Prop :=
  dentry_valid b slot ≠ 0 ∧ dentry_name b slot = c_string name

instance (b : Block) (name : List Byte) (slot : Nat) : Decidable (entry_matches b name slot) := by
  unfold entry_matches; infer_instance

/-- The contents of the device after `disk_write(k, b)`. -/
def write_block (blocks : Nat → Block) (k : Nat) (b : Block) : Nat → Block := fun i =>
  if i = k then b else blocks i

/-- The contents of the device once `tfs_delete` has zeroed the record of inode
`n` and written its table block back (line 258). -/
def inode_cleared (blocks : Nat → Block) (n : Int) : Nat → Block :=
  write_block blocks (n / 128 + 1).toNat
    (memset0 (blocks (n / 128 + 1).toNat) (32 * (n % 128).toNat) 32)

/-- The directory block number used by `tfs_delete` (lines 264-268): `direct[0]`
of the root inode, read back after the record of inode `n` has been zeroed. -/
def delete_dir_block (blocks : Nat → Block) (n : Int) : Int :=
  (get_inode
    (inode_cleared blocks n ((super_root_inode (blocks 0)).tdiv 128 + 1).toNat)
    ((super_root_inode (blocks 0)).tmod 128).toNat).direct 0

/-- The superblock computed in memory by `tfs_delete` for inode `n` (lines
232-252 and 261). -/
def delete_super (blocks : Nat → Block) (n : Int) : Except Fault Block := do
  let superblock ← free_pointers (inode_of blocks n).direct 5 0 (blocks 0)
  let superblock ←
    if (inode_of blocks n).indirect ≠ 0 then do
      let superblock ← free_pointers (get_pointer (blocks (inode_of blocks n).indirect.toNat))
        1024 0 superblock
      free_block superblock (inode_of blocks n).indirect
    else pure superblock
  free_inode superblock n

/-- The contents of the device after `tfs_delete` has removed inode `n` and
written the three blocks back, `superblock` being the superblock it computed. -/
def delete_blocks (blocks : Nat → Block) (n : Int) (superblock : Block) : Nat → Block :=
  write_block
    (write_block (inode_cleared blocks n) (delete_dir_block blocks n).toNat
      (clear_dentry (inode_cleared blocks n (delete_dir_block blocks n).toNat) n 128 0))
    0 superblock

/-! ## Example images -/

/-- The block whose nonzero bytes are listed as (index, value) pairs. -/
def block_of (l : List (Nat × Nat)) : Block := fun i =>
  match l.lookup i with
  | some v => Fin.ofNat v
  | none => 0

/-- A data block of the example image: byte `i` of block `k` is `k + i` modulo 256. -/
def example_data (k : Nat) : Block := fun i => Fin.ofNat (k + i)

/-- Superblock of the example image: valid signature, 2048 blocks, 512 inodes,
root inode 1, blocks 4 to 13 and inodes 1 to 5 in use. -/
def example_super : Block :=
  block_of [(0, 0x45), (1, 0x05), (2, 0x45), (3, 0xc3), (5, 8), (9, 2), (12, 1),
    (16, 0xf0), (17, 0x3f), (272, 0x3e)]

/-- First inode-table block of the example image: the root directory (inode 1,
one block, number 4), `a.txt` (inode 2, 10 bytes in block 5), `big` (inode 3,
20580 bytes in blocks 6 to 10 and, through the indirect block 11, block 12),
`sparse` (inode 4, 10 bytes, no block) and inode 5 (5000 bytes, the first
block is block 13, the second block is missing). -/
def example_inodes : Block :=
  block_of [(32, 2), (37, 0x10), (40, 4),
    (64, 1), (68, 10), (72, 5),
    (96, 1), (100, 0x64), (101, 0x50), (104, 6), (108, 7), (112, 8), (116, 9), (120, 10),
    (124, 11),
    (128, 1), (132, 10),
    (160, 1), (164, 0x88), (165, 0x13), (168, 13)]

/-- Root directory of the example image: `a.txt`, `big`, `sparse` and a name of
23 letters `x`, bound to inodes 2, 3, 4 and 5. -/
def example_dir : Block :=
  block_of ([(0, 1), (4, 97), (5, 46), (6, 116), (7, 120), (8, 116), (28, 2),
    (32, 1), (36, 98), (37, 105), (38, 103), (60, 3),
    (64, 1), (68, 115), (69, 112), (70, 97), (71, 114), (72, 115), (73, 101), (92, 4),
    (96, 1), (124, 5)] ++ (List.range 23).map (fun k => (100 + k, 120)))

/-- Indirect block of `big`: its first pointer is block 12. -/
def example_indirect : Block := block_of [(0, 12)]

def example_image : Disk :=
  { blocks := fun k =>
      if k = 0 then example_super
      else if k = 1 then example_inodes
      else if k = 4 then example_dir
      else if k = 11 then example_indirect
      else if 5 ≤ k ∧ k ≤ 13 then example_data k
      else fun _ => 0
    nreads := 0
    nwrites := 0 }

/-- The file name `a.txt`. -/
def name_a : List Byte := [97, 46, 116, 120, 116]

/-- A file name of 23 letters `x`. -/
def name_23 : List Byte := List.replicate 23 120

/-- A file name of 24 letters `x`. -/
def name_24 : List Byte := List.replicate 24 120

/-- An output buffer filled with zeros. -/
def zero_buffer : Buffer := fun _ => 0

/-- Superblock of the aliased image: valid signature, root inode 1, inodes 1 and
2 in use. -/
def alias_super : Block :=
  block_of [(0, 0x45), (1, 0x05), (2, 0x45), (3, 0xc3), (5, 8), (9, 2), (12, 1), (272, 0x06)]

/-- Block 1 of the aliased image, the first inode-table block: the root inode
(slot 1) has type 2, size 97, `direct[0] = 1` and `indirect = 2`, so that the
directory block it names is block 1 itself; inode 2 (slot 2) has type 1 and
size 5.  Read as a directory, slot 1 is a valid entry named `a` with `inum` 2. -/
def alias_inodes : Block :=
  block_of [(32, 2), (36, 97), (40, 1), (60, 2), (64, 1), (68, 5)]

/-- An image whose root directory block is its first inode-table block. -/
def alias_image : Disk :=
  { blocks := fun k => if k = 0 then alias_super else if k = 1 then alias_inodes else fun _ => 0
    nreads := 0
    nwrites := 0 }

/-- The file name `a`. -/
def name_one : List Byte := [97]

/-- First inode-table block of the wide image: the root directory (inode 1, one
block, number 4) and inode 2, of type 1 and size 40960 (ten blocks), whose five
direct pointers are blocks 6 to 10 and whose `indirect` field is 0. -/
def wide_inodes : Block :=
  block_of [(32, 2), (37, 0x10), (40, 4),
    (64, 1), (69, 0xa0), (72, 6), (76, 7), (80, 8), (84, 9), (88, 10)]

/-- An image with the superblock of the example image and a ten-block file
without indirect block. -/
def wide_image : Disk :=
  { blocks := fun k =>
      if k = 0 then example_super
      else if k = 1 then wide_inodes
      else if 6 ≤ k ∧ k ≤ 10 then example_data k
      else fun _ => 0
    nreads := 0
    nwrites := 0 }

/-- First inode-table block of the gap image: as in the example image, except
that the root inode has `direct[0] = 0` and `direct[1] = 4`. -/
def gap_inodes : Block :=
  block_of [(32, 2), (37, 0x10), (44, 4),
    (64, 1), (68, 10), (72, 5),
    (96, 1), (100, 0x64), (101, 0x50), (104, 6), (108, 7), (112, 8), (116, 9), (120, 10),
    (124, 11),
    (128, 1), (132, 10),
    (160, 1), (164, 0x88), (165, 0x13), (168, 13)]

/-- The example image with the directory block named by the second direct
pointer of the root inode instead of the first. -/
def gap_image : Disk :=
  { blocks := fun k => if k = 1 then gap_inodes else example_image.blocks k
    nreads := 0
    nwrites := 0 }

/-! ## `tfs_debug` (lines 59-214): the in-use counts -/

/-- The loops of lines 79-82 and 86-90, started at index `i` with `n` indices
left and the counter at `count`; `word` is the bitmap scanned. -/
def count_in_use (word : Nat → Nat) : Nat → Nat → Nat → Nat
  | 0, _, count => count
  | n + 1, i, count =>
    if word (i / BITS_PER_UINT) &&& (1 <<< (i % BITS_PER_UINT)) ≠ 0 then
      count_in_use word n (i + 1) (count + 1)
    else count_in_use word n (i + 1) count

/-- Lines 67-91 of `tfs_debug`: the superblock is read and the two counters
`num_blocks_in_use` and `num_inodes_in_use` are computed; the rest of the
function prints. -/
def tfs_debug_counts : FS (Nat × Nat) := do
  let superblock ← disk_read 0
  let num_blocks_in_use := count_in_use (super_block_in_use superblock) NUM_BLOCKS 0 0
  let num_inodes_in_use := count_in_use (super_inode_in_use superblock) NUM_INODES 0 0
  pure (num_blocks_in_use, num_inodes_in_use)

/-- The population count of a 32-bit word: the number of its bits 0 to 31 that
are set. -/
def popcount32 (w : Nat) : Nat := (List.range 32).countP (fun k => w.testBit k)

/-! ## Bitmaps, references and consistency -/

/-- Bit `p` of the block bitmap of a superblock: bit `p % 32` of word `p / 32`. -/
def block_bit (sb : Block) (p : Nat) : Bool :=
  (super_block_in_use sb (p / 32)).testBit (p % 32)

/-- Bit `m` of the inode bitmap of a superblock: bit `m % 32` of word `m / 32`. -/
def inode_bit (sb : Block) (m : Nat) : Bool :=
  (super_inode_in_use sb (m / 32)).testBit (m % 32)

/-- Block `p` is referenced by an inode record: `p` is one of its nonzero direct
pointers or, when `indirect` is nonzero, `indirect` itself or a nonzero pointer
of the table held in block `indirect`. -/
def refers (blocks : Nat → Block) (inode : tfs_inode) (p : Int) : Prop :=
  p ≠ 0 ∧
    ((∃ j, j < 5 ∧ inode.direct j = p) ∨
      (inode.indirect ≠ 0 ∧
        (inode.indirect = p ∨ ∃ i, i < 1024 ∧ get_pointer (blocks inode.indirect.toNat) i = p)))

/-- Root directory of the twin image: two valid entries named `a.txt`, bound to
inodes 2 and 3. -/
def twin_dir : Block :=
  block_of [(0, 1), (4, 97), (5, 46), (6, 116), (7, 120), (8, 116), (28, 2),
    (32, 1), (36, 97), (37, 46), (38, 116), (39, 120), (40, 116), (60, 3)]

/-- The example image with a root directory in which the name `a.txt` occurs
twice. -/
def twin_image : Disk :=
  { blocks := fun k => if k = 4 then twin_dir else example_image.blocks k
    nreads := 0
    nwrites := 0 }

theorem toInt32_of_lt (u : Nat) (h : u < 2147483648) : toInt32 u = u := by
  unfold toInt32; rw [Nat.mod_eq_of_lt (by omega)]; simp [h]

theorem wrap32_eq (x : Int) (h1 : -2147483648 ≤ x) (h2 : x < 2147483648) : wrap32 x = x := by
  unfold wrap32 toInt32
  split <;> omega

theorem disk_read_ok (n : Int) (d : Disk) (h1 : 0 ≤ n) (h2 : n < 2048) :
    disk_read n d = .ok (d.blocks n.toNat, { d with nreads := d.nreads + 1 }) := by
  simp [disk_read, NUM_BLOCKS, h1, h2]

theorem disk_read_err (n : Int) (d : Disk) (h : n < 0 ∨ 2048 ≤ n) :
    disk_read n d = .error .bounds := by
  have : ¬ (0 ≤ n ∧ n < 2048) := by omega
  simp [disk_read, NUM_BLOCKS, this]

theorem checkIndex_ok (n : Nat) (i : Int) (h1 : 0 ≤ i) (h2 : i < n) :
    checkIndex n i = .ok i.toNat := by
  simp [checkIndex, h1, h2]

theorem checkIndex_err (n : Nat) (i : Int) (h : i < 0 ∨ (n : Int) ≤ i) :
    checkIndex n i = .error .bounds := by
  have : ¬ (0 ≤ i ∧ i < n) := by omega
  simp [checkIndex, this]

theorem resolve_block_direct (d : Disk) (inode : tfs_inode) (k : Int) (h0 : 0 ≤ k) (h5 : k < 5) :
    resolve_block inode k d = .ok (phys d.blocks inode k, d) := by
  have e : checkIndex POINTERS_PER_INODE k = .ok k.toNat := checkIndex_ok _ _ h0 (by simp [POINTERS_PER_INODE]; omega)
  simp [resolve_block, POINTERS_PER_INODE, h5, bind, StateT.bind, Except.bind, liftE, phys]
  simp [POINTERS_PER_INODE] at e
  rw [e]
  rfl

theorem resolve_block_indirect (d : Disk) (inode : tfs_inode) (k : Int) (h5 : 5 ≤ k) (hk : k < 1029)
    (hi0 : 0 ≤ inode.indirect) (hi1 : inode.indirect < 2048) :
    resolve_block inode k d =
      .ok (phys d.blocks inode k, { d with nreads := d.nreads + 1 }) := by
  have e : checkIndex POINTERS_PER_BLOCK (k - 5) = .ok (k - 5).toNat :=
    checkIndex_ok _ _ (by omega) (by simp [POINTERS_PER_BLOCK]; omega)
  have h5' : ¬ k < 5 := by omega
  simp only [resolve_block, POINTERS_PER_INODE, Nat.cast_ofNat, h5', if_false, bind, StateT.bind,
    Except.bind, disk_read_ok _ _ hi0 hi1, liftE, e, phys]
  rfl

theorem resolve_block_fault (d : Disk) (inode : tfs_inode) (k : Int) (h5 : 5 ≤ k)
    (h : 1029 ≤ k ∨ inode.indirect < 0 ∨ 2048 ≤ inode.indirect) :
    resolve_block inode k d = .error .bounds := by
  have h5' : ¬ k < 5 := by omega
  by_cases hi : 0 ≤ inode.indirect ∧ inode.indirect < 2048
  · have e : checkIndex POINTERS_PER_BLOCK (k - 5) = .error .bounds :=
      checkIndex_err _ _ (by simp [POINTERS_PER_BLOCK]; omega)
    simp only [resolve_block, POINTERS_PER_INODE, Nat.cast_ofNat, h5', if_false, bind, StateT.bind,
      Except.bind, disk_read_ok _ _ hi.1 hi.2, liftE, e]
  · simp only [resolve_block, POINTERS_PER_INODE, Nat.cast_ofNat, h5', if_false, bind, StateT.bind,
      Except.bind, disk_read_err _ _ (by omega : inode.indirect < 0 ∨ 2048 ≤ inode.indirect)]

theorem resolve_block_cases (d : Disk) (inode : tfs_inode) (k : Int) (h0 : 0 ≤ k) :
    (resolve_block inode k d = .error .bounds ∧
       ¬ (k < 1029 ∧ (5 ≤ k → 0 ≤ inode.indirect ∧ inode.indirect < 2048))) ∨
    (∃ d1, same_blocks d d1 ∧ resolve_block inode k d = .ok (phys d.blocks inode k, d1) ∧
       k < 1029 ∧ (5 ≤ k → 0 ≤ inode.indirect ∧ inode.indirect < 2048)) := by
  by_cases h5 : k < 5
  · right
    exact ⟨d, ⟨rfl, rfl⟩, resolve_block_direct d inode k h0 h5, by omega, by omega⟩
  · by_cases h : k < 1029 ∧ 0 ≤ inode.indirect ∧ inode.indirect < 2048
    · right
      exact ⟨{ d with nreads := d.nreads + 1 }, ⟨rfl, rfl⟩, resolve_block_indirect d inode k (by omega) h.1 h.2.1 h.2.2, h.1,
        fun _ => h.2⟩
    · left
      exact ⟨resolve_block_fault d inode k (by omega) (by omega), by omega⟩

theorem read_loop_step (inode : tfs_inode) (offset length : Int) (fuel : Nat) (br : Int)
    (data : Buffer) (d : Disk) (h0 : 0 ≤ offset) (hb : 0 ≤ br) (hlt : br < length)
    (hL : offset + length ≤ 2147483647) :
    (¬ block_defined d.blocks inode ((offset + br) / 4096) ∧
      read_loop inode offset length (fuel + 1) br data d = .error .bounds) ∨
    (block_defined d.blocks inode ((offset + br) / 4096) ∧
      phys d.blocks inode ((offset + br) / 4096) ≤ 0 ∧
      ∃ d1, same_blocks d d1 ∧
        read_loop inode offset length (fuel + 1) br data d = .ok ((br, data), d1)) ∨
    (block_defined d.blocks inode ((offset + br) / 4096) ∧
      0 < phys d.blocks inode ((offset + br) / 4096) ∧
      ∃ d1, same_blocks d d1 ∧
        read_loop inode offset length (fuel + 1) br data d =
          read_loop inode offset length fuel
            (br + min (4096 - (offset + br) % 4096) (length - br))
            (copy_bytes data br (d.blocks (phys d.blocks inode ((offset + br) / 4096)).toNat)
              ((offset + br) % 4096) (min (4096 - (offset + br) % 4096) (length - br))) d1) := by
  have hv0 : 0 ≤ offset + br := by omega
  have hw : wrap32 (offset + br) = offset + br := wrap32_eq _ (by omega) (by omega)
  have hdiv : (offset + br).tdiv 4096 = (offset + br) / 4096 := Int.tdiv_eq_ediv hv0 (by decide)
  have hmod : (offset + br).tmod 4096 = (offset + br) % 4096 := Int.tmod_eq_emod hv0 (by decide)
  have hk0 : 0 ≤ (offset + br) / 4096 := by omega
  simp only [read_loop, hlt, if_true, DISK_BLOCK_SIZE, Nat.cast_ofNat, hw, hdiv, hmod, bind,
    StateT.bind, Except.bind]
  rcases resolve_block_cases d inode ((offset + br) / 4096) hk0 with ⟨he, hnd⟩ | ⟨d1, hs, he, hd⟩
  · left
    rw [he]
    exact ⟨fun h => hnd ⟨h.1, h.2.1⟩, rfl⟩
  · rw [he]
    have hT : wrap32 (br + (4096 - (offset + br) % 4096)) = br + (4096 - (offset + br) % 4096) :=
      wrap32_eq _ (by omega) (by omega)
    have hR : wrap32 (length - br) = length - br := wrap32_eq _ (by omega) (by omega)
    have hto : (if br + (4096 - (offset + br) % 4096) > length then length - br
        else 4096 - (offset + br) % 4096) = min (4096 - (offset + br) % 4096) (length - br) := by
      split <;> omega
    have hN : wrap32 (br + min (4096 - (offset + br) % 4096) (length - br)) =
        br + min (4096 - (offset + br) % 4096) (length - br) := wrap32_eq _ (by omega) (by omega)
    have hcp : memcpy data br (d.blocks (phys d.blocks inode ((offset + br) / 4096)).toNat)
        ((offset + br) % 4096) (min (4096 - (offset + br) % 4096) (length - br)) =
        .ok (copy_bytes data br (d.blocks (phys d.blocks inode ((offset + br) / 4096)).toNat)
          ((offset + br) % 4096) (min (4096 - (offset + br) % 4096) (length - br))) := by
      have : 0 ≤ br ∧ 0 ≤ (offset + br) % 4096 ∧
          0 ≤ min (4096 - (offset + br) % 4096) (length - br) ∧
          (offset + br) % 4096 + min (4096 - (offset + br) % 4096) (length - br) ≤ 4096 := by omega
      simp only [memcpy, DISK_BLOCK_SIZE, Nat.cast_ofNat, this, and_self, if_true]
      rfl
    by_cases hp : phys d.blocks inode ((offset + br) / 4096) ≤ 0
    · right; left
      refine ⟨⟨hd.1, hd.2, by omega⟩, hp, d1, hs, ?_⟩
      simp only [hp, if_true]
      rfl
    · by_cases hp2 : phys d.blocks inode ((offset + br) / 4096) < 2048
      · right; right
        refine ⟨⟨hd.1, hd.2, hp2⟩, by omega, { d1 with nreads := d1.nreads + 1 }, ⟨hs.1, hs.2⟩, ?_⟩
        simp only [hp, if_false, StateT.bind, disk_read_ok _ d1 (by omega) hp2, hT, hR, hto, hN, hs.1,
          hcp, liftE, bind, Except.bind]
      · left
        refine ⟨fun h => hp2 h.2.2, ?_⟩
        have hp3 : phys d.blocks inode ((offset + br) / 4096) < 0 ∨
            2048 ≤ phys d.blocks inode ((offset + br) / 4096) := by omega
        simp only [hp, if_false, StateT.bind, disk_read_err _ d1 hp3, bind, Except.bind]

theorem read_loop_spec (inode : tfs_inode) (offset length : Int) (h0 : 0 ≤ offset)
    (hL : offset + length ≤ 2147483647) :
    ∀ (fuel : Nat) (br : Int) (data : Buffer) (d : Disk), 0 ≤ br → br ≤ length →
      (length - br).toNat < fuel →
      (∃ r data' d', read_loop inode offset length fuel br data d = .ok ((r, data'), d') ∧
          same_blocks d d' ∧ loop_post d.blocks inode offset length br data r data') ∨
      (read_loop inode offset length fuel br data d = .error .bounds ∧
          loop_fault d.blocks inode offset length br) := by
  intro fuel
  induction fuel with
  | zero => intro br data d _ _ hf; omega
  | succ fuel ih =>
    intro br data d hb hle hf
    by_cases hlt : br < length
    · rcases read_loop_step inode offset length fuel br data d h0 hb hlt hL with
        ⟨hnd, he⟩ | ⟨hdef, hp, d1, hs, he⟩ | ⟨hdef, hp, d1, hs, he⟩
      · right
        exact ⟨he, hlt, (offset + br) / 4096, le_refl _, by omega, fun j h1 h2 => by omega, hnd⟩
      · left
        refine ⟨br, data, d1, he, hs, le_refl _, hle, fun i _ => rfl, fun i h1 h2 => by omega,
          fun k _ h2 _ => by omega, Or.inr ⟨hlt, ?_, Or.inl rfl⟩⟩
        exact hp
      · have hk : (offset + br) / 4096 < 1029 := hdef.1
        have hstep := ih (br + min (4096 - (offset + br) % 4096) (length - br))
          (copy_bytes data br (d.blocks (phys d.blocks inode ((offset + br) / 4096)).toNat)
            ((offset + br) % 4096) (min (4096 - (offset + br) % 4096) (length - br))) d1
          (by omega) (by omega) (by omega)
        rw [← he, hs.1] at hstep
        rcases hstep with ⟨r, data', d', hr, hs', hpost⟩ | ⟨herr, hlt', k, hk1, hk2, hk3, hk4⟩
        · left
          obtain ⟨p1, p2, p3, p4, p5, p6⟩ := hpost
          refine ⟨r, data', d', hr, ⟨hs'.1.trans hs.1, hs'.2.trans hs.2⟩, by omega, p2, ?_, ?_, ?_, ?_⟩
          · intro i hi
            rw [p3 i (by omega)]
            unfold copy_bytes
            rw [if_neg (by omega)]
          · intro i hi1 hi2
            by_cases hi3 : (i : Int) < br + min (4096 - (offset + br) % 4096) (length - br)
            · rw [p3 i (Or.inl hi3)]
              unfold copy_bytes file_byte
              rw [if_pos (by omega)]
              have e1 : (offset + (i : Int)) / 4096 = (offset + br) / 4096 := by omega
              have e2 : ((offset + br) % 4096).toNat + (i - br.toNat) =
                  ((offset + (i : Int)) % 4096).toNat := by omega
              rw [e1, e2]
            · exact p4 i (by omega) hi2
          · intro k hk1 hk2 hk3
            by_cases hkk : k = (offset + br) / 4096
            · rw [hkk]; exact hp
            · exact p5 k (by omega) (by omega) hk3
          · rcases p6 with p6 | ⟨q1, q2, q3⟩
            · exact Or.inl p6
            · exact Or.inr ⟨q1, q2, Or.inr (by omega)⟩
        · right
          refine ⟨herr, hlt, k, by omega, hk2, ?_, hk4⟩
          intro j hj1 hj2
          by_cases hjj : j = (offset + br) / 4096
          · rw [hjj]; exact hp
          · exact hk3 j (by omega) hj2
    · left
      refine ⟨br, data, d, ?_, ⟨rfl, rfl⟩, le_refl _, hle, fun i _ => rfl, fun i h1 h2 => by omega,
        fun k _ h2 _ => by omega, Or.inl (by omega)⟩
      simp only [read_loop, hlt, if_false]
      rfl

theorem tfs_read_run (d : Disk) (inumber : Int) (data : Buffer) (length offset : Int)
    (hi : 0 < inumber) (hb : inumber / 128 + 1 < 2048) (hl : 0 ≤ length) (ho : 0 ≤ offset)
    (hL : offset + length ≤ 2147483647) :
    tfs_read inumber data length offset d =
      if offset ≥ (inode_of d.blocks inumber).size then
        .ok ((0, data), { d with nreads := d.nreads + 1 })
      else
        read_loop (inode_of d.blocks inumber) offset
          (min length ((inode_of d.blocks inumber).size - offset))
          ((min length ((inode_of d.blocks inumber).size - offset)).toNat + 1) 0 data
          { d with nreads := d.nreads + 1 } := by
  have e1 : ¬ (inumber ≤ 0 ∨ length < 0 ∨ offset < 0) := by omega
  have hdiv : inumber.tdiv 128 = inumber / 128 := Int.tdiv_eq_ediv (by omega) (by decide)
  have hmod : inumber.tmod 128 = inumber % 128 := Int.tmod_eq_emod (by omega) (by decide)
  have hc : checkIndex 128 (inumber % 128) = .ok (inumber % 128).toNat :=
    checkIndex_ok _ _ (by omega) (by omega)
  have hw : wrap32 (offset + length) = offset + length := wrap32_eq _ (by omega) (by omega)
  simp only [tfs_read, e1, if_false, INODES_PER_BLOCK, Nat.cast_ofNat, hdiv, hmod, bind,
    StateT.bind, Except.bind, disk_read_ok _ d (by omega : 0 ≤ inumber / 128 + 1) hb, liftE, hc, hw]
  by_cases hs : offset ≥ (inode_of d.blocks inumber).size
  · rw [if_pos hs]
    have hs' : offset ≥ (get_inode (d.blocks (inumber / 128 + 1).toNat) (inumber % 128).toNat).size := hs
    rw [if_pos hs']
    rfl
  · rw [if_neg hs]
    have hs' : ¬ offset ≥ (get_inode (d.blocks (inumber / 128 + 1).toNat) (inumber % 128).toNat).size := hs
    rw [if_neg hs']
    have hm : (if offset + length > (get_inode (d.blocks (inumber / 128 + 1).toNat) (inumber % 128).toNat).size
        then (get_inode (d.blocks (inumber / 128 + 1).toNat) (inumber % 128).toNat).size - offset
        else length) = min length ((inode_of d.blocks inumber).size - offset) := by
      show (if offset + length > (inode_of d.blocks inumber).size
        then (inode_of d.blocks inumber).size - offset else length) = _
      split <;> omega
    rw [hm]
    rfl

theorem tfs_read_no_inode (d : Disk) (inumber : Int) (data : Buffer) (length offset : Int)
    (hi : 0 < inumber) (hb : 2048 ≤ inumber / 128 + 1) (hl : 0 ≤ length) (ho : 0 ≤ offset) :
    tfs_read inumber data length offset d = .error .bounds := by
  have e1 : ¬ (inumber ≤ 0 ∨ length < 0 ∨ offset < 0) := by omega
  have hdiv : inumber.tdiv 128 = inumber / 128 := Int.tdiv_eq_ediv (by omega) (by decide)
  simp only [tfs_read, e1, if_false, INODES_PER_BLOCK, Nat.cast_ofNat, hdiv, bind,
    StateT.bind, Except.bind, disk_read_err _ d (Or.inr hb)]

theorem tfs_read_spec (d : Disk) (inumber : Int) (data : Buffer) (length offset : Int)
    (hi : 0 < inumber) (hb : inumber / 128 + 1 < 2048) (hl : 0 ≤ length) (ho : 0 ≤ offset)
    (hL : offset + length ≤ 2147483647) (hs : offset < (inode_of d.blocks inumber).size) :
    (∃ r data' d', tfs_read inumber data length offset d = .ok ((r, data'), d') ∧
        same_blocks d d' ∧
        loop_post d.blocks (inode_of d.blocks inumber) offset
          (min length ((inode_of d.blocks inumber).size - offset)) 0 data r data') ∨
    (tfs_read inumber data length offset d = .error .bounds ∧
        loop_fault d.blocks (inode_of d.blocks inumber) offset
          (min length ((inode_of d.blocks inumber).size - offset)) 0) := by
  rw [tfs_read_run d inumber data length offset hi hb hl ho hL, if_neg (by omega)]
  have h := read_loop_spec (inode_of d.blocks inumber) offset
    (min length ((inode_of d.blocks inumber).size - offset)) ho (by omega)
    ((min length ((inode_of d.blocks inumber).size - offset)).toNat + 1) 0 data
    { d with nreads := d.nreads + 1 } (le_refl _) (by omega) (by omega)
  rcases h with ⟨r, data', d', h1, h2, h3⟩ | ⟨h1, h2⟩
  · exact Or.inl ⟨r, data', d', h1, ⟨h2.1, h2.2⟩, h3⟩
  · exact Or.inr ⟨h1, h2⟩

/-! ## `tfs_read`: the claims -/

theorem touched_of_range (offset L k : Int) (h0 : 0 < L) (h1 : offset / 4096 ≤ k)
    (h2 : k ≤ (offset + L - 1) / 4096) :
    ∃ p : Int, offset ≤ p ∧ p < offset + L ∧ p / 4096 = k ∧ (p = offset ∨ p = k * 4096) := by
  by_cases h : k * 4096 ≤ offset
  · exact ⟨offset, le_refl _, by omega, by omega, Or.inl rfl⟩
  · exact ⟨k * 4096, by omega, by omega, by omega, Or.inr rfl⟩

/-- Claim C1, amended.  For inode `inumber > 0` of the device, `0 ≤ offset < size`,
`length ≥ 0`, `offset + length` within the 32-bit signed range and above `size`,
and every logical block of the byte range `[offset, size)` present (physical
number positive and on the device): `tfs_read` returns exactly `size - offset`. -/
theorem tfs_read_clamped_count (d : Disk) (inumber : Int) (data : Buffer) (length offset : Int)
    (hi : 0 < inumber) (hb : inumber / 128 + 1 < 2048) (ho : 0 ≤ offset) (hl : 0 ≤ length)
    (hL : offset + length ≤ 2147483647)
    (hs : offset < (inode_of d.blocks inumber).size)
    (hc : offset + length > (inode_of d.blocks inumber).size)
    (hp : ∀ p : Int, offset ≤ p → p < (inode_of d.blocks inumber).size →
      0 < phys d.blocks (inode_of d.blocks inumber) (p / 4096) ∧
      block_defined d.blocks (inode_of d.blocks inumber) (p / 4096)) :
    ∃ data' d', tfs_read inumber data length offset d =
      .ok (((inode_of d.blocks inumber).size - offset, data'), d') := by
  have hm : min length ((inode_of d.blocks inumber).size - offset) =
      (inode_of d.blocks inumber).size - offset := by omega
  rcases tfs_read_spec d inumber data length offset hi hb hl ho hL hs with
    ⟨r, data', d', he, _, hpost⟩ | ⟨_, _, k, hk1, hk2, _, hk4⟩
  · rw [hm] at hpost
    obtain ⟨_, p2, _, _, _, p6⟩ := hpost
    rcases p6 with p6 | ⟨q1, q2, _⟩
    · exact ⟨data', d', by rw [he, p6]⟩
    · exact absurd (hp (offset + r) (by omega) (by omega)).1 (by omega)
  · rw [hm] at hk2
    obtain ⟨p, hp1, hp2, hp3, _⟩ :=
      touched_of_range offset _ k (by omega) (by simpa using hk1) hk2
    exact absurd (hp3 ▸ (hp p hp1 (by omega)).2) hk4

/-- Claim C1 fails as stated: inode 4 of the example image has size 10 and no
block; a read of 10 bytes at offset 9 satisfies the premises of the claim and
returns 0, not `size - offset = 1`. -/
theorem tfs_read_clamped_count_counterexample :
    (0 : Int) < 4 ∧ (0 : Int) ≤ 9 ∧ (0 : Int) ≤ 10 ∧
    9 < (inode_of example_image.blocks 4).size ∧
    9 + 10 > (inode_of example_image.blocks 4).size ∧
    tfs_read 4 zero_buffer 10 9 example_image =
      .ok ((0, zero_buffer), { example_image with nreads := 1 }) ∧
    (0 : Int) ≠ (inode_of example_image.blocks 4).size - 9 :=
  ⟨by decide, by decide, by decide, by decide, by decide, rfl, by decide⟩

/-- Witness of `tfs_read_clamped_count`: `a.txt` of the example image (inode 2,
size 10, block 5), read of 10 bytes at offset 9: one byte is returned. -/
theorem tfs_read_clamped_count_witness :
    ∃ data' d', tfs_read 2 zero_buffer 10 9 example_image =
      .ok (((inode_of example_image.blocks 2).size - 9, data'), d') :=
  tfs_read_clamped_count example_image 2 zero_buffer 10 9 (by decide) (by decide) (by decide)
    (by decide) (by decide) (by decide) (by decide)
    (fun p h1 h2 => by
      have h3 : (inode_of example_image.blocks 2).size = 10 := by decide
      have h4 : p = 9 := by omega
      subst h4
      decide)

theorem tfs_read_returns (d : Disk) (inumber : Int) (data : Buffer) (length offset : Int)
    (hi : 0 < inumber) (hb : inumber / 128 + 1 < 2048) (ho : 0 ≤ offset) (hl : 0 ≤ length)
    (hL : offset + length ≤ 2147483647)
    (hdef : ∀ p : Int, offset ≤ p →
      p < offset + min length ((inode_of d.blocks inumber).size - offset) →
      (∀ q : Int, offset ≤ q → q < p →
        0 < phys d.blocks (inode_of d.blocks inumber) (q / 4096)) →
      block_defined d.blocks (inode_of d.blocks inumber) (p / 4096)) :
    ∃ r data' d', tfs_read inumber data length offset d = .ok ((r, data'), d') := by
  by_cases hs : offset < (inode_of d.blocks inumber).size
  · rcases tfs_read_spec d inumber data length offset hi hb hl ho hL hs with
      ⟨r, data', d', he, _, _⟩ | ⟨_, hlt, k, hk1, hk2, hk3, hk4⟩
    · exact ⟨r, data', d', he⟩
    · obtain ⟨p, hp1, hp2, hp3, hp4⟩ :=
        touched_of_range offset _ k hlt (by simpa using hk1) hk2
      refine absurd (hp3 ▸ hdef p hp1 hp2 (fun q hq1 hq2 => ?_)) hk4
      exact hk3 (q / 4096) (by omega) (by omega)
  · have he := tfs_read_run d inumber data length offset hi hb hl ho hL
    rw [if_pos (by omega)] at he
    exact ⟨0, data, _, he⟩

/-- Claim C2.  For `inumber > 0`, `offset ≥ 0`, `length ≥ 0` and `offset + length`
within the 32-bit signed range, the count `r` returned by `tfs_read` satisfies
`0 ≤ r ≤ length` and `r ≤ max 0 (size - offset)`; the read loop never exhausts
its iteration budget, so that the only way not to return is an access outside
the pointer table or the device; and the call does return when the inode is on
the device and every logical block reached before a hole can be looked up and
fetched. -/
theorem tfs_read_count_le (d : Disk) (inumber : Int) (data : Buffer) (length offset : Int)
    (hi : 0 < inumber) (ho : 0 ≤ offset) (hl : 0 ≤ length)
    (hL : offset + length ≤ 2147483647) :
    (∀ e, tfs_read inumber data length offset d = .error e → e = Fault.bounds) ∧
    (∀ r data' d', tfs_read inumber data length offset d = .ok ((r, data'), d') →
      0 ≤ r ∧ r ≤ length ∧ r ≤ max 0 ((inode_of d.blocks inumber).size - offset)) ∧
    (inumber / 128 + 1 < 2048 →
      (∀ p : Int, offset ≤ p →
        p < offset + min length ((inode_of d.blocks inumber).size - offset) →
        (∀ q : Int, offset ≤ q → q < p →
          0 < phys d.blocks (inode_of d.blocks inumber) (q / 4096)) →
        block_defined d.blocks (inode_of d.blocks inumber) (p / 4096)) →
      ∃ r data' d', tfs_read inumber data length offset d = .ok ((r, data'), d')) := by
  have hAB : (∀ e, tfs_read inumber data length offset d = .error e → e = Fault.bounds) ∧
      (∀ r data' d', tfs_read inumber data length offset d = .ok ((r, data'), d') →
        0 ≤ r ∧ r ≤ length ∧ r ≤ max 0 ((inode_of d.blocks inumber).size - offset)) := by
    by_cases hb : inumber / 128 + 1 < 2048
    · by_cases hs : offset < (inode_of d.blocks inumber).size
      · rcases tfs_read_spec d inumber data length offset hi hb hl ho hL hs with
          ⟨r, data', d', he, _, hpost⟩ | ⟨he, _⟩
        · obtain ⟨p1, p2, _⟩ := hpost
          refine ⟨fun e h => ?_, fun r1 data1 d1 h => ?_⟩
          · rw [he] at h; exact absurd h (by simp)
          · rw [he] at h
            injection h with h
            injection h with h _
            injection h with h _
            subst h
            omega
        · refine ⟨fun e h => ?_, fun r1 data1 d1 h => ?_⟩
          · rw [he] at h; injection h with h; exact h.symm
          · rw [he] at h; exact absurd h (by simp)
      · have he := tfs_read_run d inumber data length offset hi hb hl ho hL
        rw [if_pos (by omega)] at he
        refine ⟨fun e h => ?_, fun r1 data1 d1 h => ?_⟩
        · rw [he] at h; exact absurd h (by simp)
        · rw [he] at h
          injection h with h
          injection h with h _
          injection h with h _
          subst h
          omega
    · have he := tfs_read_no_inode d inumber data length offset hi (by omega) hl ho
      refine ⟨fun e h => ?_, fun r1 data1 d1 h => ?_⟩
      · rw [he] at h; injection h with h; exact h.symm
      · rw [he] at h; exact absurd h (by simp)
  exact ⟨hAB.1, hAB.2, fun hb hdef =>
    tfs_read_returns d inumber data length offset hi hb ho hl hL hdef⟩

/-- Witness of `tfs_read_count_le`: 30 bytes requested at offset 4 of `a.txt`
(size 10) in the example image; 6 bytes are returned. -/
theorem tfs_read_count_le_witness :
    (0 : Int) ≤ 6 ∧ (6 : Int) ≤ 30 ∧
    (6 : Int) ≤ max 0 ((inode_of example_image.blocks 2).size - 4) :=
  (tfs_read_count_le example_image 2 zero_buffer 30 4 (by decide) (by decide) (by decide)
    (by decide)).2.1 6 (copy_bytes zero_buffer 0 (example_data 5) 4 6)
    { example_image with nreads := 2 } rfl

theorem toInt32_bounds (u : Nat) : -2147483648 ≤ toInt32 u ∧ toInt32 u < 2147483648 := by
  unfold toInt32
  split <;> omega

theorem tfs_read_ok_post (d : Disk) (inumber : Int) (data : Buffer) (length offset : Int)
    (hi : 0 < inumber) (ho : 0 ≤ offset) (hl : 0 ≤ length) (hL : offset + length ≤ 2147483647)
    (r : Int) (data' : Buffer) (d' : Disk)
    (h : tfs_read inumber data length offset d = .ok ((r, data'), d')) :
    same_blocks d d' ∧
    (((inode_of d.blocks inumber).size ≤ offset ∧ r = 0 ∧ data' = data) ∨
     (offset < (inode_of d.blocks inumber).size ∧
        loop_post d.blocks (inode_of d.blocks inumber) offset
          (min length ((inode_of d.blocks inumber).size - offset)) 0 data r data')) := by
  by_cases hb : inumber / 128 + 1 < 2048
  · by_cases hs : offset < (inode_of d.blocks inumber).size
    · rcases tfs_read_spec d inumber data length offset hi hb hl ho hL hs with
        ⟨r1, data1, d1, he, hsame, hpost⟩ | ⟨he, _⟩
      · rw [he] at h
        injection h with h
        injection h with h h3
        injection h with h1 h2
        subst h1 h2 h3
        exact ⟨hsame, Or.inr ⟨hs, hpost⟩⟩
      · rw [he] at h; exact absurd h (by simp)
    · have he := tfs_read_run d inumber data length offset hi hb hl ho hL
      rw [if_pos (by omega)] at he
      rw [he] at h
      injection h with h
      injection h with h h3
      injection h with h1 h2
      subst h1 h2 h3
      exact ⟨⟨rfl, rfl⟩, Or.inl ⟨by omega, rfl, rfl⟩⟩
  · have he := tfs_read_no_inode d inumber data length offset hi (by omega) hl ho
    rw [he] at h; exact absurd h (by simp)

theorem tfs_read_present (d : Disk) (inumber : Int) (data : Buffer) (length offset : Int)
    (hi : 0 < inumber) (hb : inumber / 128 + 1 < 2048) (ho : 0 ≤ offset) (hl : 0 ≤ length)
    (hL : offset + length ≤ 2147483647)
    (hs : offset < (inode_of d.blocks inumber).size)
    (hp : ∀ p : Int, offset ≤ p →
      p < offset + min length ((inode_of d.blocks inumber).size - offset) →
      0 < phys d.blocks (inode_of d.blocks inumber) (p / 4096) ∧
      block_defined d.blocks (inode_of d.blocks inumber) (p / 4096)) :
    ∃ data' d', tfs_read inumber data length offset d =
      .ok ((min length ((inode_of d.blocks inumber).size - offset), data'), d') := by
  rcases tfs_read_spec d inumber data length offset hi hb hl ho hL hs with
    ⟨r, data', d', he, _, hpost⟩ | ⟨_, hlt, k, hk1, hk2, _, hk4⟩
  · obtain ⟨_, p2, _, _, _, p6⟩ := hpost
    rcases p6 with p6 | ⟨q1, q2, _⟩
    · exact ⟨data', d', by rw [he, p6]⟩
    · exact absurd (hp (offset + r) (by omega) (by omega)).1 (by omega)
  · obtain ⟨p, hp1, hp2, hp3, _⟩ :=
      touched_of_range offset _ k hlt (by simpa using hk1) hk2
    exact absurd (hp3 ▸ (hp p hp1 hp2).2) hk4

/-- Claim C3.  On valid arguments, byte `i < r` of the output of `tfs_read` is
byte `(offset + i) % 4096` of the physical block of logical block
`(offset + i) / 4096` (`direct[k]` for `k < 5`, entry `k - 5` of the indirect
block otherwise); a read at offset `5 * 4096` takes its bytes from the block
named by the first pointer of the indirect block; and reading `S` bytes at
offset 0 of a hole-free file of size `S` returns `S` and the `S` bytes of the
file in order. -/
theorem tfs_read_bytes (d : Disk) (inumber : Int) (data : Buffer) (hi : 0 < inumber) :
    (∀ (length offset r : Int) (data' : Buffer) (d' : Disk), 0 ≤ offset → 0 ≤ length →
      offset + length ≤ 2147483647 →
      tfs_read inumber data length offset d = .ok ((r, data'), d') →
      ∀ i : Nat, (i : Int) < r →
        data' i =
          d.blocks (phys d.blocks (inode_of d.blocks inumber) ((offset + i) / 4096)).toNat
            ((offset + i) % 4096).toNat) ∧
    (∀ (length r : Int) (data' : Buffer) (d' : Disk), 0 ≤ length →
      5 * 4096 + length ≤ 2147483647 →
      tfs_read inumber data length (5 * 4096) d = .ok ((r, data'), d') →
      ∀ i : Nat, (i : Int) < r → i < 4096 →
        data' i =
          d.blocks (get_pointer (d.blocks (inode_of d.blocks inumber).indirect.toNat) 0).toNat i) ∧
    (inumber / 128 + 1 < 2048 → 0 ≤ (inode_of d.blocks inumber).size →
      (∀ p : Int, 0 ≤ p → p < (inode_of d.blocks inumber).size →
        0 < phys d.blocks (inode_of d.blocks inumber) (p / 4096) ∧
        block_defined d.blocks (inode_of d.blocks inumber) (p / 4096)) →
      ∃ data' d', tfs_read inumber data (inode_of d.blocks inumber).size 0 d =
          .ok (((inode_of d.blocks inumber).size, data'), d') ∧
        ∀ i : Nat, (i : Int) < (inode_of d.blocks inumber).size →
          data' i = file_byte d.blocks (inode_of d.blocks inumber) i) := by
  have hA : ∀ (length offset r : Int) (data' : Buffer) (d' : Disk), 0 ≤ offset → 0 ≤ length →
      offset + length ≤ 2147483647 →
      tfs_read inumber data length offset d = .ok ((r, data'), d') →
      ∀ i : Nat, (i : Int) < r →
        data' i = file_byte d.blocks (inode_of d.blocks inumber) (offset + i) := by
    intro length offset r data' d' ho hl hL h i hir
    rcases (tfs_read_ok_post d inumber data length offset hi ho hl hL r data' d' h).2 with
      ⟨_, hr, _⟩ | ⟨_, hpost⟩
    · omega
    · exact hpost.2.2.2.1 i (by omega) hir
  refine ⟨hA, ?_, ?_⟩
  · intro length r data' d' hl hL h i hir hi4
    rw [hA length (5 * 4096) r data' d' (by omega) hl hL h i hir]
    unfold file_byte phys
    have e1 : (5 * 4096 + (i : Int)) / 4096 = 5 := by omega
    have e2 : ((5 * 4096 + (i : Int)) % 4096).toNat = i := by omega
    rw [e1, e2]
    rfl
  · intro hb hs0 hp
    have hsz : (inode_of d.blocks inumber).size < 2147483648 := (toInt32_bounds _).2
    by_cases hs : 0 < (inode_of d.blocks inumber).size
    · have hm : min (inode_of d.blocks inumber).size ((inode_of d.blocks inumber).size - 0) =
          (inode_of d.blocks inumber).size := by omega
      obtain ⟨data', d', he⟩ := tfs_read_present d inumber data (inode_of d.blocks inumber).size 0
        hi hb (le_refl _) hs0 (by omega) hs (fun p h1 h2 => hp p h1 (by omega))
      rw [hm] at he
      refine ⟨data', d', he, fun i hir => ?_⟩
      have := hA _ 0 _ data' d' (le_refl _) hs0 (by omega) he i hir
      simpa using this
    · have he := tfs_read_run d inumber data (inode_of d.blocks inumber).size 0 hi hb hs0
        (le_refl _) (by omega)
      rw [if_pos (by omega)] at he
      have h0 : (inode_of d.blocks inumber).size = 0 := by omega
      refine ⟨data, { d with nreads := d.nreads + 1 }, ?_, fun i hir => by omega⟩
      rw [he, h0]

/-- Witness of `tfs_read_bytes`: in the example image, 50 bytes read at offset
`5 * 4096` of `big` (inode 3) come from block 12, the first pointer of its
indirect block 11. -/
theorem tfs_read_bytes_witness :
    copy_bytes zero_buffer 0 (example_data 12) 0 50 3 =
      example_image.blocks
        (get_pointer (example_image.blocks (inode_of example_image.blocks 3).indirect.toNat)
          0).toNat 3 :=
  (tfs_read_bytes example_image 3 zero_buffer (by decide)).2.1 50 50
    (copy_bytes zero_buffer 0 (example_data 12) 0 50) { example_image with nreads := 3 }
    (by decide) (by decide) rfl 3 (by decide) (by decide)

/-- Claim C4.  For valid arguments let `L = min length (size - offset)`.  Provided
every logical block reached before a hole can be looked up and fetched:
`tfs_read` returns normally; it returns `L` if every logical block touched by
the byte range `[offset, offset + L)` has a positive physical block; otherwise,
with `h` the smallest touched logical block whose physical block is `≤ 0`, it
returns `max 0 (h * 4096 - offset)`. -/
theorem tfs_read_hole_count (d : Disk) (inumber : Int) (data : Buffer) (length offset : Int)
    (hi : 0 < inumber) (hb : inumber / 128 + 1 < 2048) (ho : 0 ≤ offset) (hl : 0 ≤ length)
    (hL : offset + length ≤ 2147483647)
    (hs : offset < (inode_of d.blocks inumber).size)
    (hdef : ∀ p : Int, offset ≤ p →
      p < offset + min length ((inode_of d.blocks inumber).size - offset) →
      (∀ q : Int, offset ≤ q → q < p →
        0 < phys d.blocks (inode_of d.blocks inumber) (q / 4096)) →
      block_defined d.blocks (inode_of d.blocks inumber) (p / 4096)) :
    ∃ r data' d', tfs_read inumber data length offset d = .ok ((r, data'), d') ∧
      ((∀ p : Int, offset ≤ p →
          p < offset + min length ((inode_of d.blocks inumber).size - offset) →
          0 < phys d.blocks (inode_of d.blocks inumber) (p / 4096)) →
        r = min length ((inode_of d.blocks inumber).size - offset)) ∧
      (∀ h : Int,
        (∃ p : Int, offset ≤ p ∧
          p < offset + min length ((inode_of d.blocks inumber).size - offset) ∧ p / 4096 = h) →
        phys d.blocks (inode_of d.blocks inumber) h ≤ 0 →
        (∀ q : Int, offset ≤ q →
          q < offset + min length ((inode_of d.blocks inumber).size - offset) → q / 4096 < h →
          0 < phys d.blocks (inode_of d.blocks inumber) (q / 4096)) →
        r = max 0 (h * 4096 - offset)) := by
  rcases tfs_read_spec d inumber data length offset hi hb hl ho hL hs with
    ⟨r, data', d', he, _, hpost⟩ | ⟨_, hlt, k, hk1, hk2, hk3, hk4⟩
  · obtain ⟨_, p2, _, _, p5, p6⟩ := hpost
    refine ⟨r, data', d', he, fun hall => ?_, fun h ⟨p, hp1, hp2, hp3⟩ hh hbefore => ?_⟩
    · rcases p6 with p6 | ⟨q1, q2, _⟩
      · exact p6
      · exact absurd (hall (offset + r) (by omega) (by omega)) (by omega)
    · rcases p6 with p6 | ⟨q1, q2, q3⟩
      · exact absurd (p5 h (by omega) (by omega) (by omega)) (by omega)
      · by_cases c1 : (offset + r) / 4096 < h
        · exact absurd (hbefore (offset + r) (by omega) (by omega) c1) (by omega)
        · by_cases c2 : h < (offset + r) / 4096
          · exact absurd (p5 h (by omega) (by omega) (by omega)) (by omega)
          · omega
  · obtain ⟨p, hp1, hp2, hp3, hp4⟩ :=
      touched_of_range offset _ k hlt (by simpa using hk1) hk2
    refine absurd (hp3 ▸ hdef p hp1 hp2 (fun q hq1 hq2 => ?_)) hk4
    exact hk3 (q / 4096) (by omega) (by omega)

/-- Witness of `tfs_read_hole_count`: inode 5 of the example image has 5000
bytes, a first block and no second block; 5000 bytes requested at offset 10
give the `4096 - 10` bytes before the hole. -/
theorem tfs_read_hole_count_witness :
    ∃ data' d', tfs_read 5 zero_buffer 5000 10 example_image = .ok ((4086, data'), d') := by
  have hsz : (inode_of example_image.blocks 5).size = 5000 := by decide
  obtain ⟨r, data', d', he, _, h2⟩ :=
    tfs_read_hole_count example_image 5 zero_buffer 5000 10 (by decide) (by decide) (by decide)
      (by decide) (by decide) (by decide)
      (fun p h1 h2 _ => by
        rw [hsz] at h2
        have h3 : p / 4096 = 0 ∨ p / 4096 = 1 := by omega
        rcases h3 with h3 | h3 <;> rw [h3] <;> decide)
  have hr := h2 1 ⟨4096, by decide, by decide, by decide⟩ (by decide)
    (fun q h1 _ h3 => by
      have h4 : q / 4096 = 0 := by omega
      rw [h4]
      decide)
  have hr' : r = 4086 := by rw [hr]; decide
  exact ⟨data', d', by rw [he, hr']⟩

theorem tfs_read_past_end (d : Disk) (inumber : Int) (data : Buffer) (length offset : Int)
    (hi : 0 < inumber) (hb : inumber / 128 + 1 < 2048) (hl : 0 ≤ length) (ho : 0 ≤ offset)
    (hs : offset ≥ (inode_of d.blocks inumber).size) :
    tfs_read inumber data length offset d =
      .ok ((0, data), { d with nreads := d.nreads + 1 }) := by
  have e1 : ¬ (inumber ≤ 0 ∨ length < 0 ∨ offset < 0) := by omega
  have hdiv : inumber.tdiv 128 = inumber / 128 := Int.tdiv_eq_ediv (by omega) (by decide)
  have hmod : inumber.tmod 128 = inumber % 128 := Int.tmod_eq_emod (by omega) (by decide)
  have hc : checkIndex 128 (inumber % 128) = .ok (inumber % 128).toNat :=
    checkIndex_ok _ _ (by omega) (by omega)
  have hs' : offset ≥ (get_inode (d.blocks (inumber / 128 + 1).toNat) (inumber % 128).toNat).size := hs
  simp only [tfs_read, e1, if_false, INODES_PER_BLOCK, Nat.cast_ofNat, hdiv, hmod, bind,
    StateT.bind, Except.bind, disk_read_ok _ d (by omega : 0 ≤ inumber / 128 + 1) hb, liftE, hc]
  rw [if_pos hs']
  rfl

/-- Claim C5.  `tfs_read` returns 0 and leaves the output buffer as it was
whenever `inumber ≤ 0`, `length < 0`, `offset < 0`, `offset ≥ size` or
`length = 0` (the inode being on the device when it is consulted); no block is
written, and in the first three cases no block is read: the device state,
transfer counters included, is the one before the call. -/
theorem tfs_read_nothing (d : Disk) (inumber : Int) (data : Buffer) (length offset : Int)
    (hb : 0 < inumber → inumber / 128 + 1 < 2048)
    (h : inumber ≤ 0 ∨ length < 0 ∨ offset < 0 ∨
      offset ≥ (inode_of d.blocks inumber).size ∨ length = 0) :
    ∃ d', tfs_read inumber data length offset d = .ok ((0, data), d') ∧
      d'.blocks = d.blocks ∧ d'.nwrites = d.nwrites ∧
      ((inumber ≤ 0 ∨ length < 0 ∨ offset < 0) → d' = d) := by
  by_cases h3 : inumber ≤ 0 ∨ length < 0 ∨ offset < 0
  · refine ⟨d, ?_, rfl, rfl, fun _ => rfl⟩
    simp only [tfs_read, h3, if_true]
    rfl
  · have hi : 0 < inumber := by omega
    by_cases hs : offset ≥ (inode_of d.blocks inumber).size
    · exact ⟨_, tfs_read_past_end d inumber data length offset hi (hb hi) (by omega) (by omega) hs,
        rfl, rfl, fun h' => absurd h' h3⟩
    · have hl0 : length = 0 := by omega
      have hsz : (inode_of d.blocks inumber).size < 2147483648 := (toInt32_bounds _).2
      have he := tfs_read_run d inumber data length offset hi (hb hi) (by omega) (by omega)
        (by omega)
      rw [if_neg hs] at he
      have hm : min length ((inode_of d.blocks inumber).size - offset) = 0 := by omega
      rw [hm] at he
      refine ⟨{ d with nreads := d.nreads + 1 }, ?_, rfl, rfl, fun h' => absurd h' h3⟩
      rw [he]
      simp only [read_loop, Int.toNat_zero, lt_self_iff_false, if_false]
      rfl

/-- Witness of `tfs_read_nothing`: a read of `a.txt` (size 10) at offset 10 in
the example image. -/
theorem tfs_read_nothing_witness :
    ∃ d', tfs_read 2 zero_buffer 5 10 example_image = .ok ((0, zero_buffer), d') ∧
      d'.blocks = example_image.blocks ∧ d'.nwrites = example_image.nwrites ∧
      (((2 : Int) ≤ 0 ∨ (5 : Int) < 0 ∨ (10 : Int) < 0) → d' = example_image) :=
  tfs_read_nothing example_image 2 zero_buffer 5 10 (fun _ => by decide)
    (Or.inr (Or.inr (Or.inr (Or.inl (by decide)))))

/-! ## `tfs_get_inumber` and `tfs_getsize` -/

theorem strlen_c_string (s : List Byte) : (c_string s).length = strlen s := by
  induction s with
  | nil => rfl
  | cons c cs ih =>
    by_cases h : c = 0
    · simp [c_string, strlen, h]
    · simp [c_string, strlen, h, ih]

theorem strcmp_eq_iff (b : Block) (slot : Nat) (s : List Byte) :
    ∀ (n k : Nat), strlen s < n →
      (strcmp_eq b slot k s = true ↔ fname_from b slot n k = c_string s) := by
  induction s with
  | nil =>
    intro n k hn
    obtain ⟨m, rfl⟩ : ∃ m, n = m + 1 := ⟨n - 1, by simp [strlen] at hn; omega⟩
    by_cases h : dentry_fname b slot k = 0 <;> simp [strcmp_eq, fname_from, c_string, h]
  | cons c cs ih =>
    intro n k hn
    by_cases hc : c = 0
    · obtain ⟨m, rfl⟩ : ∃ m, n = m + 1 := ⟨n - 1, by omega⟩
      by_cases h : dentry_fname b slot k = 0 <;> simp [strcmp_eq, fname_from, c_string, h, hc]
    · have hn' : strlen cs + 1 < n := by simpa [strlen, hc] using hn
      obtain ⟨m, rfl⟩ : ∃ m, n = m + 1 := ⟨n - 1, by omega⟩
      have ih' := ih m (k + 1) (by omega)
      by_cases h : dentry_fname b slot k = 0
      · have hne : ¬ (0 : Byte) = c := fun e => hc e.symm
        simp [strcmp_eq, fname_from, c_string, h, hc, hne]
      · simp [strcmp_eq, fname_from, c_string, h, hc, ih']

theorem scan_dentries_spec (b : Block) (name : List Byte) (hlen : strlen name < 24) :
    ∀ (n i : Nat),
      (∃ s, i ≤ s ∧ s < i + n ∧ entry_matches b name s ∧
          (∀ s', i ≤ s' → s' < s → ¬ entry_matches b name s') ∧
          scan_dentries b name n i = dentry_inum b s) ∨
      ((∀ s, i ≤ s → s < i + n → ¬ entry_matches b name s) ∧ scan_dentries b name n i = 0) := by
  intro n
  induction n with
  | zero => intro i; right; exact ⟨fun s h1 h2 => by omega, rfl⟩
  | succ n ih =>
    intro i
    have hiff : (dentry_valid b i ≠ 0 ∧ strcmp_eq b i 0 name = true) ↔ entry_matches b name i := by
      unfold entry_matches dentry_name
      rw [strcmp_eq_iff b i name 24 0 hlen]
    by_cases hm : entry_matches b name i
    · left
      refine ⟨i, le_refl _, by omega, hm, fun s' h1 h2 => by omega, ?_⟩
      simp only [scan_dentries]
      rw [if_pos (hiff.mpr hm)]
    · have hstep : scan_dentries b name (n + 1) i = scan_dentries b name n (i + 1) := by
        simp only [scan_dentries]
        rw [if_neg (fun h => hm (hiff.mp h))]
      rw [hstep]
      rcases ih (i + 1) with ⟨s, h1, h2, h3, h4, h5⟩ | ⟨h1, h2⟩
      · left
        refine ⟨s, by omega, by omega, h3, fun s' g1 g2 => ?_, h5⟩
        by_cases e : s' = i
        · rw [e]; exact hm
        · exact h4 s' (by omega) g2
      · right
        refine ⟨fun s g1 g2 => ?_, h2⟩
        by_cases e : s = i
        · rw [e]; exact hm
        · exact h1 s (by omega) (by omega)

theorem find_root_direct_spec (ino : tfs_inode) :
    ∀ (n i : Nat),
      (∃ j, i ≤ j ∧ j < i + n ∧ ino.direct j ≠ 0 ∧ (∀ j', i ≤ j' → j' < j → ino.direct j' = 0) ∧
          find_root_direct ino n i = some (ino.direct j)) ∨
      ((∀ j, i ≤ j → j < i + n → ino.direct j = 0) ∧ find_root_direct ino n i = none) := by
  intro n
  induction n with
  | zero => intro i; right; exact ⟨fun s h1 h2 => by omega, rfl⟩
  | succ n ih =>
    intro i
    by_cases hm : ino.direct i ≠ 0
    · left
      refine ⟨i, le_refl _, by omega, hm, fun s' h1 h2 => by omega, ?_⟩
      simp only [find_root_direct]
      rw [if_pos hm]
    · have hstep : find_root_direct ino (n + 1) i = find_root_direct ino n (i + 1) := by
        simp only [find_root_direct]
        rw [if_neg hm]
      rw [hstep]
      rcases ih (i + 1) with ⟨s, h1, h2, h3, h4, h5⟩ | ⟨h1, h2⟩
      · left
        refine ⟨s, by omega, by omega, h3, fun s' g1 g2 => ?_, h5⟩
        by_cases e : s' = i
        · rw [e]; exact not_not.mp hm
        · exact h4 s' (by omega) g2
      · right
        refine ⟨fun s g1 g2 => ?_, h2⟩
        by_cases e : s = i
        · rw [e]; exact not_not.mp hm
        · exact h1 s (by omega) (by omega)

theorem disk_read_inv (n : Int) (d : Disk) (b : Block) (d' : Disk)
    (h : disk_read n d = .ok (b, d')) :
    0 ≤ n ∧ n < 2048 ∧ b = d.blocks n.toNat ∧ d' = { d with nreads := d.nreads + 1 } := by
  by_cases hn : 0 ≤ n ∧ n < 2048
  · rw [disk_read_ok n d hn.1 hn.2] at h
    injection h with h
    injection h with h1 h2
    exact ⟨hn.1, hn.2, h1.symm, h2.symm⟩
  · rw [disk_read_err n d (by omega)] at h
    exact absurd h (by simp)

theorem tfs_get_inumber_long (name : List Byte) (d : Disk) (h : 24 ≤ strlen name) :
    tfs_get_inumber name d = .ok (0, d) := by
  have h' : strlen name ≥ FNAME_SIZE := h
  simp only [tfs_get_inumber, h', if_true]
  rfl

theorem checkIndex_inv (n : Nat) (i : Int) (k : Nat) (h : checkIndex n i = .ok k) :
    0 ≤ i ∧ i < n ∧ k = i.toNat := by
  by_cases hn : 0 ≤ i ∧ i < n
  · rw [checkIndex_ok n i hn.1 hn.2] at h
    injection h with h
    exact ⟨hn.1, hn.2, h.symm⟩
  · rw [checkIndex_err n i (by omega)] at h
    exact absurd h (by simp)

theorem tfs_get_inumber_ok (name : List Byte) (d : Disk) (h : strlen name < 24) (p : Int)
    (h1 : 0 ≤ (super_root_inode (d.blocks 0)).tdiv 128 + 1)
    (h2 : (super_root_inode (d.blocks 0)).tdiv 128 + 1 < 2048)
    (h3 : 0 ≤ (super_root_inode (d.blocks 0)).tmod 128)
    (h4 : find_root_direct (get_inode (d.blocks ((super_root_inode (d.blocks 0)).tdiv 128 + 1).toNat)
      ((super_root_inode (d.blocks 0)).tmod 128).toNat) 5 0 = some p)
    (h5 : 0 ≤ p) (h6 : p < 2048) :
    tfs_get_inumber name d =
      .ok (scan_dentries (d.blocks p.toNat) name 128 0, { d with nreads := d.nreads + 3 }) := by
  have h' : ¬ strlen name ≥ FNAME_SIZE := by simp [FNAME_SIZE]; omega
  have hc : checkIndex 128 ((super_root_inode (d.blocks 0)).tmod 128) =
      .ok ((super_root_inode (d.blocks 0)).tmod 128).toNat :=
    checkIndex_ok _ _ h3 (Int.tmod_lt_of_pos _ (by decide))
  simp only [tfs_get_inumber, h', if_false, bind, StateT.bind, Except.bind,
    disk_read_ok 0 d (le_refl _) (by decide), INODES_PER_BLOCK, POINTERS_PER_INODE,
    NUM_DENTRIES_PER_BLOCK, Nat.cast_ofNat, liftE, Int.toNat_zero, disk_read_ok _ _ h1 h2, hc, h4,
    disk_read_ok _ _ h5 h6, pure, StateT.pure, Except.pure]

theorem tfs_get_inumber_inv (name : List Byte) (d : Disk) (n : Int) (d1 : Disk)
    (h : tfs_get_inumber name d = .ok (n, d1)) :
    (24 ≤ strlen name ∧ n = 0 ∧ d1 = d) ∨
    (strlen name < 24 ∧
      0 ≤ (super_root_inode (d.blocks 0)).tdiv 128 + 1 ∧
      (super_root_inode (d.blocks 0)).tdiv 128 + 1 < 2048 ∧
      0 ≤ (super_root_inode (d.blocks 0)).tmod 128 ∧
      ∃ p, find_root_direct
          (get_inode (d.blocks ((super_root_inode (d.blocks 0)).tdiv 128 + 1).toNat)
            ((super_root_inode (d.blocks 0)).tmod 128).toNat) 5 0 = some p ∧
        0 ≤ p ∧ p < 2048 ∧ n = scan_dentries (d.blocks p.toNat) name 128 0 ∧
        d1 = { d with nreads := d.nreads + 3 }) := by
  by_cases h24 : 24 ≤ strlen name
  · rw [tfs_get_inumber_long name d h24] at h
    injection h with h
    injection h with h1 h2
    exact Or.inl ⟨h24, h1.symm, h2.symm⟩
  · right
    have h' : ¬ strlen name ≥ FNAME_SIZE := by simp [FNAME_SIZE]; omega
    simp only [tfs_get_inumber, h', if_false, bind, StateT.bind, Except.bind,
      disk_read_ok 0 d (le_refl _) (by decide), INODES_PER_BLOCK, POINTERS_PER_INODE,
      NUM_DENTRIES_PER_BLOCK, Nat.cast_ofNat, liftE, Int.toNat_zero] at h
    by_cases hb : 0 ≤ (super_root_inode (d.blocks 0)).tdiv 128 + 1 ∧
        (super_root_inode (d.blocks 0)).tdiv 128 + 1 < 2048
    · rw [disk_read_ok _ _ hb.1 hb.2] at h
      simp only [] at h
      by_cases hc : 0 ≤ (super_root_inode (d.blocks 0)).tmod 128
      · have hc' := checkIndex_ok 128 _ hc (Int.tmod_lt_of_pos _ (by decide))
        simp only [Nat.cast_ofNat] at hc'
        rw [hc'] at h
        simp only [] at h
        cases hf : find_root_direct
          (get_inode (d.blocks ((super_root_inode (d.blocks 0)).tdiv 128 + 1).toNat)
            ((super_root_inode (d.blocks 0)).tmod 128).toNat) 5 0 with
        | none =>
          rw [hf] at h
          exact absurd h (by simp [throw, throwThe, MonadExceptOf.throw, StateT.lift, bind, Except.bind])
        | some p =>
          rw [hf] at h
          simp only [StateT.bind, bind, Except.bind] at h
          by_cases hp : 0 ≤ p ∧ p < 2048
          · rw [disk_read_ok _ _ hp.1 hp.2] at h
            simp only [pure, StateT.pure, Except.pure] at h
            injection h with h
            injection h with g1 g2
            exact ⟨by omega, hb.1, hb.2, hc, p, rfl, hp.1, hp.2, g1.symm, g2.symm⟩
          · rw [disk_read_err _ _ (by omega)] at h
            exact absurd h (by simp)
      · have hc' := checkIndex_err 128 ((super_root_inode (d.blocks 0)).tmod 128) (by omega)
        rw [hc'] at h
        exact absurd h (by simp)
    · rw [disk_read_err _ _ (by omega)] at h
      exact absurd h (by simp)

theorem tfs_get_inumber_spec (d : Disk) (name : List Byte) (j : Nat)
    (hlen : strlen name < 24)
    (hr0 : 0 ≤ super_root_inode (d.blocks 0))
    (hr1 : super_root_inode (d.blocks 0) / 128 + 1 < 2048)
    (hj : j < 5)
    (hjz : (inode_of d.blocks (super_root_inode (d.blocks 0))).direct j ≠ 0)
    (hjmin : ∀ j', j' < j → (inode_of d.blocks (super_root_inode (d.blocks 0))).direct j' = 0)
    (hd0 : 0 ≤ (inode_of d.blocks (super_root_inode (d.blocks 0))).direct j)
    (hd1 : (inode_of d.blocks (super_root_inode (d.blocks 0))).direct j < 2048) :
    tfs_get_inumber name d =
      .ok (scan_dentries
            (d.blocks ((inode_of d.blocks (super_root_inode (d.blocks 0))).direct j).toNat)
            name 128 0,
          { d with nreads := d.nreads + 3 }) := by
  have hdiv : (super_root_inode (d.blocks 0)).tdiv 128 = super_root_inode (d.blocks 0) / 128 :=
    Int.tdiv_eq_ediv hr0 (by decide)
  have hmod : (super_root_inode (d.blocks 0)).tmod 128 = super_root_inode (d.blocks 0) % 128 :=
    Int.tmod_eq_emod hr0 (by decide)
  have hfind : find_root_direct (inode_of d.blocks (super_root_inode (d.blocks 0))) 5 0 =
      some ((inode_of d.blocks (super_root_inode (d.blocks 0))).direct j) := by
    rcases find_root_direct_spec (inode_of d.blocks (super_root_inode (d.blocks 0))) 5 0 with
      ⟨j0, _, g2, g3, g4, g5⟩ | ⟨g1, _⟩
    · have e : j0 = j := by
        by_cases c1 : j0 < j
        · exact absurd (hjmin j0 c1) g3
        · by_cases c2 : j < j0
          · exact absurd (g4 j (by omega) c2) hjz
          · omega
      rw [g5, e]
    · exact absurd (g1 j (by omega) (by omega)) hjz
  apply tfs_get_inumber_ok name d hlen _ (by omega) (by omega) (by omega) _ hd0 hd1
  rw [hdiv, hmod]
  exact hfind

/-- Claim C6.  For a name shorter than 24 bytes and an image whose root inode
(on the device) has a first nonzero direct pointer `direct[j]` naming a block of
the device, `tfs_get_inumber` returns the `inum` field of the lowest-indexed
slot of that block, among the 128, that is valid and carries exactly the name,
and 0 if there is no such slot; no block is written. -/
theorem tfs_get_inumber_first_match (d : Disk) (name : List Byte) (j : Nat)
    (hlen : strlen name < 24)
    (hr0 : 0 ≤ super_root_inode (d.blocks 0))
    (hr1 : super_root_inode (d.blocks 0) / 128 + 1 < 2048)
    (hj : j < 5)
    (hjz : (inode_of d.blocks (super_root_inode (d.blocks 0))).direct j ≠ 0)
    (hjmin : ∀ j', j' < j → (inode_of d.blocks (super_root_inode (d.blocks 0))).direct j' = 0)
    (hd0 : 0 ≤ (inode_of d.blocks (super_root_inode (d.blocks 0))).direct j)
    (hd1 : (inode_of d.blocks (super_root_inode (d.blocks 0))).direct j < 2048) :
    ∃ n d', tfs_get_inumber name d = .ok (n, d') ∧
      d'.blocks = d.blocks ∧ d'.nwrites = d.nwrites ∧
      (∀ i, i < 128 →
        entry_matches
          (d.blocks ((inode_of d.blocks (super_root_inode (d.blocks 0))).direct j).toNat) name i →
        (∀ i', i' < i → ¬ entry_matches
          (d.blocks ((inode_of d.blocks (super_root_inode (d.blocks 0))).direct j).toNat) name i') →
        n = dentry_inum
          (d.blocks ((inode_of d.blocks (super_root_inode (d.blocks 0))).direct j).toNat) i) ∧
      ((∀ i, i < 128 → ¬ entry_matches
          (d.blocks ((inode_of d.blocks (super_root_inode (d.blocks 0))).direct j).toNat) name i) →
        n = 0) := by
  refine ⟨_, _, tfs_get_inumber_spec d name j hlen hr0 hr1 hj hjz hjmin hd0 hd1, rfl, rfl, ?_, ?_⟩
  · intro i hi hm hfirst
    rcases scan_dentries_spec
      (d.blocks ((inode_of d.blocks (super_root_inode (d.blocks 0))).direct j).toNat) name hlen
      128 0 with ⟨s, _, g2, g3, g4, g5⟩ | ⟨g1, _⟩
    · have e : s = i := by
        by_cases c1 : s < i
        · exact absurd g3 (hfirst s c1)
        · by_cases c2 : i < s
          · exact absurd hm (g4 i (by omega) c2)
          · omega
      rw [g5, e]
    · exact absurd hm (g1 i (by omega) (by omega))
  · intro hnone
    rcases scan_dentries_spec
      (d.blocks ((inode_of d.blocks (super_root_inode (d.blocks 0))).direct j).toNat) name hlen
      128 0 with ⟨s, _, g2, g3, _, _⟩ | ⟨_, g2⟩
    · exact absurd g3 (hnone s (by omega))
    · exact g2

/-- Witness of `tfs_get_inumber_first_match`: `a.txt` in the example image is
found in slot 0 of block 4 and resolves to inode 2. -/
theorem tfs_get_inumber_first_match_witness :
    ∃ d', tfs_get_inumber name_a example_image = .ok (2, d') := by
  obtain ⟨n, d', he, _, _, h1, _⟩ :=
    tfs_get_inumber_first_match example_image name_a 0 (by decide) (by decide) (by decide)
      (by decide) (by decide) (fun j' h => by omega) (by decide) (by decide)
  have hn : n = 2 := by
    rw [h1 0 (by decide) (by decide) (fun i' h => by omega)]
    decide
  exact ⟨d', by rw [he, hn]⟩

/-- Claim C7.  `tfs_get_inumber` returns 0 for every file name of 24 bytes or
more and leaves the device state, read counter included, untouched; a name of
exactly 23 bytes passes the length check: when the lowest-indexed valid entry
carrying that name is in slot `i` of the directory block, the `inum` of that
entry is returned. -/
theorem tfs_get_inumber_name_boundary (d : Disk) (name : List Byte) :
    (24 ≤ strlen name → tfs_get_inumber name d = .ok (0, d)) ∧
    (strlen name = 23 →
      ∀ j : Nat, 0 ≤ super_root_inode (d.blocks 0) →
        super_root_inode (d.blocks 0) / 128 + 1 < 2048 → j < 5 →
        (inode_of d.blocks (super_root_inode (d.blocks 0))).direct j ≠ 0 →
        (∀ j', j' < j → (inode_of d.blocks (super_root_inode (d.blocks 0))).direct j' = 0) →
        0 ≤ (inode_of d.blocks (super_root_inode (d.blocks 0))).direct j →
        (inode_of d.blocks (super_root_inode (d.blocks 0))).direct j < 2048 →
        ∀ i, i < 128 →
          entry_matches
            (d.blocks ((inode_of d.blocks (super_root_inode (d.blocks 0))).direct j).toNat)
            name i →
          (∀ i', i' < i → ¬ entry_matches
            (d.blocks ((inode_of d.blocks (super_root_inode (d.blocks 0))).direct j).toNat)
            name i') →
          ∃ d', tfs_get_inumber name d =
            .ok (dentry_inum
              (d.blocks ((inode_of d.blocks (super_root_inode (d.blocks 0))).direct j).toNat) i,
              d')) := by
  refine ⟨tfs_get_inumber_long name d, ?_⟩
  intro h23 j hr0 hr1 hj hjz hjmin hd0 hd1 i hi hm hfirst
  have hlen : strlen name < 24 := by omega
  refine ⟨{ d with nreads := d.nreads + 3 }, ?_⟩
  rw [tfs_get_inumber_spec d name j hlen hr0 hr1 hj hjz hjmin hd0 hd1]
  rcases scan_dentries_spec
    (d.blocks ((inode_of d.blocks (super_root_inode (d.blocks 0))).direct j).toNat) name hlen
    128 0 with ⟨s, _, g2, g3, g4, g5⟩ | ⟨g1, _⟩
  · have e : s = i := by
      by_cases c1 : s < i
      · exact absurd g3 (hfirst s c1)
      · by_cases c2 : i < s
        · exact absurd hm (g4 i (by omega) c2)
        · omega
    rw [g5, e]
  · exact absurd hm (g1 i (by omega) (by omega))

/-- Witness of `tfs_get_inumber_name_boundary`: in the example image the name
of 24 letters is rejected without any read, and the name of 23 letters, carried
by slot 3 of the directory, resolves to inode 5. -/
theorem tfs_get_inumber_name_boundary_witness :
    tfs_get_inumber name_24 example_image = .ok (0, example_image) ∧
    ∃ d', tfs_get_inumber name_23 example_image = .ok (5, d') := by
  refine ⟨(tfs_get_inumber_name_boundary example_image name_24).1 (by decide), ?_⟩
  obtain ⟨d', he⟩ := (tfs_get_inumber_name_boundary example_image name_23).2 (by decide) 0
    (by decide) (by decide) (by decide) (by decide) (fun j' h => by omega) (by decide) (by decide)
    3 (by decide) (by decide) (by decide)
  have hn : dentry_inum
      (example_image.blocks
        ((inode_of example_image.blocks (super_root_inode (example_image.blocks 0))).direct
          0).toNat) 3 = 5 := by decide
  exact ⟨d', by rw [he, hn]⟩

theorem tfs_get_inumber_same (name : List Byte) (d : Disk) (n : Int) (d1 : Disk)
    (h : tfs_get_inumber name d = .ok (n, d1)) : same_blocks d d1 := by
  rcases tfs_get_inumber_inv name d n d1 h with ⟨_, _, h3⟩ | ⟨_, _, _, _, p, _, _, _, _, h5⟩
  · rw [h3]; exact ⟨rfl, rfl⟩
  · rw [h5]; exact ⟨rfl, rfl⟩

/-- Claim C8.  With `n` the number returned by `tfs_get_inumber name`:
`tfs_getsize name` returns -1 if and only if `n ≤ 0` (stored sizes being other
than -1), and for `n > 0` (inode `n` on the device) it returns the size field of
the inode record in slot `n % 128` of block `n / 128 + 1`. -/
theorem tfs_getsize_spec (d : Disk) (name : List Byte) (n : Int) (d1 : Disk)
    (hget : tfs_get_inumber name d = .ok (n, d1))
    (hex : 0 < n → n / 128 + 1 < 2048)
    (hsz : 0 < n → (get_inode (d.blocks (n / 128 + 1).toNat) (n % 128).toNat).size ≠ -1) :
    ∃ v d', tfs_getsize name d = .ok (v, d') ∧ d'.blocks = d.blocks ∧
      d'.nwrites = d.nwrites ∧ (v = -1 ↔ n ≤ 0) ∧
      (0 < n → v = (get_inode (d.blocks (n / 128 + 1).toNat) (n % 128).toNat).size) := by
  have hs := tfs_get_inumber_same name d n d1 hget
  by_cases hn : n ≤ 0
  · refine ⟨-1, d1, ?_, hs.1, hs.2, by simp [hn], fun h => by omega⟩
    simp only [tfs_getsize, bind, StateT.bind, Except.bind, hget, hn, if_true]
    rfl
  · have hpos : 0 < n := by omega
    have hdiv : n.tdiv 128 = n / 128 := Int.tdiv_eq_ediv (by omega) (by decide)
    have hmod : n.tmod 128 = n % 128 := Int.tmod_eq_emod (by omega) (by decide)
    have hc : checkIndex 128 (n % 128) = .ok (n % 128).toNat :=
      checkIndex_ok _ _ (by omega) (by omega)
    refine ⟨(get_inode (d.blocks (n / 128 + 1).toNat) (n % 128).toNat).size,
      { d1 with nreads := d1.nreads + 1 }, ?_, hs.1, hs.2, ?_, fun _ => rfl⟩
    · simp only [tfs_getsize, bind, StateT.bind, Except.bind, hget, hn, if_false,
        INODES_PER_BLOCK, Nat.cast_ofNat, hdiv, hmod,
        disk_read_ok _ d1 (by omega : 0 ≤ n / 128 + 1) (hex hpos), liftE, hc, hs.1]
      rfl
    · constructor
      · intro h; exact absurd h (hsz hpos)
      · intro h; exact absurd h hn

/-- Witness of `tfs_getsize_spec`: `a.txt` in the example image resolves to
inode 2, whose size is 10. -/
theorem tfs_getsize_spec_witness :
    ∃ d', tfs_getsize name_a example_image = .ok (10, d') := by
  obtain ⟨v, d', he, _, _, _, h2⟩ :=
    tfs_getsize_spec example_image name_a 2 { example_image with nreads := 3 } rfl
      (fun _ => by decide) (fun _ => by decide)
  have hv : v = 10 := by rw [h2 (by decide)]; decide
  exact ⟨d', by rw [he, hv]⟩

/-- Claim C9.  When `tfs_get_inumber name` returns a number `n ≤ 0` (no matching
valid entry, name too long, or a stored `inum ≤ 0`), `tfs_delete name` returns
0 and writes nothing: every block is as before and the write counter has not
moved. -/
theorem tfs_delete_not_found (d : Disk) (name : List Byte) (n : Int) (d1 : Disk)
    (hget : tfs_get_inumber name d = .ok (n, d1)) (hn : n ≤ 0) :
    ∃ d', tfs_delete name d = .ok (0, d') ∧ d'.blocks = d.blocks ∧ d'.nwrites = d.nwrites := by
  have hs := tfs_get_inumber_same name d n d1 hget
  refine ⟨d1, ?_, hs.1, hs.2⟩
  simp only [tfs_delete, bind, StateT.bind, Except.bind, hget, hn, if_true]
  rfl

/-- Witness of `tfs_delete_not_found`: deleting the name of 24 letters in the
example image. -/
theorem tfs_delete_not_found_witness :
    ∃ d', tfs_delete name_24 example_image = .ok (0, d') ∧
      d'.blocks = example_image.blocks ∧ d'.nwrites = example_image.nwrites :=
  tfs_delete_not_found example_image name_24 0 example_image rfl (by decide)

/-! ## `tfs_delete` -/

theorem st32_other (b : Block) (o w i : Nat) (h : i < o ∨ o + 4 ≤ i) : st32 b o w i = b i := by
  unfold st32
  rw [if_neg (by omega), if_neg (by omega), if_neg (by omega), if_neg (by omega)]

theorem free_block_ok (sb : Block) (p : Int) (h0 : 0 ≤ p) (h1 : p < 2048) :
    free_block sb p =
      .ok (st32 sb (16 + 4 * (p / 32).toNat)
        (clear_bit (super_block_in_use sb (p / 32).toNat) (p % 32).toNat)) := by
  have hdiv : p.tdiv 32 = p / 32 := Int.tdiv_eq_ediv h0 (by decide)
  have hmod : p.tmod 32 = p % 32 := Int.tmod_eq_emod h0 (by decide)
  have hc1 : checkIndex 64 (p / 32) = .ok (p / 32).toNat :=
    checkIndex_ok _ _ (by omega) (by omega)
  have hc2 : checkIndex 32 (p % 32) = .ok (p % 32).toNat :=
    checkIndex_ok _ _ (by omega) (by omega)
  have e : NUM_BLOCKS / 32 = 64 := rfl
  simp only [free_block, BITS_PER_UINT, e, Nat.cast_ofNat, hdiv, hmod, hc1, hc2, bind,
    Except.bind, pure, Except.pure]

theorem free_inode_ok (sb : Block) (n : Int) (h0 : 0 ≤ n) (h1 : n < 512) :
    free_inode sb n =
      .ok (st32 sb (272 + 4 * (n / 32).toNat)
        (clear_bit (super_inode_in_use sb (n / 32).toNat) (n % 32).toNat)) := by
  have hdiv : n.tdiv 32 = n / 32 := Int.tdiv_eq_ediv h0 (by decide)
  have hmod : n.tmod 32 = n % 32 := Int.tmod_eq_emod h0 (by decide)
  have hc1 : checkIndex 16 (n / 32) = .ok (n / 32).toNat :=
    checkIndex_ok _ _ (by omega) (by omega)
  have hc2 : checkIndex 32 (n % 32) = .ok (n % 32).toNat :=
    checkIndex_ok _ _ (by omega) (by omega)
  have e : NUM_INODES / 32 = 16 := rfl
  simp only [free_inode, BITS_PER_UINT, e, Nat.cast_ofNat, hdiv, hmod, hc1, hc2, bind,
    Except.bind, pure, Except.pure]

theorem free_pointers_ok (ptr : Nat → Int) :
    ∀ (n i : Nat) (sb : Block), (∀ j, i ≤ j → j < i + n → 0 ≤ ptr j ∧ ptr j < 2048) →
      ∃ sb', free_pointers ptr n i sb = .ok sb' ∧ ∀ o, o < 16 → sb' o = sb o := by
  intro n
  induction n with
  | zero => intro i sb _; exact ⟨sb, rfl, fun _ _ => rfl⟩
  | succ n ih =>
    intro i sb h
    by_cases hz : ptr i ≠ 0
    · have hp := h i (le_refl _) (by omega)
      obtain ⟨sb', h1, h2⟩ := ih (i + 1)
        (st32 sb (16 + 4 * (ptr i / 32).toNat)
          (clear_bit (super_block_in_use sb (ptr i / 32).toNat) (ptr i % 32).toNat))
        (fun j g1 g2 => h j (by omega) (by omega))
      refine ⟨sb', ?_, fun o ho => ?_⟩
      · simp only [free_pointers, hz, if_true, ne_eq, not_false_eq_true,
          free_block_ok sb (ptr i) hp.1 hp.2, bind, Except.bind]
        exact h1
      · rw [h2 o ho, st32_other _ _ _ _ (by omega)]
    · obtain ⟨sb', h1, h2⟩ := ih (i + 1) sb (fun j g1 g2 => h j (by omega) (by omega))
      refine ⟨sb', ?_, h2⟩
      simp only [free_pointers, hz, if_false]
      exact h1

theorem free_block_low (sb : Block) (p : Int) (h0 : 0 ≤ p) (h1 : p < 2048) :
    ∃ sb', free_block sb p = .ok sb' ∧ ∀ o, o < 16 → sb' o = sb o :=
  ⟨_, free_block_ok sb p h0 h1, fun _ _ => st32_other _ _ _ _ (by omega)⟩

theorem free_inode_low (sb : Block) (n : Int) (h0 : 0 ≤ n) (h1 : n < 512) :
    ∃ sb', free_inode sb n = .ok sb' ∧ ∀ o, o < 16 → sb' o = sb o :=
  ⟨_, free_inode_ok sb n h0 h1, fun _ _ => st32_other _ _ _ _ (by omega)⟩

theorem delete_super_ok (blocks : Nat → Block) (n : Int) (h0 : 0 ≤ n) (h1 : n < 512)
    (hdir : ∀ j, j < 5 → 0 ≤ (inode_of blocks n).direct j ∧ (inode_of blocks n).direct j < 2048)
    (hind : 0 ≤ (inode_of blocks n).indirect ∧ (inode_of blocks n).indirect < 2048)
    (hptr : (inode_of blocks n).indirect ≠ 0 → ∀ i, i < 1024 →
      0 ≤ get_pointer (blocks (inode_of blocks n).indirect.toNat) i ∧
      get_pointer (blocks (inode_of blocks n).indirect.toNat) i < 2048) :
    ∃ sb, delete_super blocks n = .ok sb ∧ ∀ o, o < 16 → sb o = blocks 0 o := by
  obtain ⟨sb1, e1, f1⟩ := free_pointers_ok (inode_of blocks n).direct 5 0 (blocks 0)
    (fun j _ g2 => hdir j (by omega))
  by_cases hz : (inode_of blocks n).indirect ≠ 0
  · obtain ⟨sb2, e2, f2⟩ := free_pointers_ok
      (get_pointer (blocks (inode_of blocks n).indirect.toNat)) 1024 0 sb1
      (fun j _ g2 => hptr hz j (by omega))
    obtain ⟨sb3, e3, f3⟩ := free_block_low sb2 _ hind.1 hind.2
    obtain ⟨sb4, e4, f4⟩ := free_inode_low sb3 n h0 h1
    refine ⟨sb4, ?_, fun o ho => ?_⟩
    · simp only [delete_super, e1, hz, if_true, ne_eq, not_false_eq_true, e2, bind, Except.bind,
        e3, e4]
    · rw [f4 o ho, f3 o ho, f2 o ho, f1 o ho]
  · obtain ⟨sb4, e4, f4⟩ := free_inode_low sb1 n h0 h1
    refine ⟨sb4, ?_, fun o ho => ?_⟩
    · simp only [delete_super, e1, hz, if_false, bind, Except.bind, pure, Except.pure, e4]
    · rw [f4 o ho, f1 o ho]

theorem free_block_inv (sb : Block) (p : Int) (sb' : Block) (h : free_block sb p = .ok sb') :
    0 ≤ p ∧ p < 2048 ∧ ∀ o, o < 16 → sb' o = sb o := by
  have e : NUM_BLOCKS / 32 = 64 := rfl
  simp only [free_block, BITS_PER_UINT, e, Nat.cast_ofNat, bind, Except.bind] at h
  cases hc1 : checkIndex 64 (p.tdiv 32) with
  | error e1 => rw [hc1] at h; exact absurd h (by simp)
  | ok w =>
    rw [hc1] at h
    simp only [] at h
    cases hc2 : checkIndex 32 (p.tmod 32) with
    | error e2 => rw [hc2] at h; exact absurd h (by simp)
    | ok k =>
      rw [hc2] at h
      simp only [pure, Except.pure] at h
      injection h with h
      have g1 := checkIndex_inv _ _ _ hc1
      have g2 := checkIndex_inv _ _ _ hc2
      have g3 := Int.tmod_add_tdiv p 32
      have g4 : p.tmod 32 < 32 := Int.tmod_lt_of_pos _ (by decide)
      refine ⟨by omega, by omega, fun o ho => ?_⟩
      rw [← h, st32_other _ _ _ _ (by omega)]

theorem free_inode_inv (sb : Block) (n : Int) (sb' : Block) (h : free_inode sb n = .ok sb') :
    0 ≤ n ∧ n < 512 ∧ ∀ o, o < 16 → sb' o = sb o := by
  have e : NUM_INODES / 32 = 16 := rfl
  simp only [free_inode, BITS_PER_UINT, e, Nat.cast_ofNat, bind, Except.bind] at h
  cases hc1 : checkIndex 16 (n.tdiv 32) with
  | error e1 => rw [hc1] at h; exact absurd h (by simp)
  | ok w =>
    rw [hc1] at h
    simp only [] at h
    cases hc2 : checkIndex 32 (n.tmod 32) with
    | error e2 => rw [hc2] at h; exact absurd h (by simp)
    | ok k =>
      rw [hc2] at h
      simp only [pure, Except.pure] at h
      injection h with h
      have g1 := checkIndex_inv _ _ _ hc1
      have g2 := checkIndex_inv _ _ _ hc2
      have g3 := Int.tmod_add_tdiv n 32
      have g4 : n.tmod 32 < 32 := Int.tmod_lt_of_pos _ (by decide)
      refine ⟨by omega, by omega, fun o ho => ?_⟩
      rw [← h, st32_other _ _ _ _ (by omega)]

theorem free_pointers_inv (ptr : Nat → Int) :
    ∀ (n i : Nat) (sb sb' : Block), free_pointers ptr n i sb = .ok sb' →
      ∀ o, o < 16 → sb' o = sb o := by
  intro n
  induction n with
  | zero =>
    intro i sb sb' h o _
    simp only [free_pointers, pure, Except.pure] at h
    injection h with h
    rw [h]
  | succ n ih =>
    intro i sb sb' h o ho
    by_cases hz : ptr i ≠ 0
    · simp only [free_pointers, hz, if_true, ne_eq, not_false_eq_true, bind, Except.bind] at h
      cases hf : free_block sb (ptr i) with
      | error e1 => rw [hf] at h; exact absurd h (by simp)
      | ok sb1 =>
        rw [hf] at h
        simp only [] at h
        rw [ih (i + 1) sb1 sb' h o ho, (free_block_inv sb (ptr i) sb1 hf).2.2 o ho]
    · simp only [free_pointers, hz, if_false] at h
      exact ih (i + 1) sb sb' h o ho

theorem delete_super_inv (blocks : Nat → Block) (n : Int) (sb : Block)
    (h : delete_super blocks n = .ok sb) :
    ∃ sb1 sb2, free_pointers (inode_of blocks n).direct 5 0 (blocks 0) = .ok sb1 ∧
      (((inode_of blocks n).indirect ≠ 0 ∧ 0 ≤ (inode_of blocks n).indirect ∧
          (inode_of blocks n).indirect < 2048 ∧
          ∃ sbi, free_pointers (get_pointer (blocks (inode_of blocks n).indirect.toNat))
              1024 0 sb1 = .ok sbi ∧
            free_block sbi (inode_of blocks n).indirect = .ok sb2) ∨
        ((inode_of blocks n).indirect = 0 ∧ sb2 = sb1)) ∧
      free_inode sb2 n = .ok sb ∧ ∀ o, o < 16 → sb o = blocks 0 o := by
  simp only [delete_super, bind, Except.bind] at h
  cases h1 : free_pointers (inode_of blocks n).direct 5 0 (blocks 0) with
  | error e1 => rw [h1] at h; exact absurd h (by simp)
  | ok sb1 =>
    rw [h1] at h
    simp only [] at h
    have f1 := free_pointers_inv _ _ _ _ _ h1
    by_cases hz : (inode_of blocks n).indirect ≠ 0
    · simp only [hz, if_true, ne_eq, not_false_eq_true] at h
      cases h2 : free_pointers (get_pointer (blocks (inode_of blocks n).indirect.toNat))
          1024 0 sb1 with
      | error e2 => rw [h2] at h; exact absurd h (by simp)
      | ok sbi =>
        rw [h2] at h
        simp only [] at h
        have f2 := free_pointers_inv _ _ _ _ _ h2
        cases h3 : free_block sbi (inode_of blocks n).indirect with
        | error e3 => rw [h3] at h; exact absurd h (by simp)
        | ok sb2 =>
          rw [h3] at h
          simp only [] at h
          have f3 := free_block_inv _ _ _ h3
          have f4 := free_inode_inv _ _ _ h
          refine ⟨sb1, sb2, rfl, Or.inl ⟨hz, f3.1, f3.2.1, sbi, h2, h3⟩, h, fun o ho => ?_⟩
          rw [f4.2.2 o ho, f3.2.2 o ho, f2 o ho, f1 o ho]
    · simp only [hz, if_false, pure, Except.pure] at h
      have f4 := free_inode_inv _ _ _ h
      refine ⟨sb1, sb1, rfl, Or.inr ⟨not_not.mp hz, rfl⟩, h, fun o ho => ?_⟩
      rw [f4.2.2 o ho, f1 o ho]

theorem ld32_congr (b b' : Block) (o : Nat) (h : ∀ i, o ≤ i → i < o + 4 → b' i = b i) :
    ld32 b' o = ld32 b o := by
  unfold ld32
  rw [h o (by omega) (by omega), h (o + 1) (by omega) (by omega),
    h (o + 2) (by omega) (by omega), h (o + 3) (by omega) (by omega)]

theorem disk_write_ok (n : Int) (b : Block) (d : Disk) (h1 : 0 ≤ n) (h2 : n < 2048) :
    disk_write n b d =
      .ok ((), { blocks := write_block d.blocks n.toNat b, nreads := d.nreads,
                 nwrites := d.nwrites + 1 }) := by
  simp only [disk_write, NUM_BLOCKS, Nat.cast_ofNat, h1, h2, and_self, if_true]
  rfl

theorem tfs_delete_run (d : Disk) (name : List Byte) (n : Int) (d1 : Disk)
    (hget : tfs_get_inumber name d = .ok (n, d1)) (hn : 0 < n)
    (sb : Block) (hsb : delete_super d.blocks n = .ok sb)
    (hrd0 : 0 ≤ delete_dir_block d.blocks n) (hrd1 : delete_dir_block d.blocks n < 2048) :
    ∃ d', tfs_delete name d = .ok (n, d') ∧ d'.blocks = delete_blocks d.blocks n sb ∧
      d'.nwrites = d.nwrites + 3 := by
  rcases tfs_get_inumber_inv name d n d1 hget with ⟨_, h0, _⟩ | ⟨_, r1, r2, r3, p, _, _, _, _, hd1⟩
  · omega
  obtain ⟨sb1, sb2, e1, e2, e3, flow⟩ := delete_super_inv d.blocks n sb hsb
  have hn512 := (free_inode_inv _ _ _ e3).2.1
  have hdiv : n.tdiv 128 = n / 128 := Int.tdiv_eq_ediv (by omega) (by decide)
  have hmod : n.tmod 128 = n % 128 := Int.tmod_eq_emod (by omega) (by decide)
  have hc : checkIndex 128 (n % 128) = .ok (n % 128).toNat :=
    checkIndex_ok _ _ (by omega) (by omega)
  have hroot : super_root_inode sb = super_root_inode (d.blocks 0) := by
    unfold super_root_inode ldInt
    rw [ld32_congr (d.blocks 0) sb 12 (fun i _ _ => flow i (by omega))]
  have hcr : checkIndex 128 ((super_root_inode (d.blocks 0)).tmod 128) =
      .ok ((super_root_inode (d.blocks 0)).tmod 128).toNat :=
    checkIndex_ok _ _ r3 (Int.tmod_lt_of_pos _ (by decide))
  have hnle : ¬ n ≤ 0 := by omega
  subst hd1
  simp only [inode_of] at e1 e2
  simp only [tfs_delete, bind, StateT.bind, Except.bind, hget, hnle, if_false,
    INODES_PER_BLOCK, POINTERS_PER_INODE, POINTERS_PER_BLOCK, NUM_DENTRIES_PER_BLOCK,
    Nat.cast_ofNat, hdiv, hmod, disk_read_ok 0 _ (le_refl _) (by decide), Int.toNat_zero,
    disk_read_ok (n / 128 + 1) _ (by omega) (by omega), liftE, hc, e1]
  simp only [delete_dir_block, inode_cleared] at hrd0 hrd1
  have hib0 : 0 ≤ n / 128 + 1 := by omega
  have hib1 : n / 128 + 1 < 2048 := by omega
  rcases e2 with ⟨hz, hi0, hi1, sbi, e21, e22⟩ | ⟨hz, e2⟩
  · simp only [hz, if_true, ne_eq, not_false_eq_true, StateT.bind, disk_read_ok _ _ hi0 hi1, bind,
      Except.bind, liftE, e21, e22, e3, disk_write_ok _ _ _ hib0 hib1, hroot, hcr,
      disk_read_ok _ _ r1 r2, disk_read_ok _ _ hrd0 hrd1, disk_write_ok _ _ _ hrd0 hrd1,
      disk_write_ok 0 _ _ (le_refl _) (by decide), pure, StateT.pure, Except.pure]
    exact ⟨_, rfl, rfl, rfl⟩
  · subst e2
    simp only [hz, if_false, ne_eq, not_true_eq_false, StateT.bind, bind,
      Except.bind, liftE, e3, disk_write_ok _ _ _ hib0 hib1, hroot, hcr,
      disk_read_ok _ _ r1 r2, disk_read_ok _ _ hrd0 hrd1, disk_write_ok _ _ _ hrd0 hrd1,
      disk_write_ok 0 _ _ (le_refl _) (by decide), pure, StateT.pure, Except.pure]
    exact ⟨_, rfl, rfl, rfl⟩

theorem toInt32_zero : toInt32 0 = 0 := by decide

theorem ld32_memset0_in (b : Block) (o0 n o : Nat) (h1 : o0 ≤ o) (h2 : o + 4 ≤ o0 + n) :
    ld32 (memset0 b o0 n) o = 0 := by
  unfold ld32 memset0
  rw [if_pos (by omega), if_pos (by omega), if_pos (by omega), if_pos (by omega)]
  rfl

theorem ld32_memset0_out (b : Block) (o0 n o : Nat) (h : o + 4 ≤ o0 ∨ o0 + n ≤ o) :
    ld32 (memset0 b o0 n) o = ld32 b o := by
  unfold ld32 memset0
  rw [if_neg (by omega), if_neg (by omega), if_neg (by omega), if_neg (by omega)]

/-- Claim C10, amended.  When `tfs_get_inumber name` returns `n` with
`0 < n < 512`, the pointers of inode `n` (direct, indirect, and those of its
indirect block) lie in `[0, 2048)`, and the directory block that `tfs_delete`
rewrites (`direct[0]` of the root inode) is on the device and is not the table
block `n / 128 + 1`: `tfs_delete name` returns `n`, the record in slot `n % 128`
of block `n / 128 + 1` is all-zero afterwards, and the other 127 records of that
block are unchanged. -/
theorem tfs_delete_clears_inode (d : Disk) (name : List Byte) (n : Int) (d1 : Disk)
    (hget : tfs_get_inumber name d = .ok (n, d1)) (hn : 0 < n) (hn512 : n < 512)
    (hdir : ∀ j, j < 5 →
      0 ≤ (inode_of d.blocks n).direct j ∧ (inode_of d.blocks n).direct j < 2048)
    (hind : 0 ≤ (inode_of d.blocks n).indirect ∧ (inode_of d.blocks n).indirect < 2048)
    (hptr : (inode_of d.blocks n).indirect ≠ 0 → ∀ i, i < 1024 →
      0 ≤ get_pointer (d.blocks (inode_of d.blocks n).indirect.toNat) i ∧
      get_pointer (d.blocks (inode_of d.blocks n).indirect.toNat) i < 2048)
    (hrd0 : 0 ≤ delete_dir_block d.blocks n) (hrd1 : delete_dir_block d.blocks n < 2048)
    (hrdne : delete_dir_block d.blocks n ≠ n / 128 + 1) :
    ∃ d', tfs_delete name d = .ok (n, d') ∧
      ((get_inode (d'.blocks (n / 128 + 1).toNat) (n % 128).toNat).type = 0 ∧
        (get_inode (d'.blocks (n / 128 + 1).toNat) (n % 128).toNat).size = 0 ∧
        (∀ j, j < 5 → (get_inode (d'.blocks (n / 128 + 1).toNat) (n % 128).toNat).direct j = 0) ∧
        (get_inode (d'.blocks (n / 128 + 1).toNat) (n % 128).toNat).indirect = 0) ∧
      (∀ s, s < 128 → s ≠ (n % 128).toNat →
        (get_inode (d'.blocks (n / 128 + 1).toNat) s).type =
          (get_inode (d.blocks (n / 128 + 1).toNat) s).type ∧
        (get_inode (d'.blocks (n / 128 + 1).toNat) s).size =
          (get_inode (d.blocks (n / 128 + 1).toNat) s).size ∧
        (∀ j, j < 5 → (get_inode (d'.blocks (n / 128 + 1).toNat) s).direct j =
          (get_inode (d.blocks (n / 128 + 1).toNat) s).direct j) ∧
        (get_inode (d'.blocks (n / 128 + 1).toNat) s).indirect =
          (get_inode (d.blocks (n / 128 + 1).toNat) s).indirect) := by
  obtain ⟨sb, hsb, _⟩ := delete_super_ok d.blocks n (by omega) hn512 hdir hind hptr
  obtain ⟨d', he, hblocks, _⟩ := tfs_delete_run d name n d1 hget hn sb hsb hrd0 hrd1
  have hib : d'.blocks (n / 128 + 1).toNat =
      memset0 (d.blocks (n / 128 + 1).toNat) (32 * (n % 128).toNat) 32 := by
    rw [hblocks]
    simp only [delete_blocks, write_block, inode_cleared]
    rw [if_neg (by omega), if_neg (by omega), if_pos trivial]
  refine ⟨d', he, ?_, ?_⟩
  · rw [hib]
    simp only [get_inode, ldInt]
    refine ⟨?_, ?_, fun j hj => ?_, ?_⟩
    · rw [ld32_memset0_in _ _ _ _ (by omega) (by omega), toInt32_zero]
    · rw [ld32_memset0_in _ _ _ _ (by omega) (by omega), toInt32_zero]
    · rw [ld32_memset0_in _ _ _ _ (by omega) (by omega), toInt32_zero]
    · rw [ld32_memset0_in _ _ _ _ (by omega) (by omega), toInt32_zero]
  · intro s hs hne
    rw [hib]
    simp only [get_inode, ldInt]
    refine ⟨?_, ?_, fun j hj => ?_, ?_⟩
    · rw [ld32_memset0_out _ _ _ _ (by omega)]
    · rw [ld32_memset0_out _ _ _ _ (by omega)]
    · rw [ld32_memset0_out _ _ _ _ (by omega)]
    · rw [ld32_memset0_out _ _ _ _ (by omega)]

/-- Claim C10 fails as stated: in the aliased image the name `a` resolves to
inode 2 (`0 < 2 < 512`) and `tfs_delete` returns 2, but the directory block it
rewrites is the table block 1 itself, and the record of inode 1 in that block
(type 2 before the call) is zeroed along with that of inode 2. -/
theorem tfs_delete_clears_inode_counterexample :
    tfs_get_inumber name_one alias_image = .ok (2, { alias_image with nreads := 3 }) ∧
    (0 : Int) < 2 ∧ (2 : Int) < 512 ∧ (1 : Nat) ≠ ((2 : Int) % 128).toNat ∧
    ∃ d', tfs_delete name_one alias_image = .ok (2, d') ∧
      (get_inode (alias_image.blocks ((2 : Int) / 128 + 1).toNat) 1).type = 2 ∧
      (get_inode (d'.blocks ((2 : Int) / 128 + 1).toNat) 1).type = 0 :=
  ⟨rfl, by decide, by decide, by decide, _, rfl, by decide, by decide⟩

/-- Witness of `tfs_delete_clears_inode`: deleting `a.txt` (inode 2) in the
example image. -/
theorem tfs_delete_clears_inode_witness :
    ∃ d', tfs_delete name_a example_image = .ok (2, d') ∧
      (get_inode (d'.blocks ((2 : Int) / 128 + 1).toNat) ((2 : Int) % 128).toNat).size = 0 ∧
      (get_inode (d'.blocks ((2 : Int) / 128 + 1).toNat) 3).size =
        (get_inode (example_image.blocks ((2 : Int) / 128 + 1).toNat) 3).size := by
  have hsz : (inode_of example_image.blocks 2).indirect = 0 := by decide
  obtain ⟨d', he, hz, hu⟩ :=
    tfs_delete_clears_inode example_image name_a 2 { example_image with nreads := 3 } rfl
      (by decide) (by decide)
      (fun j hj => by
        have : j = 0 ∨ j = 1 ∨ j = 2 ∨ j = 3 ∨ j = 4 := by omega
        rcases this with h | h | h | h | h <;> subst h <;> decide)
      (by decide) (fun h => absurd hsz h) (by decide) (by decide) (by decide)
  exact ⟨d', he, hz.2.1, (hu 3 (by decide) (by decide)).2.1⟩

/-! ## Failing inputs -/

/-- Claim C15 at a failing input: in the example image `a.txt` (inode 2) has 10
bytes; with `offset = 1` and `length = 2147483647` the sum wraps to a negative
number, the clamp of line 359 is skipped, and `tfs_read` returns 4095 bytes,
beyond the size of the file. -/
theorem tfs_read_overflow_evaluation :
    wrap32 (1 + 2147483647) = -2147483648 ∧
    (inode_of example_image.blocks 2).size = 10 ∧
    ∃ data' d', tfs_read 2 zero_buffer 2147483647 1 example_image = .ok ((4095, data'), d') ∧
      ¬ ((4095 : Int) = 0 ∨ (1 : Int) + 4095 ≤ (inode_of example_image.blocks 2).size) :=
  ⟨by decide, by decide, _, _, rfl, by decide⟩

/-- Claim C16 at a failing input: inode 2 of the wide image has `indirect = 0`
and size 40960; a read of 10 bytes at offset `8 * 4096 + 32` fetches block 0 as
the pointer table, takes its entry 3 (the field `root_inode`, 1) as the physical
block and returns 10 bytes of the inode table instead of 0 bytes. -/
theorem tfs_read_no_indirect_evaluation :
    (inode_of wide_image.blocks 2).indirect = 0 ∧
    (32800 : Int) < (inode_of wide_image.blocks 2).size ∧
    get_pointer (wide_image.blocks 0) 3 = 1 ∧
    tfs_read 2 zero_buffer 10 32800 wide_image =
      .ok ((10, copy_bytes zero_buffer 0 (wide_image.blocks 1) 32 10),
        { wide_image with nreads := 3 }) :=
  ⟨by decide, by decide, by decide, rfl⟩

/-- Claim C13 at a failing input: in the gap image the root inode has
`direct[0] = 0` and `direct[1] = 4`; `tfs_get_inumber` scans block 4 and resolves
`a.txt` to inode 2, `tfs_delete` returns 2 but takes `direct[0]` for the
directory block, so that block 4 is left as it was: its slot 0 is still a valid
entry named `a.txt` with `inum` 2, and the name still resolves to 2. -/
theorem tfs_delete_gap_evaluation :
    (inode_of gap_image.blocks 1).direct 0 = 0 ∧
    (inode_of gap_image.blocks 1).direct 1 = 4 ∧
    tfs_get_inumber name_a gap_image = .ok (2, { gap_image with nreads := 3 }) ∧
    ∃ d', tfs_delete name_a gap_image = .ok (2, d') ∧
      d'.blocks 4 = gap_image.blocks 4 ∧
      entry_matches (d'.blocks 4) name_a 0 ∧ dentry_inum (d'.blocks 4) 0 = 2 ∧
      tfs_get_inumber name_a d' = .ok (2, { d' with nreads := d'.nreads + 3 }) :=
  ⟨by decide, by decide, rfl, _, rfl, rfl, by decide, by decide, rfl⟩

/-! ## `tfs_debug` -/

theorem and_shift_ne_zero (w k : Nat) : w &&& (1 <<< k) ≠ 0 ↔ w.testBit k = true := by
  rw [Nat.one_shiftLeft, Nat.and_two_pow]
  cases h : w.testBit k
  · simp
  · simp [Nat.pos_pow_of_pos]

theorem count_in_use_eq (word : Nat → Nat) :
    ∀ (n i count : Nat), count_in_use word n i count =
      count + (List.range n).countP (fun j => (word ((i + j) / 32)).testBit ((i + j) % 32)) := by
  intro n
  induction n with
  | zero => intro i count; simp [count_in_use]
  | succ n ih =>
    intro i count
    have hshift : (List.range n).countP
          ((fun j => (word ((i + j) / 32)).testBit ((i + j) % 32)) ∘ Nat.succ) =
        (List.range n).countP (fun j => (word ((i + 1 + j) / 32)).testBit ((i + 1 + j) % 32)) := by
      congr 1
      funext j
      simp only [Function.comp, Nat.succ_eq_add_one]
      rw [show i + (j + 1) = i + 1 + j by omega]
    rw [List.range_succ_eq_map, List.countP_cons, List.countP_map, hshift]
    simp only [count_in_use, BITS_PER_UINT, Nat.add_zero]
    by_cases hb : (word (i / 32)).testBit (i % 32) = true
    · rw [if_pos ((and_shift_ne_zero _ _).mpr hb), ih, if_pos hb]
      omega
    · rw [if_neg (fun h => hb ((and_shift_ne_zero _ _).mp h)), ih, if_neg hb]
      omega

theorem countP_words (p : Nat → Bool) :
    ∀ W : Nat, (List.range (32 * W)).countP p =
      ((List.range W).map (fun w => (List.range 32).countP (fun k => p (32 * w + k)))).sum := by
  intro W
  induction W with
  | zero => simp
  | succ W ih =>
    rw [show 32 * (W + 1) = 32 * W + 32 by omega, List.range_add, List.countP_append, ih,
      List.countP_map, List.range_succ W, List.map_append, List.sum_append]
    simp only [List.map_cons, List.map_nil, List.sum_cons, List.sum_nil, Nat.add_zero]
    rfl

/-- Claim C17.  The two counts computed by `tfs_debug` are the numbers of set
bits of the two bitmaps of the superblock: the block count is the number of
`i < 2048` with bit `i % 32` of `block_in_use[i / 32]` set, which is the sum of
the population counts (bits 0 to 31) of the 64 words; the inode count is the
same for the 512 indices and 16 words of `inode_in_use`. -/
theorem tfs_debug_counts_popcount (d : Disk) :
    ∃ nb ni d', tfs_debug_counts d = .ok ((nb, ni), d') ∧
      nb = (List.range 2048).countP
        (fun i => (super_block_in_use (d.blocks 0) (i / 32)).testBit (i % 32)) ∧
      nb = ((List.range 64).map (fun w => popcount32 (super_block_in_use (d.blocks 0) w))).sum ∧
      ni = (List.range 512).countP
        (fun i => (super_inode_in_use (d.blocks 0) (i / 32)).testBit (i % 32)) ∧
      ni = ((List.range 16).map (fun w => popcount32 (super_inode_in_use (d.blocks 0) w))).sum := by
  have hrun : tfs_debug_counts d =
      .ok ((count_in_use (super_block_in_use (d.blocks 0)) 2048 0 0,
            count_in_use (super_inode_in_use (d.blocks 0)) 512 0 0),
        { d with nreads := d.nreads + 1 }) := by
    simp only [tfs_debug_counts, bind, StateT.bind, Except.bind,
      disk_read_ok 0 d (le_refl _) (by decide), NUM_BLOCKS, NUM_INODES, Int.toNat_zero]
    rfl
  have hword : ∀ (word : Nat → Nat) (W : Nat),
      (List.range (32 * W)).countP (fun i => (word (i / 32)).testBit (i % 32)) =
        ((List.range W).map (fun w => popcount32 (word w))).sum := by
    intro word W
    rw [countP_words]
    congr 1
    apply List.map_congr_left
    intro w _
    unfold popcount32
    apply List.countP_congr
    intro k hk
    have hk' : k < 32 := List.mem_range.mp hk
    rw [show (32 * w + k) / 32 = w by omega, show (32 * w + k) % 32 = k by omega]
  have hb := count_in_use_eq (super_block_in_use (d.blocks 0)) 2048 0 0
  have hi := count_in_use_eq (super_inode_in_use (d.blocks 0)) 512 0 0
  simp only [Nat.zero_add] at hb hi
  refine ⟨_, _, _, hrun, hb, ?_, hi, ?_⟩
  · rw [hb]; exact hword _ 64
  · rw [hi]; exact hword _ 16

theorem root_direct0_range (ino : tfs_inode) (p : Int)
    (h : find_root_direct ino 5 0 = some p) (h0 : 0 ≤ p) (h1 : p < 2048) :
    0 ≤ ino.direct 0 ∧ ino.direct 0 < 2048 := by
  by_cases hz : ino.direct 0 ≠ 0
  · simp only [find_root_direct, hz, if_true, ne_eq, not_false_eq_true] at h
    injection h with h
    rw [h]
    exact ⟨h0, h1⟩
  · rw [not_not.mp hz]
    exact ⟨le_refl _, by decide⟩

theorem delete_dir_block_cases (blocks : Nat → Block) (n : Int) :
    delete_dir_block blocks n =
        (get_inode (blocks ((super_root_inode (blocks 0)).tdiv 128 + 1).toNat)
          ((super_root_inode (blocks 0)).tmod 128).toNat).direct 0 ∨
      delete_dir_block blocks n = 0 := by
  unfold delete_dir_block inode_cleared write_block
  by_cases hb : ((super_root_inode (blocks 0)).tdiv 128 + 1).toNat = (n / 128 + 1).toNat
  · simp only [hb, if_true]
    by_cases hs : ((super_root_inode (blocks 0)).tmod 128).toNat = (n % 128).toNat
    · right
      simp only [get_inode, ldInt, hs]
      rw [ld32_memset0_in _ _ _ _ (by omega) (by omega), toInt32_zero]
    · left
      simp only [get_inode, ldInt]
      rw [ld32_memset0_out _ _ _ _ (by omega)]
  · left
    simp only [hb, if_false]

theorem delete_dir_block_range (name : List Byte) (d : Disk) (n : Int) (d1 : Disk)
    (hget : tfs_get_inumber name d = .ok (n, d1)) (hn : 0 < n) :
    0 ≤ delete_dir_block d.blocks n ∧ delete_dir_block d.blocks n < 2048 := by
  rcases tfs_get_inumber_inv name d n d1 hget with ⟨_, h0, _⟩ | ⟨_, _, _, _, p, hf, hp0, hp1, _, _⟩
  · omega
  · have hr := root_direct0_range _ p hf hp0 hp1
    rcases delete_dir_block_cases d.blocks n with h | h
    · rw [h]; exact hr
    · rw [h]; exact ⟨le_refl _, by decide⟩

theorem tfs_delete_inv (d : Disk) (name : List Byte) (r : Int) (d' : Disk)
    (h : tfs_delete name d = .ok (r, d')) :
    ∃ n d1, tfs_get_inumber name d = .ok (n, d1) ∧
      ((n ≤ 0 ∧ r = 0 ∧ d' = d1) ∨
       (0 < n ∧ r = n ∧ ∃ sb, delete_super d.blocks n = .ok sb ∧
          d'.blocks = delete_blocks d.blocks n sb ∧ d'.nwrites = d.nwrites + 3)) := by
  cases hg : tfs_get_inumber name d with
  | error e =>
    simp only [tfs_delete, bind, StateT.bind, Except.bind, hg] at h
    exact absurd h (by simp)
  | ok v =>
    obtain ⟨n, d1⟩ := v
    refine ⟨n, d1, rfl, ?_⟩
    by_cases hn : n ≤ 0
    · left
      simp only [tfs_delete, bind, StateT.bind, Except.bind, hg, hn, if_true] at h
      injection h with h
      injection h with h1 h2
      exact ⟨hn, h1.symm, h2.symm⟩
    · right
      have hpos : 0 < n := by omega
      have hrd := delete_dir_block_range name d n d1 hg hpos
      have hsame := tfs_get_inumber_same name d n d1 hg
      have hdiv : n.tdiv 128 = n / 128 := Int.tdiv_eq_ediv (by omega) (by decide)
      have hmod : n.tmod 128 = n % 128 := Int.tmod_eq_emod (by omega) (by decide)
      have hc : checkIndex 128 (n % 128) = .ok (n % 128).toNat :=
        checkIndex_ok _ _ (by omega) (by omega)
      have hsuper : ∃ sb, delete_super d.blocks n = .ok sb := by
        have h2 := h
        simp only [tfs_delete, bind, StateT.bind, Except.bind, hg, hn, if_false,
          INODES_PER_BLOCK, POINTERS_PER_INODE, POINTERS_PER_BLOCK, NUM_DENTRIES_PER_BLOCK,
          Nat.cast_ofNat, hdiv, hmod, disk_read_ok 0 _ (le_refl _) (by decide), Int.toNat_zero,
          liftE, hsame.1] at h2
        by_cases hib : n / 128 + 1 < 2048
        · simp only [disk_read_ok (n / 128 + 1) _ (by omega) hib, hc, hsame.1] at h2
          cases e1 : free_pointers (get_inode (d.blocks (n / 128 + 1).toNat) (n % 128).toNat).direct
              5 0 (d.blocks 0) with
          | error e => rw [e1] at h2; exact absurd h2 (by simp)
          | ok sb1 =>
            rw [e1] at h2
            simp only [] at h2
            have hib0 : 0 ≤ n / 128 + 1 := by omega
            by_cases hz : (get_inode (d.blocks (n / 128 + 1).toNat) (n % 128).toNat).indirect ≠ 0
            · simp only [hz, if_true, ne_eq, not_false_eq_true, StateT.bind] at h2
              by_cases hir : 0 ≤ (get_inode (d.blocks (n / 128 + 1).toNat) (n % 128).toNat).indirect ∧
                  (get_inode (d.blocks (n / 128 + 1).toNat) (n % 128).toNat).indirect < 2048
              · simp only [disk_read_ok _ _ hir.1 hir.2, bind, Except.bind, liftE] at h2
                cases e2 : free_pointers (get_pointer (d.blocks
                    (get_inode (d.blocks (n / 128 + 1).toNat) (n % 128).toNat).indirect.toNat))
                    1024 0 sb1 with
                | error e => rw [e2] at h2; exact absurd h2 (by simp)
                | ok sbi =>
                  rw [e2] at h2
                  simp only [] at h2
                  cases e3 : free_block sbi
                      (get_inode (d.blocks (n / 128 + 1).toNat) (n % 128).toNat).indirect with
                  | error e => rw [e3] at h2; exact absurd h2 (by simp)
                  | ok sb2 =>
                    rw [e3] at h2
                    simp only [disk_write_ok _ _ _ hib0 hib] at h2
                    cases e4 : free_inode sb2 n with
                    | error e => rw [e4] at h2; exact absurd h2 (by simp)
                    | ok sb =>
                      refine ⟨sb, ?_⟩
                      simp only [delete_super, inode_of, e1, hz, if_true, ne_eq, not_false_eq_true,
                        e2, e3, e4, bind, Except.bind]
              · have hne : (get_inode (d.blocks (n / 128 + 1).toNat) (n % 128).toNat).indirect < 0 ∨
                    2048 ≤ (get_inode (d.blocks (n / 128 + 1).toNat) (n % 128).toNat).indirect := by
                  omega
                simp only [disk_read_err _ _ hne, bind, Except.bind] at h2
                exact absurd h2 (by simp)
            · simp only [hz, if_false, StateT.bind, bind, Except.bind, pure, StateT.pure,
                Except.pure, disk_write_ok _ _ _ hib0 hib, liftE] at h2
              cases e4 : free_inode sb1 n with
              | error e => rw [e4] at h2; exact absurd h2 (by simp)
              | ok sb =>
                refine ⟨sb, ?_⟩
                simp only [delete_super, inode_of, e1, hz, if_false, e4, bind, Except.bind, pure,
                  Except.pure]
        · rw [disk_read_err _ _ (by omega)] at h2
          exact absurd h2 (by simp)
      obtain ⟨sb, hsb⟩ := hsuper
      obtain ⟨d'', he, hb, hw⟩ := tfs_delete_run d name n d1 hg hpos sb hsb hrd.1 hrd.2
      rw [he] at h
      injection h with h
      injection h with h1 h2
      subst h2
      exact ⟨hpos, h1.symm, sb, hsb, hb, hw⟩

theorem resolve_block_same (inode : tfs_inode) (k : Int) (d : Disk) (v : Int) (d1 : Disk)
    (h : resolve_block inode k d = .ok (v, d1)) : same_blocks d d1 := by
  by_cases h5 : k < 5
  · simp only [resolve_block, POINTERS_PER_INODE, Nat.cast_ofNat, h5, if_true, bind, StateT.bind,
      Except.bind, liftE] at h
    cases hc : checkIndex 5 k with
    | error e => rw [hc] at h; exact absurd h (by simp)
    | ok i =>
      rw [hc] at h
      simp only [pure, StateT.pure, Except.pure] at h
      injection h with h
      injection h with _ h2
      rw [← h2]
      exact ⟨rfl, rfl⟩
  · simp only [resolve_block, POINTERS_PER_INODE, POINTERS_PER_BLOCK, Nat.cast_ofNat, h5, if_false,
      bind, StateT.bind, Except.bind, liftE] at h
    cases hr : disk_read inode.indirect d with
    | error e => rw [hr] at h; exact absurd h (by simp)
    | ok w =>
      rw [hr] at h
      obtain ⟨b, d2⟩ := w
      have hd2 := (disk_read_inv _ _ _ _ hr).2.2.2
      simp only [] at h
      cases hc : checkIndex 1024 (k - 5) with
      | error e => rw [hc] at h; exact absurd h (by simp)
      | ok i =>
        rw [hc] at h
        simp only [pure, StateT.pure, Except.pure] at h
        injection h with h
        injection h with _ h2
        rw [← h2, hd2]
        exact ⟨rfl, rfl⟩

theorem read_loop_same (inode : tfs_inode) (offset length : Int) :
    ∀ (fuel : Nat) (br : Int) (data : Buffer) (d : Disk) (res : Int × Buffer) (d' : Disk),
      read_loop inode offset length fuel br data d = .ok (res, d') → same_blocks d d' := by
  intro fuel
  induction fuel with
  | zero =>
    intro br data d res d' h
    have hz : read_loop inode offset length 0 br data d = .error .fuel := rfl
    rw [hz] at h
    exact absurd h (by simp)
  | succ fuel ih =>
    intro br data d res d' h
    by_cases hlt : br < length
    · simp only [read_loop, hlt, if_true, bind, StateT.bind, Except.bind] at h
      generalize hr : resolve_block inode ((wrap32 (offset + br)).tdiv ↑DISK_BLOCK_SIZE) d = rr at h
      cases rr with
      | error e => exact absurd h (by simp)
      | ok w =>
        obtain ⟨bn, d1⟩ := w
        have s1 := resolve_block_same _ _ _ _ _ hr
        simp only [] at h
        by_cases hb : bn ≤ 0
        · simp only [hb, if_true, pure, StateT.pure, Except.pure] at h
          injection h with h
          injection h with _ h2
          rw [← h2]
          exact s1
        · simp only [hb, if_false, StateT.bind, bind, Except.bind] at h
          generalize hd : disk_read bn d1 = rd at h
          cases rd with
          | error e => exact absurd h (by simp)
          | ok w2 =>
            obtain ⟨blk, d2⟩ := w2
            have hd2 := (disk_read_inv _ _ _ _ hd).2.2.2
            simp only [liftE] at h
            generalize hm : memcpy data br blk ((wrap32 (offset + br)).tmod ↑DISK_BLOCK_SIZE)
              (if wrap32 (br + (↑DISK_BLOCK_SIZE - (wrap32 (offset + br)).tmod ↑DISK_BLOCK_SIZE)) >
                  length then wrap32 (length - br)
                else ↑DISK_BLOCK_SIZE - (wrap32 (offset + br)).tmod ↑DISK_BLOCK_SIZE) = rm at h
            cases rm with
            | error e => exact absurd h (by simp)
            | ok data1 =>
              simp only [] at h
              have s3 := ih _ _ _ _ _ h
              rw [hd2] at s3
              exact ⟨s3.1.trans s1.1, s3.2.trans s1.2⟩
    · simp only [read_loop, hlt, if_false, pure, StateT.pure, Except.pure] at h
      injection h with h
      injection h with _ h2
      rw [← h2]
      exact ⟨rfl, rfl⟩

theorem tfs_read_same (inumber : Int) (data : Buffer) (length offset : Int) (d : Disk)
    (res : Int × Buffer) (d' : Disk)
    (h : tfs_read inumber data length offset d = .ok (res, d')) : same_blocks d d' := by
  by_cases hg : inumber ≤ 0 ∨ length < 0 ∨ offset < 0
  · simp only [tfs_read, hg, if_true, pure, StateT.pure, Except.pure] at h
    injection h with h
    injection h with _ h2
    rw [← h2]
    exact ⟨rfl, rfl⟩
  · simp only [tfs_read, hg, if_false, bind, StateT.bind, Except.bind, liftE] at h
    generalize hr : disk_read (inumber.tdiv ↑INODES_PER_BLOCK + 1) d = rr at h
    cases rr with
    | error e => exact absurd h (by simp)
    | ok w =>
      obtain ⟨blk, d1⟩ := w
      have hd1 := (disk_read_inv _ _ _ _ hr).2.2.2
      simp only [] at h
      generalize hc : checkIndex INODES_PER_BLOCK (inumber.tmod ↑INODES_PER_BLOCK) = rc at h
      cases rc with
      | error e => exact absurd h (by simp)
      | ok slot =>
        simp only [] at h
        by_cases hs : offset ≥ (get_inode blk slot).size
        · simp only [hs, if_true, pure, StateT.pure, Except.pure] at h
          injection h with h
          injection h with _ h2
          rw [← h2, hd1]
          exact ⟨rfl, rfl⟩
        · simp only [hs, if_false] at h
          have s2 := read_loop_same _ _ _ _ _ _ _ _ _ h
          rw [hd1] at s2
          exact ⟨s2.1, s2.2⟩

theorem tfs_getsize_same (name : List Byte) (d : Disk) (v : Int) (d' : Disk)
    (h : tfs_getsize name d = .ok (v, d')) : same_blocks d d' := by
  simp only [tfs_getsize, bind, StateT.bind, Except.bind] at h
  generalize hg : tfs_get_inumber name d = rg at h
  cases rg with
  | error e => exact absurd h (by simp)
  | ok w =>
    obtain ⟨n, d1⟩ := w
    have s1 := tfs_get_inumber_same name d n d1 hg
    simp only [] at h
    by_cases hn : n ≤ 0
    · simp only [hn, if_true, pure, StateT.pure, Except.pure] at h
      injection h with h
      injection h with _ h2
      rw [← h2]
      exact s1
    · simp only [hn, if_false, StateT.bind, bind, Except.bind, liftE] at h
      generalize hr : disk_read (n.tdiv ↑INODES_PER_BLOCK + 1) d1 = rr at h
      cases rr with
      | error e => exact absurd h (by simp)
      | ok w2 =>
        obtain ⟨blk, d2⟩ := w2
        have hd2 := (disk_read_inv _ _ _ _ hr).2.2.2
        simp only [] at h
        generalize hc : checkIndex INODES_PER_BLOCK (n.tmod ↑INODES_PER_BLOCK) = rc at h
        cases rc with
        | error e => exact absurd h (by simp)
        | ok slot =>
          simp only [pure, StateT.pure, Except.pure] at h
          injection h with h
          injection h with _ h2
          rw [← h2, hd2]
          exact ⟨s1.1, s1.2⟩

theorem tdiv_tmod_of_nonneg_tmod (a : Int) (h : 0 ≤ a.tmod 128) :
    a.tdiv 128 = a / 128 ∧ a.tmod 128 = a % 128 := by
  have g1 := Int.tmod_add_tdiv a 128
  have g2 : a.tmod 128 < 128 := Int.tmod_lt_of_pos _ (by decide)
  constructor <;> omega

theorem delete_blocks_other (blocks : Nat → Block) (n : Int) (sb : Block) (k : Nat)
    (h0 : k ≠ 0) (h1 : k ≠ (n / 128 + 1).toNat) (h2 : k ≠ (delete_dir_block blocks n).toNat) :
    delete_blocks blocks n sb k = blocks k := by
  simp only [delete_blocks, write_block, inode_cleared]
  rw [if_neg h0, if_neg h2, if_neg h1]

/-- Claim C18.  When `tfs_get_inumber name` returns `n`, the superblock's
`root_inode` and `n` lie in `[1, 512)`, and every direct pointer, the indirect
field and every pointer of the indirect block of inode `n` lie in `[0, 2048)`,
`tfs_delete name` reaches no error branch: it returns `n`.  The indices it
uses are in bounds: bitmap words `p / 32 < 64` and `n / 32 < 16`, bit numbers
below 32, inode slots below 128, table blocks in `[1, 4]`, and the directory
block it reads and writes in `[0, 2048)`. -/
theorem tfs_delete_in_bounds (d : Disk) (name : List Byte) (n : Int) (d1 : Disk)
    (hget : tfs_get_inumber name d = .ok (n, d1))
    (hroot : 1 ≤ super_root_inode (d.blocks 0) ∧ super_root_inode (d.blocks 0) < 512)
    (hn : 1 ≤ n) (hn512 : n < 512)
    (hdir : ∀ j, j < 5 →
      0 ≤ (inode_of d.blocks n).direct j ∧ (inode_of d.blocks n).direct j < 2048)
    (hind : 0 ≤ (inode_of d.blocks n).indirect ∧ (inode_of d.blocks n).indirect < 2048)
    (hptr : (inode_of d.blocks n).indirect ≠ 0 → ∀ i, i < 1024 →
      0 ≤ get_pointer (d.blocks (inode_of d.blocks n).indirect.toNat) i ∧
      get_pointer (d.blocks (inode_of d.blocks n).indirect.toNat) i < 2048) :
    (∃ d', tfs_delete name d = .ok (n, d')) ∧
    (∀ p : Int, 0 ≤ p → p < 2048 →
      checkIndex (NUM_BLOCKS / BITS_PER_UINT) (p.tdiv BITS_PER_UINT) = .ok (p / 32).toNat ∧
      checkIndex BITS_PER_UINT (p.tmod BITS_PER_UINT) = .ok (p % 32).toNat ∧
      (p / 32).toNat < 64 ∧ (p % 32).toNat < 32) ∧
    (checkIndex (NUM_INODES / BITS_PER_UINT) (n.tdiv BITS_PER_UINT) = .ok (n / 32).toNat ∧
      (n / 32).toNat < 16) ∧
    (checkIndex INODES_PER_BLOCK (n.tmod INODES_PER_BLOCK) = .ok (n % 128).toNat ∧
      (n % 128).toNat < 128 ∧ 1 ≤ n.tdiv INODES_PER_BLOCK + 1 ∧ n.tdiv INODES_PER_BLOCK + 1 ≤ 4) ∧
    (checkIndex INODES_PER_BLOCK ((super_root_inode (d.blocks 0)).tmod INODES_PER_BLOCK) =
        .ok (super_root_inode (d.blocks 0) % 128).toNat ∧
      1 ≤ (super_root_inode (d.blocks 0)).tdiv INODES_PER_BLOCK + 1 ∧
      (super_root_inode (d.blocks 0)).tdiv INODES_PER_BLOCK + 1 ≤ 4) ∧
    (0 ≤ delete_dir_block d.blocks n ∧ delete_dir_block d.blocks n < 2048) := by
  obtain ⟨sb, hsb, _⟩ := delete_super_ok d.blocks n (by omega) hn512 hdir hind hptr
  have hrd := delete_dir_block_range name d n d1 hget (by omega)
  obtain ⟨d', he, _, _⟩ := tfs_delete_run d name n d1 hget (by omega) sb hsb hrd.1 hrd.2
  have e64 : NUM_BLOCKS / 32 = 64 := rfl
  have e16 : NUM_INODES / 32 = 16 := rfl
  refine ⟨⟨d', he⟩, fun p hp0 hp1 => ?_, ?_, ?_, ?_, hrd⟩
  · have hdiv : p.tdiv 32 = p / 32 := Int.tdiv_eq_ediv hp0 (by decide)
    have hmod : p.tmod 32 = p % 32 := Int.tmod_eq_emod hp0 (by decide)
    simp only [BITS_PER_UINT, e64, Nat.cast_ofNat, hdiv, hmod]
    exact ⟨checkIndex_ok _ _ (by omega) (by omega), checkIndex_ok _ _ (by omega) (by omega),
      by omega, by omega⟩
  · have hdiv : n.tdiv 32 = n / 32 := Int.tdiv_eq_ediv (by omega) (by decide)
    simp only [BITS_PER_UINT, e16, Nat.cast_ofNat, hdiv]
    exact ⟨checkIndex_ok _ _ (by omega) (by omega), by omega⟩
  · have hdiv : n.tdiv 128 = n / 128 := Int.tdiv_eq_ediv (by omega) (by decide)
    have hmod : n.tmod 128 = n % 128 := Int.tmod_eq_emod (by omega) (by decide)
    simp only [INODES_PER_BLOCK, Nat.cast_ofNat, hdiv, hmod]
    exact ⟨checkIndex_ok _ _ (by omega) (by omega), by omega, by omega, by omega⟩
  · have hdiv : (super_root_inode (d.blocks 0)).tdiv 128 = super_root_inode (d.blocks 0) / 128 :=
      Int.tdiv_eq_ediv (by omega) (by decide)
    have hmod : (super_root_inode (d.blocks 0)).tmod 128 = super_root_inode (d.blocks 0) % 128 :=
      Int.tmod_eq_emod (by omega) (by decide)
    simp only [INODES_PER_BLOCK, Nat.cast_ofNat, hdiv, hmod]
    exact ⟨checkIndex_ok _ _ (by omega) (by omega), by omega, by omega⟩

/-- Witness of `tfs_delete_in_bounds`: deleting `a.txt` (inode 2) in the example
image. -/
theorem tfs_delete_in_bounds_witness :
    ∃ d', tfs_delete name_a example_image = .ok (2, d') := by
  have hz : (inode_of example_image.blocks 2).indirect = 0 := by decide
  exact (tfs_delete_in_bounds example_image name_a 2 { example_image with nreads := 3 } rfl
    (by decide) (by decide) (by decide)
    (fun j hj => by
      have : j = 0 ∨ j = 1 ∨ j = 2 ∨ j = 3 ∨ j = 4 := by omega
      rcases this with h | h | h | h | h <;> subst h <;> decide)
    (by decide) (fun h => absurd hz h)).1

/-- Claim C20.  `tfs_delete` writes at most three blocks: when it returns, every
block other than block 0, the table block `n / 128 + 1` of the inode `n` that
the name resolves to, and the block named by `direct[0]` of the root inode is
as before the call; in particular this holds of the blocks named by the
pointers of inode `n`.  `tfs_get_inumber`, `tfs_getsize` and `tfs_read` write
nothing: when they return, every block is as before and the write counter has
not moved. -/
theorem tfs_delete_frame (d : Disk) (name : List Byte) :
    (∀ r d', tfs_delete name d = .ok (r, d') →
      ∃ n d1, tfs_get_inumber name d = .ok (n, d1) ∧ (r = 0 ∨ r = n) ∧
        d'.nwrites ≤ d.nwrites + 3 ∧
        (∀ k : Nat, k ≠ 0 → k ≠ (n / 128 + 1).toNat →
          k ≠ ((inode_of d.blocks (super_root_inode (d.blocks 0))).direct 0).toNat →
          d'.blocks k = d.blocks k) ∧
        (∀ p : Int,
          ((∃ j, j < 5 ∧ (inode_of d.blocks n).direct j = p) ∨
            (inode_of d.blocks n).indirect = p ∨
            (∃ i, i < 1024 ∧
              get_pointer (d.blocks (inode_of d.blocks n).indirect.toNat) i = p)) →
          p.toNat ≠ 0 → p.toNat ≠ (n / 128 + 1).toNat →
          p.toNat ≠ ((inode_of d.blocks (super_root_inode (d.blocks 0))).direct 0).toNat →
          d'.blocks p.toNat = d.blocks p.toNat)) ∧
    (∀ n d1, tfs_get_inumber name d = .ok (n, d1) →
      d1.blocks = d.blocks ∧ d1.nwrites = d.nwrites) ∧
    (∀ v d1, tfs_getsize name d = .ok (v, d1) →
      d1.blocks = d.blocks ∧ d1.nwrites = d.nwrites) ∧
    (∀ (inumber : Int) (data : Buffer) (length offset : Int) (res : Int × Buffer) (d1 : Disk),
      tfs_read inumber data length offset d = .ok (res, d1) →
      d1.blocks = d.blocks ∧ d1.nwrites = d.nwrites) := by
  refine ⟨fun r d' h => ?_, fun n d1 h => tfs_get_inumber_same name d n d1 h,
    fun v d1 h => tfs_getsize_same name d v d1 h,
    fun inumber data length offset res d1 h => tfs_read_same inumber data length offset d res d1 h⟩
  obtain ⟨n, d1, hg, hcase⟩ := tfs_delete_inv d name r d' h
  have hs := tfs_get_inumber_same name d n d1 hg
  have hframe : d'.nwrites ≤ d.nwrites + 3 ∧
      ∀ k : Nat, k ≠ 0 → k ≠ (n / 128 + 1).toNat →
        k ≠ ((inode_of d.blocks (super_root_inode (d.blocks 0))).direct 0).toNat →
        d'.blocks k = d.blocks k := by
    rcases hcase with ⟨_, _, hd'⟩ | ⟨hpos, _, sb, _, hb, hw⟩
    · rw [hd', hs.1, hs.2]
      exact ⟨by omega, fun _ _ _ _ => rfl⟩
    · refine ⟨by omega, fun k h0 h1 h2 => ?_⟩
      rw [hb]
      rcases tfs_get_inumber_inv name d n d1 hg with ⟨_, hz, _⟩ | ⟨_, _, _, r3, _⟩
      · omega
      · have ht := tdiv_tmod_of_nonneg_tmod _ r3
        apply delete_blocks_other _ _ _ _ h0 h1
        rcases delete_dir_block_cases d.blocks n with hc | hc
        · rw [hc, ht.1, ht.2]
          exact h2
        · rw [hc]
          exact h0
  refine ⟨n, d1, hg, ?_, hframe.1, hframe.2, fun p _ h0 h1 h2 => hframe.2 p.toNat h0 h1 h2⟩
  rcases hcase with ⟨_, hr, _⟩ | ⟨_, hr, _⟩
  · exact Or.inl hr
  · exact Or.inr hr

/-- Witness of `tfs_delete_frame`: deleting `a.txt` in the example image leaves
its data block 5 as it was. -/
theorem tfs_delete_frame_witness :
    ∃ d', tfs_delete name_a example_image = .ok (2, d') ∧
      d'.blocks 5 = example_image.blocks 5 := by
  have hrun : ∃ d', tfs_delete name_a example_image = .ok (2, d') := ⟨_, rfl⟩
  obtain ⟨d', he⟩ := hrun
  obtain ⟨n, d1, hg, _, _, hk, _⟩ := (tfs_delete_frame example_image name_a).1 2 d' he
  have hg2 : tfs_get_inumber name_a example_image =
      .ok (2, { example_image with nreads := 3 }) := rfl
  rw [hg2] at hg
  injection hg with hg
  injection hg with hn _
  subst hn
  exact ⟨d', he, hk 5 (by decide) (by decide) (by decide)⟩

/-! ## Termination of the read loop -/

theorem read_loop_succ (inode : tfs_inode) (offset length : Int) (fuel : Nat) (br : Int)
    (data : Buffer) :
    read_loop inode offset length (fuel + 1) br data =
      (if br < length then do
        let block_index := (wrap32 (offset + br)).tdiv DISK_BLOCK_SIZE
        let block_offset := (wrap32 (offset + br)).tmod DISK_BLOCK_SIZE
        let block_number ← resolve_block inode block_index
        if block_number ≤ 0 then pure (br, data)
        else do
          let block ← disk_read block_number
          let to_read := DISK_BLOCK_SIZE - block_offset
          let to_read := if wrap32 (br + to_read) > length then wrap32 (length - br)
                         else to_read
          let data ← liftE (memcpy data br block block_offset to_read)
          read_loop inode offset length fuel (wrap32 (br + to_read)) data
      else pure (br, data)) := rfl

theorem read_loop_fuel_succ (inode : tfs_inode) (offset length : Int) :
    ∀ (fuel : Nat) (br : Int) (data : Buffer) (d : Disk)
      (res : Except Fault ((Int × Buffer) × Disk)),
      read_loop inode offset length fuel br data d = res → res ≠ .error .fuel →
      read_loop inode offset length (fuel + 1) br data d = res := by
  intro fuel
  induction fuel with
  | zero =>
    intro br data d res h hne
    have hz : read_loop inode offset length 0 br data d = .error .fuel := rfl
    rw [hz] at h
    exact absurd h.symm hne
  | succ fuel ih =>
    intro br data d res h hne
    rw [read_loop_succ] at h ⊢
    by_cases hlt : br < length
    · simp only [hlt, if_true, bind, StateT.bind, Except.bind] at h ⊢
      generalize resolve_block inode ((wrap32 (offset + br)).tdiv ↑DISK_BLOCK_SIZE) d = rr at h ⊢
      cases rr with
      | error e => exact h
      | ok w =>
        simp only [] at h ⊢
        by_cases hb : w.1 ≤ 0
        · simp only [hb, if_true] at h ⊢
          exact h
        · simp only [hb, if_false, StateT.bind, bind, Except.bind] at h ⊢
          generalize disk_read w.1 w.2 = rd at h ⊢
          cases rd with
          | error e => exact h
          | ok w2 =>
            simp only [liftE] at h ⊢
            generalize memcpy data br w2.1 ((wrap32 (offset + br)).tmod ↑DISK_BLOCK_SIZE)
              (if wrap32 (br + (↑DISK_BLOCK_SIZE - (wrap32 (offset + br)).tmod ↑DISK_BLOCK_SIZE)) >
                  length then wrap32 (length - br)
                else ↑DISK_BLOCK_SIZE - (wrap32 (offset + br)).tmod ↑DISK_BLOCK_SIZE) = rm at h ⊢
            cases rm with
            | error e => exact h
            | ok data1 =>
              simp only [] at h ⊢
              exact ih _ _ _ _ h hne
    · simp only [hlt, if_false] at h ⊢
      exact h

theorem read_loop_fuel_le (inode : tfs_inode) (offset length : Int) (fuel : Nat) (br : Int)
    (data : Buffer) (d : Disk) (hne : read_loop inode offset length fuel br data d ≠ .error .fuel) :
    ∀ extra : Nat, read_loop inode offset length (fuel + extra) br data d =
      read_loop inode offset length fuel br data d := by
  intro extra
  induction extra with
  | zero => rfl
  | succ extra ih =>
    exact read_loop_fuel_succ inode offset length (fuel + extra) br data d _ ih hne

theorem read_loop_enough (inode : tfs_inode) (offset length : Int) (h0 : 0 ≤ offset)
    (hL : offset + length ≤ 2147483647) :
    ∀ (fuel : Nat) (br : Int) (data : Buffer) (d : Disk), 0 ≤ br → br ≤ length →
      (br < length → (offset + length - 1) / 4096 - (offset + br) / 4096 + 1 < fuel) →
      0 < fuel →
      read_loop inode offset length fuel br data d ≠ .error .fuel := by
  intro fuel
  induction fuel with
  | zero => intro br data d _ _ _ hf; omega
  | succ fuel ih =>
    intro br data d hb hle hfuel _
    by_cases hlt : br < length
    · have hf := hfuel hlt
      rcases read_loop_step inode offset length fuel br data d h0 hb hlt hL with
        ⟨_, he⟩ | ⟨_, _, d1, _, he⟩ | ⟨_, _, d1, _, he⟩
      · rw [he]; simp
      · rw [he]; simp
      · rw [he]
        apply ih
        · omega
        · omega
        · intro hlt'
          omega
        · omega
    · rw [read_loop_succ]
      simp only [hlt, if_false]
      intro h
      exact absurd h (by simp [pure, StateT.pure, Except.pure])

/-- Claim C19.  For `offset ≥ 0`, `length ≥ 0` (the length after the clamp) and
`offset + length` within the 32-bit signed range, on every device state: an
iteration of the copy loop that neither faults nor breaks on a hole adds
`to_read` to `bytes_read` with `1 ≤ to_read ≤ 4096`, staying at most `length`;
and the loop ends within `(length + 4095) / 4096 + 1` iterations: any budget
of loop tests above that number is not exhausted and gives the result that the
budget `length + 1` of `tfs_read` gives; and `tfs_read` itself, for
`inumber > 0` and a requested length `len ≥ 0` with `offset + len` in range,
never exhausts its budget. -/
theorem read_loop_terminates (inode : tfs_inode) (offset length : Int) (ho : 0 ≤ offset)
    (hl : 0 ≤ length) (hL : offset + length ≤ 2147483647) :
    (∀ (fuel : Nat) (br : Int) (data : Buffer) (d : Disk), 0 ≤ br → br < length →
      read_loop inode offset length (fuel + 1) br data d = .error .bounds ∨
      (∃ d1, read_loop inode offset length (fuel + 1) br data d = .ok ((br, data), d1)) ∨
      (∃ (to_read : Int) (data1 : Buffer) (d1 : Disk), 1 ≤ to_read ∧ to_read ≤ 4096 ∧
        br + to_read ≤ length ∧
        read_loop inode offset length (fuel + 1) br data d =
          read_loop inode offset length fuel (br + to_read) data1 d1)) ∧
    (∀ (fuel : Nat) (data : Buffer) (d : Disk), (length + 4095) / 4096 + 1 < fuel →
      read_loop inode offset length fuel 0 data d ≠ .error .fuel ∧
      read_loop inode offset length fuel 0 data d =
        read_loop inode offset length (length.toNat + 1) 0 data d) ∧
    (∀ (d : Disk) (inumber : Int) (data : Buffer) (len : Int), 0 < inumber → 0 ≤ len →
      offset + len ≤ 2147483647 → tfs_read inumber data len offset d ≠ .error .fuel) := by
  refine ⟨?_, ?_, ?_⟩
  · intro fuel br data d hb hlt
    rcases read_loop_step inode offset length fuel br data d ho hb hlt hL with
      ⟨_, he⟩ | ⟨_, _, d1, _, he⟩ | ⟨_, _, d1, _, he⟩
    · exact Or.inl he
    · exact Or.inr (Or.inl ⟨d1, he⟩)
    · exact Or.inr (Or.inr ⟨_, _, d1, by omega, by omega, by omega, he⟩)
  · intro fuel data d hf
    have hmin : read_loop inode offset length ((length + 4095) / 4096 + 2).toNat 0 data d ≠
        .error .fuel :=
      read_loop_enough inode offset length ho hL _ 0 data d (le_refl _) hl
        (fun h => by omega) (by omega)
    have e1 := read_loop_fuel_le inode offset length _ 0 data d hmin
      (fuel - ((length + 4095) / 4096 + 2).toNat)
    have e2 := read_loop_fuel_le inode offset length _ 0 data d hmin
      (length.toNat + 1 - ((length + 4095) / 4096 + 2).toNat)
    have f1 : ((length + 4095) / 4096 + 2).toNat + (fuel - ((length + 4095) / 4096 + 2).toNat) =
        fuel := by omega
    rw [f1] at e1
    by_cases hbig : ((length + 4095) / 4096 + 2).toNat ≤ length.toNat + 1
    · have f2 : ((length + 4095) / 4096 + 2).toNat +
          (length.toNat + 1 - ((length + 4095) / 4096 + 2).toNat) = length.toNat + 1 := by omega
      rw [f2] at e2
      rw [e1, e2]
      exact ⟨hmin, rfl⟩
    · have hsmall : read_loop inode offset length (length.toNat + 1) 0 data d ≠ .error .fuel :=
        read_loop_enough inode offset length ho hL _ 0 data d (le_refl _) hl
          (fun h => by omega) (by omega)
      have e3 := read_loop_fuel_le inode offset length _ 0 data d hsmall
        (fuel - (length.toNat + 1))
      have f3 : length.toNat + 1 + (fuel - (length.toNat + 1)) = fuel := by omega
      rw [f3] at e3
      rw [e3]
      exact ⟨hsmall, rfl⟩
  · intro d inumber data len hi hlen hsum
    by_cases hb : inumber / 128 + 1 < 2048
    · by_cases hs : offset < (inode_of d.blocks inumber).size
      · rcases tfs_read_spec d inumber data len offset hi hb hlen ho hsum hs with
          ⟨r, data', d', he, _, _⟩ | ⟨he, _⟩
        · rw [he]; simp
        · rw [he]; simp
      · have he := tfs_read_run d inumber data len offset hi hb hlen ho hsum
        rw [if_pos (by omega)] at he
        rw [he]; simp
    · rw [tfs_read_no_inode d inumber data len offset hi (by omega) hlen ho]
      simp

/-- Witness of `read_loop_terminates`: the six-block file `big` of the example
image, read whole from offset 0, with a budget of 8 loop tests. -/
theorem read_loop_terminates_witness :
    read_loop (inode_of example_image.blocks 3) 0 20580 8 0 zero_buffer example_image ≠
        .error .fuel ∧
      read_loop (inode_of example_image.blocks 3) 0 20580 8 0 zero_buffer example_image =
        read_loop (inode_of example_image.blocks 3) 0 20580 ((20580 : Int).toNat + 1) 0
          zero_buffer example_image :=
  (read_loop_terminates (inode_of example_image.blocks 3) 0 20580 (by decide) (by decide)
    (by decide)).2.1 8 zero_buffer example_image (by decide)

/-! ## The bitmaps -/

theorem ld32_lt (b : Block) (o : Nat) : ld32 b o < 4294967296 := by
  unfold ld32
  have h0 := (b o).isLt
  have h1 := (b (o + 1)).isLt
  have h2 := (b (o + 2)).isLt
  have h3 := (b (o + 3)).isLt
  omega

theorem ld32_st32_same (b : Block) (o w : Nat) : ld32 (st32 b o w) o = w % 4294967296 := by
  unfold ld32 st32
  simp only [if_true, Nat.add_right_eq_self, OfNat.ofNat_ne_zero, if_false, Nat.add_right_cancel_iff,
    Nat.reduceEqDiff, Nat.succ_ne_self, Fin.ofNat, Fin.val_mk]
  omega

theorem ld32_st32_other (b : Block) (o w o' : Nat) (h : o' + 4 ≤ o ∨ o + 4 ≤ o') :
    ld32 (st32 b o w) o' = ld32 b o' := by
  apply ld32_congr
  intro i h1 h2
  exact st32_other b o w i (by omega)

theorem clear_bit_le (w k : Nat) : clear_bit w k ≤ w := Nat.and_le_left

theorem clear_bit_testBit (w k i : Nat) (hi : i < 32) :
    (clear_bit w k).testBit i = (w.testBit i && decide (i ≠ k)) := by
  unfold clear_bit
  rw [Nat.testBit_and, Nat.testBit_xor, Nat.one_shiftLeft, Nat.testBit_two_pow,
    show (4294967295 : Nat) = 2 ^ 32 - 1 by norm_num, Nat.testBit_two_pow_sub_one]
  by_cases e : k = i
  · subst e; simp [hi]
  · have e' : i ≠ k := fun h => e h.symm
    simp [hi, e, e']

theorem free_block_bits (sb : Block) (p : Int) (sb' : Block) (h : free_block sb p = .ok sb') :
    0 ≤ p ∧ p < 2048 ∧
    (∀ q, q < 2048 → block_bit sb' q = (block_bit sb q && decide (q ≠ p.toNat))) ∧
    (∀ m, m < 512 → inode_bit sb' m = inode_bit sb m) ∧
    (∀ o, o < 16 → sb' o = sb o) := by
  obtain ⟨h0, h1, hlow⟩ := free_block_inv sb p sb' h
  rw [free_block_ok sb p h0 h1] at h
  injection h with h
  subst h
  refine ⟨h0, h1, fun q hq => ?_, fun m hm => ?_, hlow⟩
  · unfold block_bit super_block_in_use
    by_cases hw : q / 32 = (p / 32).toNat
    · rw [hw, ld32_st32_same, Nat.mod_eq_of_lt
        (lt_of_le_of_lt (clear_bit_le _ _) (ld32_lt _ _)),
        clear_bit_testBit _ _ _ (Nat.mod_lt _ (by decide))]
      congr 1
      have e : (q % 32 ≠ (p % 32).toNat) ↔ (q ≠ p.toNat) := by omega
      exact decide_eq_decide.mpr e
    · rw [ld32_st32_other _ _ _ _ (by omega)]
      have e : q ≠ p.toNat := by omega
      simp [e]
  · unfold inode_bit super_inode_in_use
    rw [ld32_st32_other _ _ _ _ (by omega)]

theorem free_inode_bits (sb : Block) (n : Int) (sb' : Block) (h : free_inode sb n = .ok sb') :
    0 ≤ n ∧ n < 512 ∧
    (∀ q, q < 2048 → block_bit sb' q = block_bit sb q) ∧
    (∀ m, m < 512 → inode_bit sb' m = (inode_bit sb m && decide (m ≠ n.toNat))) ∧
    (∀ o, o < 16 → sb' o = sb o) := by
  obtain ⟨h0, h1, hlow⟩ := free_inode_inv sb n sb' h
  rw [free_inode_ok sb n h0 h1] at h
  injection h with h
  subst h
  refine ⟨h0, h1, fun q hq => ?_, fun m hm => ?_, hlow⟩
  · unfold block_bit super_block_in_use
    rw [ld32_st32_other _ _ _ _ (by omega)]
  · unfold inode_bit super_inode_in_use
    by_cases hw : m / 32 = (n / 32).toNat
    · rw [hw, ld32_st32_same, Nat.mod_eq_of_lt
        (lt_of_le_of_lt (clear_bit_le _ _) (ld32_lt _ _)),
        clear_bit_testBit _ _ _ (Nat.mod_lt _ (by decide))]
      congr 1
      have e : (m % 32 ≠ (n % 32).toNat) ↔ (m ≠ n.toNat) := by omega
      exact decide_eq_decide.mpr e
    · rw [ld32_st32_other _ _ _ _ (by omega)]
      have e : m ≠ n.toNat := by omega
      simp [e]

theorem free_pointers_bits (ptr : Nat → Int) :
    ∀ (n i : Nat) (sb sb' : Block), free_pointers ptr n i sb = .ok sb' →
      (∀ j, i ≤ j → j < i + n → ptr j ≠ 0 → 0 ≤ ptr j ∧ ptr j < 2048) ∧
      (∀ q, q < 2048 → (block_bit sb' q = true ↔
        block_bit sb q = true ∧ ∀ j, i ≤ j → j < i + n → ptr j ≠ 0 → ptr j ≠ (q : Int))) ∧
      (∀ m, m < 512 → inode_bit sb' m = inode_bit sb m) := by
  intro n
  induction n with
  | zero =>
    intro i sb sb' h
    simp only [free_pointers, pure, Except.pure] at h
    injection h with h
    subst h
    exact ⟨fun j h1 h2 => by omega, fun q _ => ⟨fun hq => ⟨hq, fun j h1 h2 => by omega⟩,
      fun hq => hq.1⟩, fun _ _ => rfl⟩
  | succ n ih =>
    intro i sb sb' h
    by_cases hz : ptr i ≠ 0
    · simp only [free_pointers, hz, if_true, ne_eq, not_false_eq_true, bind, Except.bind] at h
      cases hf : free_block sb (ptr i) with
      | error e1 => rw [hf] at h; exact absurd h (by simp)
      | ok sb1 =>
        rw [hf] at h
        simp only [] at h
        obtain ⟨b0, b1, b2, b3, _⟩ := free_block_bits sb (ptr i) sb1 hf
        obtain ⟨g1, g2, g3⟩ := ih (i + 1) sb1 sb' h
        refine ⟨fun j h1 h2 hj => ?_, fun q hq => ?_, fun m hm => ?_⟩
        · by_cases e : j = i
          · rw [e]; exact ⟨b0, b1⟩
          · exact g1 j (by omega) (by omega) hj
        · rw [g2 q hq, b2 q hq]
          constructor
          · intro ⟨hb, hall⟩
            simp only [Bool.and_eq_true, decide_eq_true_eq] at hb
            refine ⟨hb.1, fun j h1 h2 hj => ?_⟩
            by_cases e : j = i
            · rw [e]; intro hc; exact hb.2 (by omega)
            · exact hall j (by omega) (by omega) hj
          · intro ⟨hb, hall⟩
            refine ⟨?_, fun j h1 h2 hj => hall j (by omega) (by omega) hj⟩
            simp only [Bool.and_eq_true, decide_eq_true_eq]
            refine ⟨hb, fun hc => ?_⟩
            exact hall i (le_refl _) (by omega) hz (by omega)
        · rw [g3 m hm, b3 m hm]
    · simp only [free_pointers, hz, if_false] at h
      obtain ⟨g1, g2, g3⟩ := ih (i + 1) sb sb' h
      refine ⟨fun j h1 h2 hj => ?_, fun q hq => ?_, g3⟩
      · by_cases e : j = i
        · rw [e] at hj; exact absurd hj hz
        · exact g1 j (by omega) (by omega) hj
      · rw [g2 q hq]
        constructor
        · intro ⟨hb, hall⟩
          refine ⟨hb, fun j h1 h2 hj => ?_⟩
          by_cases e : j = i
          · rw [e] at hj; exact absurd hj hz
          · exact hall j (by omega) (by omega) hj
        · intro ⟨hb, hall⟩
          exact ⟨hb, fun j h1 h2 hj => hall j (by omega) (by omega) hj⟩

theorem delete_super_bits (blocks : Nat → Block) (n : Int) (sb : Block)
    (h : delete_super blocks n = .ok sb) :
    (∀ q, q < 2048 → (block_bit sb q = true ↔
      block_bit (blocks 0) q = true ∧ ¬ refers blocks (inode_of blocks n) (q : Int))) ∧
    (∀ m, m < 512 → inode_bit sb m = (inode_bit (blocks 0) m && decide (m ≠ n.toNat))) ∧
    (∀ o, o < 16 → sb o = blocks 0 o) := by
  obtain ⟨sb1, sb2, e1, e2, e3, flow⟩ := delete_super_inv blocks n sb h
  obtain ⟨_, a2, a3⟩ := free_pointers_bits _ _ _ _ _ e1
  obtain ⟨_, _, c2, c3, _⟩ := free_inode_bits _ _ _ e3
  refine ⟨fun q hq => ?_, fun m hm => ?_, flow⟩
  · rw [c2 q hq]
    rcases e2 with ⟨hz, hi0, hi1, sbi, e21, e22⟩ | ⟨hz, e2⟩
    · obtain ⟨_, b2, b3⟩ := free_pointers_bits _ _ _ _ _ e21
      obtain ⟨_, _, f2, f3, _⟩ := free_block_bits _ _ _ e22
      rw [f2 q hq]
      simp only [Bool.and_eq_true, decide_eq_true_eq]
      rw [b2 q hq, a2 q hq]
      constructor
      · intro ⟨⟨⟨hb, hd⟩, hp⟩, hne⟩
        refine ⟨hb, fun ⟨hq0, hor⟩ => ?_⟩
        rcases hor with ⟨j, hj, e⟩ | ⟨_, e | ⟨i, hi, e⟩⟩
        · exact hd j (Nat.zero_le _) (by omega) (by rw [e]; exact hq0) e
        · exact hne (by omega)
        · exact hp i (Nat.zero_le _) (by omega) (by rw [e]; exact hq0) e
      · intro ⟨hb, hnr⟩
        refine ⟨⟨⟨hb, fun j _ hj hne heq => ?_⟩, fun i _ hi hne heq => ?_⟩, fun heq => ?_⟩
        · exact hnr ⟨by rw [← heq]; exact hne, Or.inl ⟨j, by omega, heq⟩⟩
        · exact hnr ⟨by rw [← heq]; exact hne, Or.inr ⟨hz, Or.inr ⟨i, by omega, heq⟩⟩⟩
        · exact hnr ⟨by omega, Or.inr ⟨hz, Or.inl (by omega)⟩⟩
    · subst e2
      rw [a2 q hq]
      constructor
      · intro ⟨hb, hd⟩
        refine ⟨hb, fun ⟨hq0, hor⟩ => ?_⟩
        rcases hor with ⟨j, hj, e⟩ | ⟨hnz, _⟩
        · exact hd j (Nat.zero_le _) (by omega) (by rw [e]; exact hq0) e
        · exact hnz hz
      · intro ⟨hb, hnr⟩
        refine ⟨hb, fun j _ hj hne heq => ?_⟩
        exact hnr ⟨by rw [← heq]; exact hne, Or.inl ⟨j, by omega, heq⟩⟩
  · rw [c3 m hm]
    rcases e2 with ⟨hz, hi0, hi1, sbi, e21, e22⟩ | ⟨hz, e2⟩
    · obtain ⟨_, b2, b3⟩ := free_pointers_bits _ _ _ _ _ e21
      obtain ⟨_, _, f2, f3, _⟩ := free_block_bits _ _ _ e22
      rw [f3 m hm, b3 m hm, a3 m hm]
    · subst e2
      rw [a3 m hm]

theorem delete_blocks_zero (blocks : Nat → Block) (n : Int) (sb : Block) :
    delete_blocks blocks n sb 0 = sb := by
  simp only [delete_blocks, write_block, if_true]

/-- Claim C11.  When `tfs_get_inumber name` returns `n` with `0 < n < 512` and
every direct pointer, the indirect field and every pointer of the indirect
block of inode `n` lie in `[0, 2048)`, `tfs_delete name` returns `n` and the
superblock found in block 0 afterwards has: block-bitmap bit `p` clear for
every nonzero direct pointer `p` of the inode and, when `indirect != 0`, for
every nonzero pointer `p` of its indirect block and for `p = indirect`;
inode-bitmap bit `n` clear; every other bit of the block bitmap and of the
inode bitmap as before the call; and the sixteen bytes of the four scalar
fields (hence `root_inode`) as before the call. -/
theorem tfs_delete_bitmaps (d : Disk) (name : List Byte) (n : Int) (d1 : Disk)
    (hget : tfs_get_inumber name d = .ok (n, d1)) (hn : 0 < n) (hn512 : n < 512)
    (hdir : ∀ j, j < 5 →
      0 ≤ (inode_of d.blocks n).direct j ∧ (inode_of d.blocks n).direct j < 2048)
    (hind : 0 ≤ (inode_of d.blocks n).indirect ∧ (inode_of d.blocks n).indirect < 2048)
    (hptr : (inode_of d.blocks n).indirect ≠ 0 → ∀ i, i < 1024 →
      0 ≤ get_pointer (d.blocks (inode_of d.blocks n).indirect.toNat) i ∧
      get_pointer (d.blocks (inode_of d.blocks n).indirect.toNat) i < 2048) :
    ∃ d', tfs_delete name d = .ok (n, d') ∧
      (∀ j, j < 5 → (inode_of d.blocks n).direct j ≠ 0 →
        block_bit (d'.blocks 0) ((inode_of d.blocks n).direct j).toNat = false) ∧
      ((inode_of d.blocks n).indirect ≠ 0 →
        (∀ i, i < 1024 → get_pointer (d.blocks (inode_of d.blocks n).indirect.toNat) i ≠ 0 →
          block_bit (d'.blocks 0)
            (get_pointer (d.blocks (inode_of d.blocks n).indirect.toNat) i).toNat = false) ∧
        block_bit (d'.blocks 0) (inode_of d.blocks n).indirect.toNat = false) ∧
      inode_bit (d'.blocks 0) n.toNat = false ∧
      (∀ q : Nat, q < 2048 → ¬ refers d.blocks (inode_of d.blocks n) (q : Int) →
        block_bit (d'.blocks 0) q = block_bit (d.blocks 0) q) ∧
      (∀ m, m < 512 → m ≠ n.toNat → inode_bit (d'.blocks 0) m = inode_bit (d.blocks 0) m) ∧
      (∀ o, o < 16 → d'.blocks 0 o = d.blocks 0 o) ∧
      super_root_inode (d'.blocks 0) = super_root_inode (d.blocks 0) := by
  obtain ⟨sb, hsb, _⟩ := delete_super_ok d.blocks n (by omega) hn512 hdir hind hptr
  have hrd := delete_dir_block_range name d n d1 hget hn
  obtain ⟨d', he, hb, _⟩ := tfs_delete_run d name n d1 hget hn sb hsb hrd.1 hrd.2
  obtain ⟨hbits, hibits, hlow⟩ := delete_super_bits d.blocks n sb hsb
  have h0 : d'.blocks 0 = sb := by rw [hb, delete_blocks_zero]
  have hclear : ∀ p : Int, 0 ≤ p → p < 2048 → refers d.blocks (inode_of d.blocks n) p →
      block_bit sb p.toNat = false := by
    intro p hp0 hp1 hr
    cases hbit : block_bit sb p.toNat with
    | false => rfl
    | true =>
      have hcast : ((p.toNat : Nat) : Int) = p := Int.toNat_of_nonneg hp0
      have := ((hbits p.toNat (by omega)).mp hbit).2
      rw [hcast] at this
      exact absurd hr this
  refine ⟨d', he, ?_⟩
  rw [h0]
  refine ⟨fun j hj hne => ?_, fun hz => ⟨fun i hi hne => ?_, ?_⟩, ?_,
    fun q hq hnr => ?_, fun m hm hne => ?_, hlow, ?_⟩
  · exact hclear _ (hdir j hj).1 (hdir j hj).2 ⟨hne, Or.inl ⟨j, hj, rfl⟩⟩
  · exact hclear _ (hptr hz i hi).1 (hptr hz i hi).2 ⟨hne, Or.inr ⟨hz, Or.inr ⟨i, hi, rfl⟩⟩⟩
  · exact hclear _ hind.1 hind.2 ⟨hz, Or.inr ⟨hz, Or.inl rfl⟩⟩
  · rw [hibits n.toNat (by omega)]
    simp
  · cases hbit : block_bit (d.blocks 0) q with
    | true => exact (hbits q hq).mpr ⟨hbit, hnr⟩
    | false =>
      cases hbit' : block_bit sb q with
      | false => rfl
      | true => rw [((hbits q hq).mp hbit').1] at hbit; exact absurd hbit (by simp)
  · rw [hibits m hm]
    simp [hne]
  · unfold super_root_inode ldInt
    rw [ld32_congr (d.blocks 0) sb 12 (fun i _ _ => hlow i (by omega))]

/-- Witness of `tfs_delete_bitmaps`: deleting `a.txt` (inode 2, one data block,
block 5) in the example image clears block bit 5 and inode bit 2 and leaves
block bit 4 and inode bit 1 set. -/
theorem tfs_delete_bitmaps_witness :
    ∃ d', tfs_delete name_a example_image = .ok (2, d') ∧
      block_bit (d'.blocks 0) 5 = false ∧ inode_bit (d'.blocks 0) 2 = false ∧
      block_bit (d'.blocks 0) 4 = true ∧ inode_bit (d'.blocks 0) 1 = true := by
  have hz : (inode_of example_image.blocks 2).indirect = 0 := by decide
  have hd : ∀ j, j < 5 → 0 ≤ (inode_of example_image.blocks 2).direct j ∧
      (inode_of example_image.blocks 2).direct j < 2048 := fun j hj => by
    have : j = 0 ∨ j = 1 ∨ j = 2 ∨ j = 3 ∨ j = 4 := by omega
    rcases this with h | h | h | h | h <;> subst h <;> decide
  have hnr : ¬ refers example_image.blocks (inode_of example_image.blocks 2) ((4 : Nat) : Int) := by
    intro ⟨_, hor⟩
    rcases hor with ⟨j, hj, e⟩ | ⟨hnz, _⟩
    · have : j = 0 ∨ j = 1 ∨ j = 2 ∨ j = 3 ∨ j = 4 := by omega
      rcases this with h | h | h | h | h <;> subst h <;> revert e <;> decide
    · exact hnz hz
  obtain ⟨d', he, h1, _, h3, h4, h5, _⟩ :=
    tfs_delete_bitmaps example_image name_a 2 { example_image with nreads := 3 } rfl
      (by decide) (by decide) hd (by decide) (fun h => absurd hz h)
  refine ⟨d', he, h1 0 (by decide) (by decide), h3, ?_, ?_⟩
  · rw [h4 4 (by decide) hnr]; decide
  · rw [h5 1 (by decide) (by decide)]; decide

/-! ## The directory and the inode table after a delete -/

theorem get_inode_memset0_other (b : Block) (s s' : Nat) (h : s' ≠ s) :
    (∀ j, j < 5 → (get_inode (memset0 b (32 * s) 32) s').direct j = (get_inode b s').direct j) ∧
    (get_inode (memset0 b (32 * s) 32) s').indirect = (get_inode b s').indirect := by
  simp only [get_inode, ldInt]
  refine ⟨fun j hj => ?_, ?_⟩
  · rw [ld32_memset0_out _ _ _ _ (by omega)]
  · rw [ld32_memset0_out _ _ _ _ (by omega)]

theorem dentry_memset0_same (b : Block) (s : Nat) :
    dentry_valid (memset0 b (32 * s) 32) s = 0 := by
  simp only [dentry_valid, ldInt]
  rw [ld32_memset0_in _ _ _ _ (by omega) (by omega), toInt32_zero]

theorem dentry_memset0_other (b : Block) (s s' : Nat) (h : s' ≠ s) :
    dentry_valid (memset0 b (32 * s) 32) s' = dentry_valid b s' ∧
    dentry_inum (memset0 b (32 * s) 32) s' = dentry_inum b s' ∧
    (∀ k, k < 24 → dentry_fname (memset0 b (32 * s) 32) s' k = dentry_fname b s' k) := by
  simp only [dentry_valid, dentry_inum, dentry_fname, ldInt]
  refine ⟨?_, ?_, fun k hk => ?_⟩
  · rw [ld32_memset0_out _ _ _ _ (by omega)]
  · rw [ld32_memset0_out _ _ _ _ (by omega)]
  · unfold memset0
    rw [if_neg (by omega)]

theorem fname_from_congr (b b' : Block) (slot : Nat)
    (h : ∀ k, k < 24 → dentry_fname b' slot k = dentry_fname b slot k) :
    ∀ (n k : Nat), k + n ≤ 24 → fname_from b' slot n k = fname_from b slot n k := by
  intro n
  induction n with
  | zero => intro k _; rfl
  | succ n ih =>
    intro k hk
    simp only [fname_from]
    rw [h k (by omega), ih (k + 1) (by omega)]

theorem entry_matches_memset0_other (b : Block) (name : List Byte) (s s' : Nat) (h : s' ≠ s) :
    entry_matches (memset0 b (32 * s) 32) name s' ↔ entry_matches b name s' := by
  obtain ⟨h1, _, h3⟩ := dentry_memset0_other b s s' h
  unfold entry_matches dentry_name
  rw [h1, fname_from_congr b _ s' h3 24 0 (by omega)]

theorem clear_dentry_spec (b : Block) (v : Int) :
    ∀ (n i : Nat),
      (∃ s, i ≤ s ∧ s < i + n ∧ dentry_valid b s ≠ 0 ∧ dentry_inum b s = v ∧
          (∀ s', i ≤ s' → s' < s → ¬ (dentry_valid b s' ≠ 0 ∧ dentry_inum b s' = v)) ∧
          clear_dentry b v n i = memset0 b (32 * s) 32) ∨
      ((∀ s, i ≤ s → s < i + n → ¬ (dentry_valid b s ≠ 0 ∧ dentry_inum b s = v)) ∧
        clear_dentry b v n i = b) := by
  intro n
  induction n with
  | zero => intro i; right; exact ⟨fun s h1 h2 => by omega, rfl⟩
  | succ n ih =>
    intro i
    by_cases hm : dentry_valid b i ≠ 0 ∧ dentry_inum b i = v
    · left
      refine ⟨i, le_refl _, by omega, hm.1, hm.2, fun s' h1 h2 => by omega, ?_⟩
      simp only [clear_dentry]
      rw [if_pos hm]
    · have hstep : clear_dentry b v (n + 1) i = clear_dentry b v n (i + 1) := by
        simp only [clear_dentry]
        rw [if_neg hm]
      rw [hstep]
      rcases ih (i + 1) with ⟨s, h1, h2, h3, h4, h5, h6⟩ | ⟨h1, h2⟩
      · left
        refine ⟨s, by omega, by omega, h3, h4, fun s' g1 g2 => ?_, h6⟩
        by_cases e : s' = i
        · rw [e]; exact hm
        · exact h5 s' (by omega) g2
      · right
        refine ⟨fun s g1 g2 => ?_, h2⟩
        by_cases e : s = i
        · rw [e]; exact hm
        · exact h1 s (by omega) (by omega)

theorem inode_cleared_other (blocks : Nat → Block) (n m : Int) (hn : 0 ≤ n) (hm : 0 ≤ m)
    (hne : m ≠ n) :
    (∀ j, j < 5 → (inode_of (inode_cleared blocks n) m).direct j = (inode_of blocks m).direct j) ∧
    (inode_of (inode_cleared blocks n) m).indirect = (inode_of blocks m).indirect := by
  unfold inode_of inode_cleared write_block
  by_cases hb : (m / 128 + 1).toNat = (n / 128 + 1).toNat
  · simp only [hb, if_true]
    rw [← hb]
    exact get_inode_memset0_other _ _ _ (by omega)
  · rw [if_neg hb]
    exact ⟨fun _ _ => rfl, rfl⟩

theorem delete_dir_block_eq (blocks : Nat → Block) (n : Int) (hn : 0 ≤ n)
    (hr : 0 ≤ super_root_inode (blocks 0)) (hne : super_root_inode (blocks 0) ≠ n) :
    delete_dir_block blocks n = (inode_of blocks (super_root_inode (blocks 0))).direct 0 := by
  have hdiv : (super_root_inode (blocks 0)).tdiv 128 = super_root_inode (blocks 0) / 128 :=
    Int.tdiv_eq_ediv hr (by decide)
  have hmod : (super_root_inode (blocks 0)).tmod 128 = super_root_inode (blocks 0) % 128 :=
    Int.tmod_eq_emod hr (by decide)
  have h := (inode_cleared_other blocks n (super_root_inode (blocks 0)) hn hr hne).1 0 (by decide)
  unfold delete_dir_block
  rw [hdiv, hmod]
  exact h

theorem inode_cleared_block (blocks : Nat → Block) (n : Int) (k : Nat)
    (h : k ≠ (n / 128 + 1).toNat) : inode_cleared blocks n k = blocks k := by
  unfold inode_cleared write_block
  rw [if_neg h]

theorem tfs_delete_post (d : Disk) (name : List Byte) (n : Int) (d1 : Disk)
    (hget : tfs_get_inumber name d = .ok (n, d1)) (hn : 0 < n)
    (hr0 : 0 ≤ super_root_inode (d.blocks 0)) (hne : super_root_inode (d.blocks 0) ≠ n)
    (hD0 : (inode_of d.blocks (super_root_inode (d.blocks 0))).direct 0 ≠ 0)
    (hDN : (inode_of d.blocks (super_root_inode (d.blocks 0))).direct 0 ≠ n / 128 + 1)
    (sb : Block) (hsb : delete_super d.blocks n = .ok sb) :
    strlen name < 24 ∧ super_root_inode (d.blocks 0) / 128 + 1 < 2048 ∧
    0 ≤ (inode_of d.blocks (super_root_inode (d.blocks 0))).direct 0 ∧
    (inode_of d.blocks (super_root_inode (d.blocks 0))).direct 0 < 2048 ∧
    n = scan_dentries
      (d.blocks ((inode_of d.blocks (super_root_inode (d.blocks 0))).direct 0).toNat) name 128 0 ∧
    ∃ d', tfs_delete name d = .ok (n, d') ∧ d'.nwrites = d.nwrites + 3 ∧ d'.blocks 0 = sb ∧
      d'.blocks ((inode_of d.blocks (super_root_inode (d.blocks 0))).direct 0).toNat =
        clear_dentry
          (d.blocks ((inode_of d.blocks (super_root_inode (d.blocks 0))).direct 0).toNat)
          n 128 0 ∧
      (∀ k, k ≠ 0 → k ≠ ((inode_of d.blocks (super_root_inode (d.blocks 0))).direct 0).toNat →
        d'.blocks k = inode_cleared d.blocks n k) := by
  have hdiv : (super_root_inode (d.blocks 0)).tdiv 128 = super_root_inode (d.blocks 0) / 128 :=
    Int.tdiv_eq_ediv hr0 (by decide)
  have hmod : (super_root_inode (d.blocks 0)).tmod 128 = super_root_inode (d.blocks 0) % 128 :=
    Int.tmod_eq_emod hr0 (by decide)
  have hrd := delete_dir_block_range name d n d1 hget hn
  have hrdeq := delete_dir_block_eq d.blocks n (by omega) hr0 hne
  obtain ⟨d', he, hb, hw⟩ := tfs_delete_run d name n d1 hget hn sb hsb hrd.1 hrd.2
  rw [hrdeq] at hrd
  rcases tfs_get_inumber_inv name d n d1 hget with
    ⟨_, h0, _⟩ | ⟨hlen, _, hR, _, p, hf, _, _, hscan, _⟩
  · omega
  rw [hdiv] at hR
  rw [hdiv, hmod] at hf
  have hp : p = (inode_of d.blocks (super_root_inode (d.blocks 0))).direct 0 := by
    unfold inode_of at hD0
    simp only [find_root_direct, hD0, if_true, ne_eq, not_false_eq_true] at hf
    injection hf with hf
    exact hf.symm
  rw [hp] at hscan
  refine ⟨hlen, hR, hrd.1, hrd.2, hscan, d', he, hw, ?_, ?_, fun k h0 hk => ?_⟩
  · rw [hb, delete_blocks_zero]
  · rw [hb]
    simp only [delete_blocks, write_block, hrdeq]
    rw [if_neg (by omega), if_pos trivial, inode_cleared_block _ _ _ (by omega)]
  · rw [hb]
    simp only [delete_blocks, write_block, hrdeq]
    rw [if_neg h0, if_neg hk]

theorem tfs_delete_none (d : Disk) (name : List Byte) (n : Int) (d1 : Disk)
    (hget : tfs_get_inumber name d = .ok (n, d1)) (hn : n ≤ 0) :
    tfs_delete name d = .ok (0, d1) := by
  simp only [tfs_delete, bind, StateT.bind, Except.bind, hget, hn, if_true]
  rfl

theorem super_root_inode_congr (sb sb' : Block) (h : ∀ o, o < 16 → sb' o = sb o) :
    super_root_inode sb' = super_root_inode sb := by
  unfold super_root_inode ldInt
  rw [ld32_congr sb sb' 12 (fun i _ _ => h i (by omega))]

set_option maxRecDepth 8192 in
/-- Claim C12, the claim as stated fails.  In the twin image the name `a.txt`
is carried by two valid entries, bound to inodes 2 and 3: `tfs_delete` returns
2 and zeroes the first entry, after which `tfs_get_inumber` returns 3, not 0,
and a second `tfs_delete` returns 3, not 0. -/
theorem tfs_delete_then_lookup_counterexample :
    ∃ d', tfs_delete name_a twin_image = .ok (2, d') ∧
      (∃ d2, tfs_get_inumber name_a d' = .ok (3, d2)) ∧
      (∃ d3, tfs_delete name_a d' = .ok (3, d3)) :=
  ⟨_, rfl, ⟨_, rfl⟩, ⟨_, rfl⟩⟩

/-- Claim C12, amended.  When `tfs_delete name` returns a positive number `n`
on an image whose root inode number is not negative and is not `n`, whose
directory block is named by `direct[0]` of the root inode (it is nonzero) and
is neither the table block of the root inode nor that of inode `n`, in whose
directory at most one valid entry carries the name, and in whose directory the
lowest-indexed valid entry with `inum = n` is an entry carrying the name:
`tfs_get_inumber name` on the resulting device returns 0, and a second
`tfs_delete name` returns 0 and writes nothing. -/
theorem tfs_delete_then_lookup (d : Disk) (name : List Byte) (n : Int) (d' : Disk)
    (hdel : tfs_delete name d = .ok (n, d')) (hn : 0 < n)
    (hr0 : 0 ≤ super_root_inode (d.blocks 0)) (hne : super_root_inode (d.blocks 0) ≠ n)
    (hD0 : (inode_of d.blocks (super_root_inode (d.blocks 0))).direct 0 ≠ 0)
    (hDR : (inode_of d.blocks (super_root_inode (d.blocks 0))).direct 0 ≠
      super_root_inode (d.blocks 0) / 128 + 1)
    (hDN : (inode_of d.blocks (super_root_inode (d.blocks 0))).direct 0 ≠ n / 128 + 1)
    (hnames : ∀ j j', j < 128 → j' < 128 →
      entry_matches
        (d.blocks ((inode_of d.blocks (super_root_inode (d.blocks 0))).direct 0).toNat) name j →
      entry_matches
        (d.blocks ((inode_of d.blocks (super_root_inode (d.blocks 0))).direct 0).toNat) name j' →
      j = j')
    (hfirst : ∀ j, j < 128 →
      dentry_valid
        (d.blocks ((inode_of d.blocks (super_root_inode (d.blocks 0))).direct 0).toNat) j ≠ 0 →
      dentry_inum
        (d.blocks ((inode_of d.blocks (super_root_inode (d.blocks 0))).direct 0).toNat) j = n →
      (∀ j', j' < j → ¬ (dentry_valid
          (d.blocks ((inode_of d.blocks (super_root_inode (d.blocks 0))).direct 0).toNat) j' ≠ 0 ∧
        dentry_inum
          (d.blocks ((inode_of d.blocks (super_root_inode (d.blocks 0))).direct 0).toNat) j' = n)) →
      entry_matches
        (d.blocks ((inode_of d.blocks (super_root_inode (d.blocks 0))).direct 0).toNat) name j) :
    (∃ d2, tfs_get_inumber name d' = .ok (0, d2)) ∧
    (∃ d3, tfs_delete name d' = .ok (0, d3) ∧ d3.blocks = d'.blocks ∧
      d3.nwrites = d'.nwrites) := by
  obtain ⟨n0, d1, hget, hcase⟩ := tfs_delete_inv d name n d' hdel
  rcases hcase with ⟨h1, h2, _⟩ | ⟨_, h2, sb, hsb, _, _⟩
  · omega
  subst h2
  obtain ⟨_, _, _, _, _, hlow⟩ := delete_super_inv d.blocks n sb hsb
  obtain ⟨hlen, hR, hD1, hD2, hscan, d'', he, _, hb0, hdir, htab⟩ :=
    tfs_delete_post d name n d1 hget hn hr0 hne hD0 hDN sb hsb
  rw [hdel] at he
  injection he with he
  injection he with _ he
  subst he
  generalize hB : d.blocks
    ((inode_of d.blocks (super_root_inode (d.blocks 0))).direct 0).toNat = B at *
  -- the entry that is zeroed carries the name
  have hclr : ∃ s, s < 128 ∧ entry_matches B name s ∧
      clear_dentry B n 128 0 = memset0 B (32 * s) 32 := by
    rcases clear_dentry_spec B n 128 0 with ⟨s, _, g2, g3, g4, g5, g6⟩ | ⟨g1, _⟩
    · exact ⟨s, by omega, hfirst s (by omega) g3 g4 (fun j' hj' => g5 j' (Nat.zero_le _) hj'), g6⟩
    · rcases scan_dentries_spec B name hlen 128 0 with ⟨s, _, f2, f3, _, f5⟩ | ⟨_, f2⟩
      · exact absurd ⟨f3.1, by rw [← f5, ← hscan]⟩ (g1 s (Nat.zero_le _) (by omega))
      · omega
  obtain ⟨s, hs, hms, hclear⟩ := hclr
  have hnone : ∀ j, j < 128 → ¬ entry_matches (memset0 B (32 * s) 32) name j := by
    intro j hj hm
    by_cases e : j = s
    · rw [e] at hm
      exact hm.1 (dentry_memset0_same B s)
    · exact e (hnames j s hj hs ((entry_matches_memset0_other B name s j e).mp hm) hms)
  have hzero : scan_dentries (memset0 B (32 * s) 32) name 128 0 = 0 := by
    rcases scan_dentries_spec (memset0 B (32 * s) 32) name hlen 128 0 with
      ⟨j, _, f2, f3, _, _⟩ | ⟨_, f2⟩
    · exact absurd f3 (hnone j (by omega))
    · exact f2
  -- the root inode and the directory block are found as before
  have hroot : super_root_inode (d'.blocks 0) = super_root_inode (d.blocks 0) := by
    rw [hb0]; exact super_root_inode_congr _ _ hlow
  have hino : (inode_of d'.blocks (super_root_inode (d.blocks 0))).direct 0 =
      (inode_of d.blocks (super_root_inode (d.blocks 0))).direct 0 := by
    have h1 := (inode_cleared_other d.blocks n (super_root_inode (d.blocks 0)) (by omega) hr0
      hne).1 0 (by decide)
    rw [← h1]
    unfold inode_of
    rw [htab _ (by omega) (by omega)]
  have hget' : tfs_get_inumber name d' = .ok (0, { d' with nreads := d'.nreads + 3 }) := by
    have h := tfs_get_inumber_spec d' name 0 hlen (by rw [hroot]; exact hr0)
      (by rw [hroot]; exact hR) (by decide) (by rw [hroot, hino]; exact hD0)
      (fun j' h => by omega) (by rw [hroot, hino]; exact hD1) (by rw [hroot, hino]; exact hD2)
    rw [hroot, hino, hdir, hclear, hzero] at h
    exact h
  exact ⟨⟨_, hget'⟩, ⟨_, tfs_delete_none d' name 0 _ hget' (le_refl _), rfl, rfl⟩⟩

/-- Witness of `tfs_delete_then_lookup`: deleting `a.txt` in the example image,
then looking it up and deleting it again. -/
theorem tfs_delete_then_lookup_witness :
    ∃ d', tfs_delete name_a example_image = .ok (2, d') ∧
      (∃ d2, tfs_get_inumber name_a d' = .ok (0, d2)) ∧
      (∃ d3, tfs_delete name_a d' = .ok (0, d3) ∧ d3.blocks = d'.blocks ∧
        d3.nwrites = d'.nwrites) := by
  have hrun : ∃ d', tfs_delete name_a example_image = .ok (2, d') := ⟨_, rfl⟩
  obtain ⟨d', he⟩ := hrun
  have hD : (inode_of example_image.blocks (super_root_inode (example_image.blocks 0))).direct 0
      = 4 := by decide
  have hB : example_image.blocks (4 : Int).toNat = example_dir := rfl
  have h1 : ∀ j, j < 128 → entry_matches example_dir name_a j → j = 0 := by decide
  have h2 : ∀ j, j < 128 → dentry_valid example_dir j ≠ 0 → dentry_inum example_dir j = 2 →
      j = 0 := by decide
  have h3 : entry_matches example_dir name_a 0 := by decide
  exact ⟨d', he, tfs_delete_then_lookup example_image name_a 2 d' he (by decide) (by decide)
    (by decide) (by decide) (by decide) (by decide)
    (by
      rw [hD, hB]
      intro j j' hj hj' hm hm'
      rw [h1 j hj hm, h1 j' hj' hm'])
    (by
      rw [hD, hB]
      intro j hj hv hi _
      rw [h2 j hj hv hi]
      exact h3)⟩

/-! ## Bitmap/structure consistency -/

end TFS
